import Mathlib

/-!
Verification of `linkedmap.LinkedMap` (thinkgos/fifo)

A shallow embedding of `linkedmap/linked_map.go`.

* A Go `interface{}` is an `Option`: `none` is Go's `nil`.
* `container/list` is embedded as the front-to-back sequence of its elements.  An element is
  its address (`id`, a natural number handed out by an allocation counter that only grows)
  together with its `Value`.
* The Go map `data map[interface{}]*list.Element` is an association list from keys to element
  addresses.
* A method returns `Except Fault (result × state)`.  `Fault.nilDeref` is Go's nil-pointer panic
  on `e.Value` when `Front()`/`Back()` returned `nil`.  `Fault.dangling` marks the index
  holding the address of an element that is not in the list: the embedding keeps no heap of
  detached elements, so it stops there; the invariant `WF` rules the situation out.
-/

namespace linkedmap

/-- The Go struct `store`: one key/value entry. -/
structure store (K V : Type) where
  key : Option K
  value : Option V
deriving DecidableEq, Repr

/-- A `*list.Element`: the address `id` and the field `Value` (always a `store` here). -/
structure Element (K V : Type) where
  id : Nat
  Value : store K V
deriving DecidableEq, Repr

/-- A `*list.List`: the elements front to back and the allocation counter. -/
structure GoList (K V : Type) where
  elems : List (Element K V)
  next : Nat
deriving DecidableEq, Repr

/-- How a method can stop instead of returning. -/
inductive Fault where
  | nilDeref
  | dangling
deriving DecidableEq, Repr

namespace GoList

variable {K V : Type}

/-- The function `list.New()`. -/
def New : GoList K V := ⟨[], 0⟩

/-- The method `l.Init()`: the list becomes empty. -/
def Init (l : GoList K V) : GoList K V := { l with elems := [] }

/-- The method `l.Len()`. -/
def Len (l : GoList K V) : Int := (l.elems.length : Int)

/-- The method `l.Front()`: the first element or `nil`. -/
def Front (l : GoList K V) : Option (Element K V) := l.elems.head?

/-- The method `l.Back()`: the last element or `nil`. -/
def Back (l : GoList K V) : Option (Element K V) := l.elems.getLast?

/-- Dereference of an element address: the element of `l` at address `h`. -/
def deref (l : GoList K V) (h : Nat) : Option (Element K V) :=
  l.elems.find? (fun e => e.id = h)

/-- The assignment `e.Value = st` through the address `h`. -/
def setValue (l : GoList K V) (h : Nat) (st : store K V) : GoList K V :=
  { l with elems := l.elems.map (fun e => if e.id = h then { e with Value := st } else e) }

/-- The method `l.Remove(e)`: unlinks `e` when it is an element of `l`. -/
def Remove (l : GoList K V) (h : Nat) : GoList K V :=
  { l with elems := l.elems.filter (fun e => e.id ≠ h) }

/-- The method `l.PushFront(v)`: allocates an element, links it first, returns its address. -/
def PushFront (l : GoList K V) (st : store K V) : Nat × GoList K V :=
  (l.next, ⟨⟨l.next, st⟩ :: l.elems, l.next + 1⟩)

/-- The method `l.PushBack(v)`: allocates an element, links it last, returns its address. -/
def PushBack (l : GoList K V) (st : store K V) : Nat × GoList K V :=
  (l.next, ⟨l.elems ++ [⟨l.next, st⟩], l.next + 1⟩)

/-- The method `l.MoveToFront(e)`: no effect when `e` is not an element of `l`. -/
def MoveToFront (l : GoList K V) (h : Nat) : GoList K V :=
  match l.deref h with
  | none => l
  | some e => { l with elems := e :: l.elems.filter (fun x => x.id ≠ h) }

/-- The method `l.MoveToBack(e)`: no effect when `e` is not an element of `l`. -/
def MoveToBack (l : GoList K V) (h : Nat) : GoList K V :=
  match l.deref h with
  | none => l
  | some e => { l with elems := l.elems.filter (fun x => x.id ≠ h) ++ [e] }

end GoList

/-- Go map lookup `m[k]` with the comma-ok form: `none` when the key is absent. -/
def mapGet {K : Type} [DecidableEq K] (m : List (Option K × Nat)) (k : Option K) : Option Nat :=
  (m.find? (fun p => p.1 = k)).map Prod.snd

/-- Go `delete(m, k)`. -/
def mapDelete {K : Type} [DecidableEq K] (m : List (Option K × Nat)) (k : Option K) :
    List (Option K × Nat) :=
  m.filter (fun p => p.1 ≠ k)

/-- Go `m[k] = h`. -/
def mapSet {K : Type} [DecidableEq K] (m : List (Option K × Nat)) (k : Option K) (h : Nat) :
    List (Option K × Nat) :=
  mapDelete m k ++ [(k, h)]

/-- The Go struct `LinkedMap`.  The comparator interface is the function `Compare`; `none` is a
nil comparator. -/
structure LinkedMap (K V : Type) where
  data : List (Option K × Nat)
  l : GoList K V
  cmp : Option (Option V → Option V → Int)
  cap : Int

/-- The Go type `Option` of the package: a function that configures a map. -/
abbrev MapOption (K V : Type) := LinkedMap K V → LinkedMap K V

variable {K V : Type}

/-- The function `WithCap`. -/
def WithCap (cap : Int) : MapOption K V := fun lm => { lm with cap := cap }

/-- The function `WithComparator`. -/
def WithComparator (cmp : Option V → Option V → Int) : MapOption K V :=
  fun lm => { lm with cmp := some cmp }

/-- The function `New`: an empty map, then every option applied in order. -/
def New (opts : List (MapOption K V)) : LinkedMap K V :=
  opts.foldl (fun lm opt => opt lm) ⟨[], GoList.New, none, 0⟩

namespace LinkedMap

/-- The method `Cap`. -/
def Cap (sf : LinkedMap K V) : Int := sf.cap

/-- The method `Len`. -/
def Len (sf : LinkedMap K V) : Int := sf.l.Len

/-- The method `IsEmpty`. -/
def IsEmpty (sf : LinkedMap K V) : Bool := decide (sf.Len = 0)

/-- The method `Clear`: a new empty index, and the list re-initialised. -/
def Clear (sf : LinkedMap K V) : LinkedMap K V :=
  { sf with data := [], l := sf.l.Init }

section keyed
variable [DecidableEq K]

/-- The method `PushFront`. -/
def PushFront (sf : LinkedMap K V) (k : Option K) (v : Option V) :
    Except Fault (Option V × LinkedMap K V) :=
  match mapGet sf.data k with
  | some old =>
    match sf.l.deref old with
    | none => .error .dangling
    | some oe =>
      let retVal := oe.Value.value
      let l1 := sf.l.setValue old ⟨k, v⟩
      .ok (retVal, { sf with l := l1.MoveToFront old })
  | none =>
    if sf.cap ≠ 0 ∧ sf.l.Len ≥ sf.cap then
      match sf.l.Back with
      | none => .error .nilDeref
      | some e =>
        let data1 := mapDelete sf.data e.Value.key
        let l1 := sf.l.Remove e.id
        let r := l1.PushFront ⟨k, v⟩
        .ok (none, { sf with data := mapSet data1 k r.1, l := r.2 })
    else
      let r := sf.l.PushFront ⟨k, v⟩
      .ok (none, { sf with data := mapSet sf.data k r.1, l := r.2 })

/-- The method `PushBack`. -/
def PushBack (sf : LinkedMap K V) (k : Option K) (v : Option V) :
    Except Fault (Option V × LinkedMap K V) :=
  match mapGet sf.data k with
  | some old =>
    match sf.l.deref old with
    | none => .error .dangling
    | some oe =>
      let retVal := oe.Value.value
      let l1 := sf.l.setValue old ⟨k, v⟩
      .ok (retVal, { sf with l := l1.MoveToBack old })
  | none =>
    if sf.cap ≠ 0 ∧ sf.l.Len ≥ sf.cap then
      match sf.l.Front with
      | none => .error .nilDeref
      | some e =>
        let data1 := mapDelete sf.data e.Value.key
        let l1 := sf.l.Remove e.id
        let r := l1.PushBack ⟨k, v⟩
        .ok (none, { sf with data := mapSet data1 k r.1, l := r.2 })
    else
      let r := sf.l.PushBack ⟨k, v⟩
      .ok (none, { sf with data := mapSet sf.data k r.1, l := r.2 })

/-- The method `Push`. -/
def Push (sf : LinkedMap K V) (k : Option K) (v : Option V) :
    Except Fault (Option V × LinkedMap K V) :=
  sf.PushBack k v

/-- The method `PollFront`: the result is the triple `(k, v, exist)`. -/
def PollFront (sf : LinkedMap K V) : (Option K × Option V × Bool) × LinkedMap K V :=
  match sf.l.Front with
  | some e =>
    let st := e.Value
    ((st.key, st.value, true),
      { sf with data := mapDelete sf.data st.key, l := sf.l.Remove e.id })
  | none => ((none, none, false), sf)

/-- The method `PollBack`. -/
def PollBack (sf : LinkedMap K V) : (Option K × Option V × Bool) × LinkedMap K V :=
  match sf.l.Back with
  | some e =>
    let st := e.Value
    ((st.key, st.value, true),
      { sf with data := mapDelete sf.data st.key, l := sf.l.Remove e.id })
  | none => ((none, none, false), sf)

/-- The method `Poll`. -/
def Poll (sf : LinkedMap K V) : (Option K × Option V × Bool) × LinkedMap K V :=
  sf.PollFront

/-- The method `Remove`. -/
def Remove (sf : LinkedMap K V) (k : Option K) :
    Except Fault ((Option V × Bool) × LinkedMap K V) :=
  match mapGet sf.data k with
  | some oldElement =>
    match sf.l.deref oldElement with
    | none => .error .dangling
    | some oe =>
      let retVal := oe.Value.value
      .ok ((retVal, true),
        { sf with data := mapDelete sf.data k, l := sf.l.Remove oldElement })
  | none => .ok ((none, false), sf)

/-- The method `ContainsKey`. -/
def ContainsKey (sf : LinkedMap K V) (k : Option K) : Bool :=
  (mapGet sf.data k).isSome

/-- The method `Get`; `defaultValue` is the variadic argument. -/
def Get (sf : LinkedMap K V) (k : Option K) (defaultValue : List (Option V)) :
    Except Fault (Option V × LinkedMap K V) :=
  match mapGet sf.data k with
  | some old =>
    let l1 := sf.l.MoveToBack old
    match l1.deref old with
    | none => .error .dangling
    | some oe => .ok (oe.Value.value, { sf with l := l1 })
  | none =>
    match defaultValue with
    | d :: _ => .ok (d, sf)
    | [] => .ok (none, sf)

end keyed

/-- The method `PeekFront`. -/
def PeekFront (sf : LinkedMap K V) : Option K × Option V × Bool :=
  match sf.l.Front with
  | some e => (e.Value.key, e.Value.value, true)
  | none => (none, none, false)

/-- The method `PeekBack`. -/
def PeekBack (sf : LinkedMap K V) : Option K × Option V × Bool :=
  match sf.l.Back with
  | some e => (e.Value.key, e.Value.value, true)
  | none => (none, none, false)

/-- The method `Peek`. -/
def Peek (sf : LinkedMap K V) : Option K × Option V × Bool := sf.PeekFront

/-- The method `compare`. -/
def compare [DecidableEq V] (sf : LinkedMap K V) (v1 v2 : Option V) : Bool :=
  match sf.cmp with
  | some c => decide (c v1 v2 = 0)
  | none => decide (v1 = v2)

/-- The method `ContainsValue`: the loop from `Front()` along `Next()`. -/
def ContainsValue [DecidableEq V] (sf : LinkedMap K V) (v : Option V) : Bool :=
  sf.l.elems.any (fun e => sf.compare e.Value.value v)

/-- The loop shared by `Iterator` and `ReverseIterator` over the elements in visiting order:
the entries passed to `cb`, in call order.  A nil `cb` returns at once; a `false` answer ends
the loop after that call. -/
def visit (cb : Option (Option K → Option V → Bool)) :
    List (Element K V) → List (store K V)
  | [] => []
  | e :: rest =>
    match cb with
    | none => []
    | some f => if f e.Value.key e.Value.value then e.Value :: visit cb rest else [e.Value]

/-- The method `Iterator`: from `Front()` along `Next()`. -/
def Iterator (sf : LinkedMap K V) (cb : Option (Option K → Option V → Bool)) :
    List (store K V) :=
  visit cb sf.l.elems

/-- The method `ReverseIterator`: from `Back()` along `Prev()`. -/
def ReverseIterator (sf : LinkedMap K V) (cb : Option (Option K → Option V → Bool)) :
    List (store K V) :=
  visit cb sf.l.elems.reverse

/-- The front-to-back entry sequence of the map. -/
def entries (sf : LinkedMap K V) : List (store K V) := sf.l.elems.map Element.Value

end LinkedMap

/-- One call on a map, with its arguments. -/
inductive Op (K V : Type) where
  | Cap
  | Len
  | IsEmpty
  | Clear
  | Push (k : Option K) (v : Option V)
  | PushFront (k : Option K) (v : Option V)
  | PushBack (k : Option K) (v : Option V)
  | Poll
  | PollFront
  | PollBack
  | Remove (k : Option K)
  | Get (k : Option K) (defaultValue : List (Option V))
  | ContainsKey (k : Option K)
  | ContainsValue (v : Option V)
  | Peek
  | PeekFront
  | PeekBack
  | Iterator (cb : Option (Option K → Option V → Bool))
  | ReverseIterator (cb : Option (Option K → Option V → Bool))

/-- What a call hands back to the caller; for the iterators, the calls made to the callback. -/
inductive Ret (K V : Type) where
  | unit
  | int (n : Int)
  | bool (b : Bool)
  | val (v : Option V)
  | pair (r : Option V × Bool)
  | triple (r : Option K × Option V × Bool)
  | visited (xs : List (store K V))
deriving DecidableEq

/-- Execution of one call: the returned value and the state after it. -/
def exec [DecidableEq K] [DecidableEq V] (sf : LinkedMap K V) :
    Op K V → Except Fault (Ret K V × LinkedMap K V)
  | .Cap => .ok (.int sf.Cap, sf)
  | .Len => .ok (.int sf.Len, sf)
  | .IsEmpty => .ok (.bool sf.IsEmpty, sf)
  | .Clear => .ok (.unit, sf.Clear)
  | .Push k v => (sf.Push k v).map (fun r => (.val r.1, r.2))
  | .PushFront k v => (sf.PushFront k v).map (fun r => (.val r.1, r.2))
  | .PushBack k v => (sf.PushBack k v).map (fun r => (.val r.1, r.2))
  | .Poll => .ok (.triple sf.Poll.1, sf.Poll.2)
  | .PollFront => .ok (.triple sf.PollFront.1, sf.PollFront.2)
  | .PollBack => .ok (.triple sf.PollBack.1, sf.PollBack.2)
  | .Remove k => (sf.Remove k).map (fun r => (.pair r.1, r.2))
  | .Get k d => (sf.Get k d).map (fun r => (.val r.1, r.2))
  | .ContainsKey k => .ok (.bool (sf.ContainsKey k), sf)
  | .ContainsValue v => .ok (.bool (sf.ContainsValue v), sf)
  | .Peek => .ok (.triple sf.Peek, sf)
  | .PeekFront => .ok (.triple sf.PeekFront, sf)
  | .PeekBack => .ok (.triple sf.PeekBack, sf)
  | .Iterator cb => .ok (.visited (sf.Iterator cb), sf)
  | .ReverseIterator cb => .ok (.visited (sf.ReverseIterator cb), sf)

/-- A finite sequence of calls, one after the other; a fault ends the run. -/
def run [DecidableEq K] [DecidableEq V] (sf : LinkedMap K V) :
    List (Op K V) → Except Fault (LinkedMap K V)
  | [] => .ok sf
  | op :: ops =>
    match exec sf op with
    | .ok r => run r.2 ops
    | .error f => .error f

/-- The index and the list agree: element addresses are pairwise distinct and below the
allocation counter, the keys in the list are pairwise distinct, the index has no key twice,
every index entry is the key and address of a list element, and every list element is
indexed under its key. -/
structure WFc [DecidableEq K] (data : List (Option K × Nat)) (elems : List (Element K V))
    (next : Nat) : Prop where
  ids : (elems.map Element.id).Nodup
  fresh : ∀ e ∈ elems, e.id < next
  keys : (elems.map (fun e => e.Value.key)).Nodup
  idx : (data.map Prod.fst).Nodup
  sound : ∀ p ∈ data, ∃ e ∈ elems, e.id = p.2 ∧ e.Value.key = p.1
  complete : ∀ e ∈ elems, (e.Value.key, e.id) ∈ data

/-- Well-formed map state. -/
def WF [DecidableEq K] (sf : LinkedMap K V) : Prop := WFc sf.data sf.l.elems sf.l.next

/-- The options a caller can build: `WithCap` and `WithComparator`. -/
inductive IsOption : MapOption K V → Prop where
  | withCap (c : Int) : IsOption (WithCap c)
  | withComparator (f : Option V → Option V → Int) : IsOption (WithComparator f)

/-- A map of capacity 2 that holds the entries (1, 10) and (2, 20). -/
def sampleFull : LinkedMap Nat Nat :=
  ⟨[(some 1, 0), (some 2, 1)], ⟨[⟨0, ⟨some 1, some 10⟩⟩, ⟨1, ⟨some 2, some 20⟩⟩], 2⟩, none, 2⟩

/-- The calls `PushBack(k, v)` for the pairs (k, v) of a list, in list order. -/
def pushBackAll (kvs : List (Option K × Option V)) : List (Op K V) :=
  kvs.map (fun p => Op.PushBack p.1 p.2)

/-- The entries (k, v) for the pairs of a list. -/
def asEntries (kvs : List (Option K × Option V)) : List (store K V) :=
  kvs.map (fun p => store.mk p.1 p.2)

/-- A map of capacity 2 with no entry. -/
def sampleEmpty : LinkedMap Nat Nat := New [WithCap 2]

/-- The results of a finite sequence of calls, one per call, up to and including the first
fault. -/
def trace [DecidableEq K] [DecidableEq V] (sf : LinkedMap K V) :
    List (Op K V) → List (Except Fault (Ret K V))
  | [] => []
  | op :: ops =>
    match exec sf op with
    | .ok r => .ok r.1 :: trace r.2 ops
    | .error f => [.error f]

/-- List model of `PushBack`: the entry sequence alone decides the returned value and the
sequence after the call. -/
def absPushBack [DecidableEq K] (cap : Int) (es : List (store K V)) (k : Option K)
    (v : Option V) : Except Fault (Option V × List (store K V)) :=
  match es.find? (fun st => st.key = k) with
  | some st => .ok (st.value, es.filter (fun x => x.key ≠ k) ++ [⟨k, v⟩])
  | none =>
    if cap ≠ 0 ∧ (es.length : Int) ≥ cap then
      match es with
      | [] => .error .nilDeref
      | _ :: rest => .ok (none, rest ++ [⟨k, v⟩])
    else .ok (none, es ++ [⟨k, v⟩])

/-- List model of `PushFront`. -/
def absPushFront [DecidableEq K] (cap : Int) (es : List (store K V)) (k : Option K)
    (v : Option V) : Except Fault (Option V × List (store K V)) :=
  match es.find? (fun st => st.key = k) with
  | some st => .ok (st.value, ⟨k, v⟩ :: es.filter (fun x => x.key ≠ k))
  | none =>
    if cap ≠ 0 ∧ (es.length : Int) ≥ cap then
      match es.getLast? with
      | none => .error .nilDeref
      | some _ => .ok (none, ⟨k, v⟩ :: es.dropLast)
    else .ok (none, ⟨k, v⟩ :: es)

/-- List model of the triple a peek or poll returns for the entry at one end. -/
def absTriple : Option (store K V) → Option K × Option V × Bool
  | some st => (st.key, st.value, true)
  | none => (none, none, false)

/-- List model of `Remove`. -/
def absRemove [DecidableEq K] (es : List (store K V)) (k : Option K) :
    Except Fault ((Option V × Bool) × List (store K V)) :=
  match es.find? (fun st => st.key = k) with
  | some st => .ok ((st.value, true), es.filter (fun x => x.key ≠ k))
  | none => .ok ((none, false), es)

/-- List model of `Get`. -/
def absGet [DecidableEq K] (es : List (store K V)) (k : Option K)
    (defaultValue : List (Option V)) : Except Fault (Option V × List (store K V)) :=
  match es.find? (fun st => st.key = k) with
  | some st => .ok (st.value, es.filter (fun x => x.key ≠ k) ++ [st])
  | none =>
    match defaultValue with
    | d :: _ => .ok (d, es)
    | [] => .ok (none, es)

/-- List model of the iterator loop over entries in visiting order. -/
def absVisit (cb : Option (Option K → Option V → Bool)) (es : List (store K V)) :
    List (store K V) :=
  match cb with
  | none => []
  | some f => es.takeWhile (fun st => f st.key st.value)
      ++ ((es.dropWhile (fun st => f st.key st.value)).head?).toList

/-- List model of one call: the returned value and the entry sequence after it, from the
capacity, the comparator and the entry sequence before it. -/
def absExec [DecidableEq K] [DecidableEq V] (cap : Int)
    (cmp : Option (Option V → Option V → Int)) (es : List (store K V)) :
    Op K V → Except Fault (Ret K V × List (store K V))
  | .Cap => .ok (.int cap, es)
  | .Len => .ok (.int (es.length : Int), es)
  | .IsEmpty => .ok (.bool (decide ((es.length : Int) = 0)), es)
  | .Clear => .ok (.unit, [])
  | .Push k v => (absPushBack cap es k v).map (fun r => (.val r.1, r.2))
  | .PushFront k v => (absPushFront cap es k v).map (fun r => (.val r.1, r.2))
  | .PushBack k v => (absPushBack cap es k v).map (fun r => (.val r.1, r.2))
  | .Poll => .ok (.triple (absTriple es.head?), es.tail)
  | .PollFront => .ok (.triple (absTriple es.head?), es.tail)
  | .PollBack => .ok (.triple (absTriple es.getLast?), es.dropLast)
  | .Remove k => (absRemove es k).map (fun r => (.pair r.1, r.2))
  | .Get k d => (absGet es k d).map (fun r => (.val r.1, r.2))
  | .ContainsKey k => .ok (.bool (es.find? (fun st => st.key = k)).isSome, es)
  | .ContainsValue v =>
    .ok (.bool (es.any (fun st =>
      match cmp with
      | some c => decide (c st.value v = 0)
      | none => decide (st.value = v))), es)
  | .Peek => .ok (.triple (absTriple es.head?), es)
  | .PeekFront => .ok (.triple (absTriple es.head?), es)
  | .PeekBack => .ok (.triple (absTriple es.getLast?), es)
  | .Iterator cb => .ok (.visited (absVisit cb es), es)
  | .ReverseIterator cb => .ok (.visited (absVisit cb es.reverse), es)

/-- A call on a map refines a call on its list model: both fault alike, or both return the
same value and the map reaches a well-formed state with the model's entry sequence and an
unchanged configuration. -/
def Refines [DecidableEq K] {α : Type} (sf : LinkedMap K V)
    (x : Except Fault (α × LinkedMap K V)) (y : Except Fault (α × List (store K V))) : Prop :=
  (∃ f, x = .error f ∧ y = .error f) ∨
  (∃ r sf', x = .ok (r, sf') ∧ y = .ok (r, sf'.entries) ∧ WF sf' ∧ sf'.cap = sf.cap ∧
    sf'.cmp = sf.cmp)

end linkedmap

/-!
Verification of `queue.Queue` (thinkgos/fifo)

A shallow embedding of `queue/queue.go`.  A `*element` is `Option Nat`: `none` is `nil` and
`some a` is the address `a`.  The memory that holds the elements is the total function `mem`
from addresses to elements; `alloc` is the next address `&element{...}` hands out.
-/

namespace queue

variable {V : Type}

/-- The Go struct `element`. -/
structure element (V : Type) where
  next : Option Nat
  value : Option V

/-- The Go struct `Queue`, with the memory its pointers refer to. -/
structure Queue (V : Type) where
  head : Option Nat
  tail : Option Nat
  length : Int
  mem : Nat → element V
  alloc : Nat

/-- The function `New`: the zero value of `Queue`. -/
def New : Queue V := ⟨none, none, 0, fun _ => ⟨none, none⟩, 0⟩

namespace Queue

/-- The method `Len`. -/
def Len (sf : Queue V) : Int := sf.length

/-- The method `IsEmpty`. -/
def IsEmpty (sf : Queue V) : Bool := decide (sf.Len = 0)

/-- The method `Clear`. -/
def Clear (sf : Queue V) : Queue V :=
  { sf with head := none, tail := none, length := 0 }

/-- The method `Add`. -/
def Add (sf : Queue V) (v : Option V) : Queue V :=
  let e := sf.alloc
  let mem1 := Function.update sf.mem e ⟨none, v⟩
  match sf.tail with
  | none =>
    { head := some e, tail := some e, length := sf.length + 1, mem := mem1, alloc := e + 1 }
  | some t =>
    { head := sf.head, tail := some e, length := sf.length + 1,
      mem := Function.update mem1 t { mem1 t with next := some e }, alloc := e + 1 }

/-- The method `Peek`. -/
def Peek (sf : Queue V) : Option V :=
  match sf.head with
  | some h => (sf.mem h).value
  | none => none

/-- The method `Poll`: the returned value and the queue after the call. -/
def Poll (sf : Queue V) : Option V × Queue V :=
  match sf.head with
  | some h =>
    let val := (sf.mem h).value
    let head1 := (sf.mem h).next
    let tail1 := match head1 with
      | none => none
      | some _ => sf.tail
    (val, { sf with head := head1, tail := tail1, length := sf.length - 1 })
  | none => (none, sf)

end Queue

/-- One call on a queue, with its argument. -/
inductive Op (V : Type) where
  | Len
  | IsEmpty
  | Clear
  | Add (v : Option V)
  | Peek
  | Poll

/-- What a call hands back to the caller. -/
inductive Ret (V : Type) where
  | unit
  | int (n : Int)
  | bool (b : Bool)
  | val (v : Option V)
deriving DecidableEq

/-- Execution of one call: the returned value and the queue after it. -/
def exec (sf : Queue V) : Op V → Ret V × Queue V
  | .Len => (.int sf.Len, sf)
  | .IsEmpty => (.bool sf.IsEmpty, sf)
  | .Clear => (.unit, sf.Clear)
  | .Add v => (.unit, sf.Add v)
  | .Peek => (.val sf.Peek, sf)
  | .Poll => (.val sf.Poll.1, sf.Poll.2)

/-- The queue after a finite sequence of calls. -/
def run (sf : Queue V) : List (Op V) → Queue V
  | [] => sf
  | op :: ops => run (exec sf op).2 ops

/-- The values a finite sequence of calls returns, in call order. -/
def trace (sf : Queue V) : List (Op V) → List (Ret V)
  | [] => []
  | op :: ops => (exec sf op).1 :: trace (exec sf op).2 ops

/-- The list model of the claim: the queue is the list of its values head first, `Add(v)`
appends v at the tail, `Poll` removes and returns the head (nil on the empty list), `Peek`
returns the head without removing it, `Clear` empties the list. -/
def modelExec (xs : List (Option V)) : Op V → Ret V × List (Option V)
  | .Len => (.int (xs.length : Int), xs)
  | .IsEmpty => (.bool (decide ((xs.length : Int) = 0)), xs)
  | .Clear => (.unit, [])
  | .Add v => (.unit, xs ++ [v])
  | .Peek => (.val (xs.head?.getD none), xs)
  | .Poll => (.val (xs.head?.getD none), xs.tail)

/-- The list model after a finite sequence of calls. -/
def modelRun (xs : List (Option V)) : List (Op V) → List (Option V)
  | [] => xs
  | op :: ops => modelRun (modelExec xs op).2 ops

/-- The values the list model returns for a finite sequence of calls. -/
def modelTrace (xs : List (Option V)) : List (Op V) → List (Ret V)
  | [] => []
  | op :: ops => (modelExec xs op).1 :: modelTrace (modelExec xs op).2 ops

/-- The addresses `as` are the elements linked from the pointer `p` along `next`, the last
one having a nil `next`. -/
def Chain (mem : Nat → element V) : Option Nat → List Nat → Prop
  | p, [] => p = none
  | p, a :: as => p = some a ∧ Chain mem (mem a).next as

/-- The queue holds the values `xs`, head first: its elements are linked from `head` at
pairwise distinct allocated addresses, `tail` is the last of them and `length` counts them. -/
def Rep (sf : Queue V) (xs : List (Option V)) : Prop :=
  ∃ as : List Nat, Chain sf.mem sf.head as ∧ as.map (fun a => (sf.mem a).value) = xs ∧
    as.Nodup ∧ (∀ a ∈ as, a < sf.alloc) ∧ sf.tail = as.getLast? ∧ sf.length = (as.length : Int)

/-- The number of `Add` calls minus the number of `Poll` calls that returned an element, since
the last `Clear`, for a sequence of calls that starts with `n` elements in the queue: a `Poll`
returns an element exactly when the count before it is positive. -/
def netCount : Nat → List (Op V) → Nat
  | n, [] => n
  | n, .Add _ :: ops => netCount (n + 1) ops
  | n, .Poll :: ops => netCount (n - 1) ops
  | _, .Clear :: ops => netCount 0 ops
  | n, .Len :: ops => netCount n ops
  | n, .IsEmpty :: ops => netCount n ops
  | n, .Peek :: ops => netCount n ops

end queue

namespace linkedmap

variable {K V : Type}

/-- An unbounded map that holds the entry (1, 10). -/
def sampleOpen : LinkedMap Nat Nat :=
  ⟨[(some 1, 0)], ⟨[⟨0, ⟨some 1, some 10⟩⟩], 1⟩, none, 0⟩

section lemmas
variable [DecidableEq K]
set_option linter.unusedSectionVars false

theorem mapGet_eq_none_iff (m : List (Option K × Nat)) (k : Option K) :
    mapGet m k = none ↔ ∀ p ∈ m, p.1 ≠ k := by
  simp [mapGet, List.find?_eq_none]

theorem mem_of_mapGet_eq_some {m : List (Option K × Nat)} {k : Option K} {h : Nat}
    (hg : mapGet m k = some h) : (k, h) ∈ m := by
  unfold mapGet at hg
  rcases hfind : m.find? (fun p => decide (p.1 = k)) with _ | p
  · simp [hfind] at hg
  · simp [hfind] at hg
    have h1 := List.find?_some hfind
    have h2 := List.mem_of_find?_eq_some hfind
    simp at h1
    rcases p with ⟨a, b⟩
    simp at h1 hg
    subst h1; subst hg; exact h2

theorem mapGet_eq_some_of_mem {m : List (Option K × Nat)} {k : Option K} {h : Nat}
    (hnd : (m.map Prod.fst).Nodup) (hm : (k, h) ∈ m) : mapGet m k = some h := by
  induction m with
  | nil => simp at hm
  | cons p m ih =>
    rcases p with ⟨a, b⟩
    simp only [List.map_cons, List.nodup_cons, List.mem_map, not_exists, not_and] at hnd
    simp only [List.mem_cons, Prod.mk.injEq] at hm
    by_cases hak : a = k
    · subst hak
      rcases hm with ⟨_, rfl⟩ | hm
      · simp [mapGet]
      · exact absurd rfl (hnd.1 (a, h) hm)
    · rcases hm with ⟨rfl, _⟩ | hm
      · exact absurd rfl hak
      · have := ih hnd.2 hm
        simpa [mapGet, hak] using this

theorem mem_mapDelete {m : List (Option K × Nat)} {k : Option K} {p : Option K × Nat} :
    p ∈ mapDelete m k ↔ p ∈ m ∧ p.1 ≠ k := by
  simp [mapDelete]

theorem mapDelete_nodup {m : List (Option K × Nat)} (k : Option K)
    (hnd : (m.map Prod.fst).Nodup) : ((mapDelete m k).map Prod.fst).Nodup := by
  unfold mapDelete
  exact (List.filter_sublist m).map Prod.fst |>.nodup hnd

theorem WFc.perm {data : List (Option K × Nat)} {es es' : List (Element K V)} {n : Nat}
    (h : WFc data es n) (hp : es.Perm es') : WFc data es' n where
  ids := (hp.map Element.id).nodup_iff.mp h.ids
  fresh := fun e he => h.fresh e (hp.mem_iff.mpr he)
  keys := (hp.map (fun e => e.Value.key)).nodup_iff.mp h.keys
  idx := h.idx
  sound := fun p hpm => by
    obtain ⟨e, he, h1, h2⟩ := h.sound p hpm
    exact ⟨e, hp.mem_iff.mp he, h1, h2⟩
  complete := fun e he => h.complete e (hp.mem_iff.mpr he)

/-- In a well-formed state two list elements with the same address are the same element. -/
theorem WFc.eq_of_id {data : List (Option K × Nat)} {es : List (Element K V)} {n : Nat}
    (h : WFc data es n) {a b : Element K V} (ha : a ∈ es) (hb : b ∈ es) (hab : a.id = b.id) :
    a = b :=
  List.inj_on_of_nodup_map h.ids ha hb hab

/-- In a well-formed state two list elements with the same key are the same element. -/
theorem WFc.eq_of_key {data : List (Option K × Nat)} {es : List (Element K V)} {n : Nat}
    (h : WFc data es n) {a b : Element K V} (ha : a ∈ es) (hb : b ∈ es)
    (hab : a.Value.key = b.Value.key) : a = b :=
  List.inj_on_of_nodup_map h.keys ha hb hab

theorem WFc.mapGet_some_iff {data : List (Option K × Nat)} {es : List (Element K V)} {n : Nat}
    (h : WFc data es n) (k : Option K) (a : Nat) :
    mapGet data k = some a ↔ ∃ e ∈ es, e.id = a ∧ e.Value.key = k := by
  constructor
  · intro hg
    exact h.sound (k, a) (mem_of_mapGet_eq_some hg)
  · rintro ⟨e, he, rfl, rfl⟩
    exact mapGet_eq_some_of_mem h.idx (h.complete e he)

theorem WFc.mapGet_none_iff {data : List (Option K × Nat)} {es : List (Element K V)} {n : Nat}
    (h : WFc data es n) (k : Option K) :
    mapGet data k = none ↔ ∀ e ∈ es, e.Value.key ≠ k := by
  rw [mapGet_eq_none_iff]
  constructor
  · intro hn e he
    exact hn _ (h.complete e he)
  · intro hn p hp
    obtain ⟨e, he, _, h2⟩ := h.sound p hp
    rw [← h2]; exact hn e he

theorem WFc.deref_of_mem {data : List (Option K × Nat)} {es : List (Element K V)} {n : Nat}
    (h : WFc data es n) {e : Element K V} (he : e ∈ es) :
    es.find? (fun x => decide (x.id = e.id)) = some e := by
  rcases hf : es.find? (fun x => decide (x.id = e.id)) with _ | x
  · rw [List.find?_eq_none] at hf
    exact absurd (by simp) (hf e he)
  · have h1 := List.find?_some hf
    have h2 := List.mem_of_find?_eq_some hf
    simp at h1
    rw [hf, h.eq_of_id h2 he h1]

/-- Unlinking an element and deleting its key keeps the state well-formed. -/
theorem WFc.remove {data : List (Option K × Nat)} {es : List (Element K V)} {n : Nat}
    (h : WFc data es n) {e0 : Element K V} (he0 : e0 ∈ es) :
    WFc (mapDelete data e0.Value.key) (es.filter (fun e => e.id ≠ e0.id)) n where
  ids := ((List.filter_sublist es).map Element.id).nodup h.ids
  fresh := fun e he => h.fresh e (List.mem_of_mem_filter he)
  keys := ((List.filter_sublist es).map (fun e => e.Value.key)).nodup h.keys
  idx := mapDelete_nodup _ h.idx
  sound := fun p hp => by
    rw [mem_mapDelete] at hp
    obtain ⟨e, he, h1, h2⟩ := h.sound p hp.1
    refine ⟨e, ?_, h1, h2⟩
    simp only [List.mem_filter, he, true_and, decide_eq_true_eq]
    intro hid
    have := h.eq_of_id he he0 hid
    subst this
    exact hp.2 h2.symm
  complete := fun e he => by
    simp only [List.mem_filter, decide_eq_true_eq] at he
    rw [mem_mapDelete]
    refine ⟨h.complete e he.1, ?_⟩
    intro hk
    exact he.2 (congrArg Element.id (h.eq_of_key he.1 he0 hk))

/-- Linking a newly allocated element first, under a key that is not in the map, and indexing
it keeps the state well-formed. -/
theorem WFc.cons_new {data : List (Option K × Nat)} {es : List (Element K V)} {n : Nat}
    (h : WFc data es n) {k : Option K} (v : Option V) (hk : ∀ e ∈ es, e.Value.key ≠ k) :
    WFc (mapSet data k n) (⟨n, ⟨k, v⟩⟩ :: es) (n + 1) where
  ids := by
    simp only [List.map_cons, List.nodup_cons, List.mem_map, not_exists, not_and]
    exact ⟨fun e he hid => absurd (h.fresh e he) (by omega), h.ids⟩
  fresh := fun e he => by
    rcases List.mem_cons.mp he with rfl | he
    · simp
    · exact Nat.lt_succ_of_lt (h.fresh e he)
  keys := by
    simp only [List.map_cons, List.nodup_cons, List.mem_map, not_exists, not_and]
    exact ⟨fun e he => hk e he, h.keys⟩
  idx := by
    unfold mapSet
    rw [List.map_append, List.nodup_append]
    refine ⟨mapDelete_nodup _ h.idx, by simp, ?_⟩
    intro a ha hb
    simp only [List.map_cons, List.map_nil, List.mem_singleton] at hb
    obtain ⟨p, hp, rfl⟩ := List.mem_map.mp ha
    exact (mem_mapDelete.mp hp).2 hb
  sound := fun p hp => by
    unfold mapSet at hp
    rcases List.mem_append.mp hp with hp | hp
    · obtain ⟨e, he, h1, h2⟩ := h.sound p (mem_mapDelete.mp hp).1
      exact ⟨e, List.mem_cons_of_mem _ he, h1, h2⟩
    · simp only [List.mem_singleton] at hp
      subst hp
      exact ⟨_, List.mem_cons_self _ _, rfl, rfl⟩
  complete := fun e he => by
    unfold mapSet
    rcases List.mem_cons.mp he with rfl | he
    · simp
    · exact List.mem_append_left _ (mem_mapDelete.mpr ⟨h.complete e he, hk e he⟩)

/-- Overwriting the value of a list element (same key) and linking it first keeps the state
well-formed. -/
theorem WFc.replace {data : List (Option K × Nat)} {es : List (Element K V)} {n : Nat}
    (h : WFc data es n) {e0 : Element K V} (he0 : e0 ∈ es) (v : Option V) :
    WFc data (⟨e0.id, ⟨e0.Value.key, v⟩⟩ :: es.filter (fun e => e.id ≠ e0.id)) n where
  ids := by
    simp only [List.map_cons, List.nodup_cons, List.mem_map, List.mem_filter, not_exists,
      not_and, decide_eq_true_eq]
    exact ⟨fun e he hid => absurd hid he.2, ((List.filter_sublist es).map Element.id).nodup h.ids⟩
  fresh := fun e he => by
    rcases List.mem_cons.mp he with rfl | he
    · exact h.fresh e0 he0
    · exact h.fresh e (List.mem_of_mem_filter he)
  keys := by
    simp only [List.map_cons, List.nodup_cons, List.mem_map, List.mem_filter, not_exists,
      not_and, decide_eq_true_eq]
    refine ⟨fun e he hkey => he.2 (congrArg Element.id (h.eq_of_key he.1 he0 hkey)),
      ((List.filter_sublist es).map (fun e => e.Value.key)).nodup h.keys⟩
  idx := h.idx
  sound := fun p hp => by
    obtain ⟨e, he, h1, h2⟩ := h.sound p hp
    by_cases hid : e.id = e0.id
    · have := h.eq_of_id he he0 hid
      subst this
      exact ⟨_, List.mem_cons_self _ _, h1, h2⟩
    · refine ⟨e, List.mem_cons_of_mem _ ?_, h1, h2⟩
      simp [List.mem_filter, he, hid]
  complete := fun e he => by
    rcases List.mem_cons.mp he with rfl | he
    · exact h.complete e0 he0
    · exact h.complete e (List.mem_of_mem_filter he)

/-- Writing through an address does not change which elements have another address. -/
theorem filter_setValue (es : List (Element K V)) (a : Nat) (st : store K V) :
    (es.map (fun e => if e.id = a then { e with Value := st } else e)).filter
      (fun e => e.id ≠ a) = es.filter (fun e => e.id ≠ a) := by
  induction es with
  | nil => rfl
  | cons e es ih =>
    by_cases h : e.id = a
    · simp [h] at ih ⊢
      exact ih
    · simp [h] at ih ⊢
      exact ih

theorem find_setValue {es : List (Element K V)} {e0 : Element K V} (he0 : e0 ∈ es)
    (st : store K V) :
    (es.map (fun e => if e.id = e0.id then { e with Value := st } else e)).find?
      (fun e => e.id = e0.id) = some ⟨e0.id, st⟩ := by
  induction es with
  | nil => simp at he0
  | cons e es ih =>
    by_cases h : e.id = e0.id
    · simp [h]
    · rcases List.mem_cons.mp he0 with rfl | hm
      · exact absurd rfl h
      · simp [h] at ih ⊢
        exact ih hm

theorem WFc.filter_head {data : List (Option K × Nat)} {e0 : Element K V}
    {rest : List (Element K V)} {n : Nat} (h : WFc data (e0 :: rest) n) :
    (e0 :: rest).filter (fun e => e.id ≠ e0.id) = rest := by
  have hnd := h.ids
  simp only [List.map_cons, List.nodup_cons, List.mem_map, not_exists, not_and] at hnd
  simp only [ne_eq, decide_not, List.filter_cons, decide_True, Bool.not_true]
  simp only [Bool.false_eq_true, ↓reduceIte]
  rw [List.filter_eq_self]
  intro e he
  simpa using hnd.1 e he

theorem WFc.filter_last {data : List (Option K × Nat)} {e0 : Element K V}
    {init : List (Element K V)} {n : Nat} (h : WFc data (init ++ [e0]) n) :
    (init ++ [e0]).filter (fun e => e.id ≠ e0.id) = init := by
  have hnd := h.ids
  rw [List.map_append, List.nodup_append] at hnd
  simp only [List.filter_append, ne_eq, decide_not, List.filter_cons, decide_True,
    Bool.not_true, Bool.false_eq_true, ↓reduceIte, List.filter_nil, List.append_nil]
  rw [List.filter_eq_self]
  intro e he
  have := hnd.2.2 (List.mem_map_of_mem Element.id he)
  simp only [List.map_cons, List.map_nil, List.mem_singleton] at this
  simpa using this

/-- In a well-formed state, dropping the element at an address from the list drops exactly the
entry with its key from the entry sequence. -/
theorem WFc.map_filter_id {data : List (Option K × Nat)} {es : List (Element K V)} {n : Nat}
    (h : WFc data es n) {e0 : Element K V} (he0 : e0 ∈ es) :
    (es.filter (fun e => e.id ≠ e0.id)).map Element.Value
      = (es.map Element.Value).filter (fun st => st.key ≠ e0.Value.key) := by
  rw [List.filter_map]
  congr 1
  apply List.filter_congr
  intro e he
  simp only [ne_eq, decide_not, Function.comp_apply, Bool.not_eq_eq_eq_not, Bool.not_not,
    decide_eq_decide]
  constructor
  · intro hid; rw [h.eq_of_id he he0 hid]
  · intro hk; rw [h.eq_of_key he he0 hk]

namespace LinkedMap

/-- Membership of a key in the index is membership of the key in the entry sequence. -/
theorem containsKey_iff {sf : LinkedMap K V} (h : WF sf) (k : Option K) :
    sf.ContainsKey k = true ↔ k ∈ sf.entries.map store.key := by
  unfold ContainsKey entries
  rw [Option.isSome_iff_exists]
  simp only [List.map_map, List.mem_map, Function.comp_apply]
  constructor
  · rintro ⟨a, ha⟩
    obtain ⟨e, he, _, hk⟩ := (WFc.mapGet_some_iff h k a).mp ha
    exact ⟨e, he, hk⟩
  · rintro ⟨e, he, hk⟩
    exact ⟨e.id, (WFc.mapGet_some_iff h k e.id).mpr ⟨e, he, rfl, hk⟩⟩

theorem containsKey_false_iff {sf : LinkedMap K V} (h : WF sf) (k : Option K) :
    sf.ContainsKey k = false ↔ ∀ e ∈ sf.l.elems, e.Value.key ≠ k := by
  unfold ContainsKey
  rw [← WFc.mapGet_none_iff h k]
  cases mapGet sf.data k <;> simp

/-- The call `PushBack` on the key of a list element. -/
theorem PushBack_present {sf : LinkedMap K V} (h : WF sf) {e0 : Element K V}
    (he0 : e0 ∈ sf.l.elems) (v : Option V) :
    sf.PushBack e0.Value.key v = .ok (e0.Value.value,
      { sf with l := ⟨sf.l.elems.filter (fun e => e.id ≠ e0.id)
                        ++ [⟨e0.id, ⟨e0.Value.key, v⟩⟩], sf.l.next⟩ }) := by
  have hg : mapGet sf.data e0.Value.key = some e0.id :=
    (WFc.mapGet_some_iff h _ _).mpr ⟨e0, he0, rfl, rfl⟩
  have hd : sf.l.deref e0.id = some e0 := WFc.deref_of_mem h he0
  unfold PushBack
  simp only [hg, hd]
  simp only [GoList.MoveToBack, GoList.deref, GoList.setValue, find_setValue he0,
    filter_setValue]

/-- The call `PushFront` on the key of a list element. -/
theorem PushFront_present {sf : LinkedMap K V} (h : WF sf) {e0 : Element K V}
    (he0 : e0 ∈ sf.l.elems) (v : Option V) :
    sf.PushFront e0.Value.key v = .ok (e0.Value.value,
      { sf with l := ⟨⟨e0.id, ⟨e0.Value.key, v⟩⟩
                        :: sf.l.elems.filter (fun e => e.id ≠ e0.id), sf.l.next⟩ }) := by
  have hg : mapGet sf.data e0.Value.key = some e0.id :=
    (WFc.mapGet_some_iff h _ _).mpr ⟨e0, he0, rfl, rfl⟩
  have hd : sf.l.deref e0.id = some e0 := WFc.deref_of_mem h he0
  unfold PushFront
  simp only [hg, hd]
  simp only [GoList.MoveToFront, GoList.deref, GoList.setValue, find_setValue he0,
    filter_setValue]

/-- The call `Get` on the key of a list element. -/
theorem Get_present {sf : LinkedMap K V} (h : WF sf) {e0 : Element K V}
    (he0 : e0 ∈ sf.l.elems) (d : List (Option V)) :
    sf.Get e0.Value.key d = .ok (e0.Value.value,
      { sf with l := ⟨sf.l.elems.filter (fun e => e.id ≠ e0.id) ++ [e0], sf.l.next⟩ }) := by
  have hg : mapGet sf.data e0.Value.key = some e0.id :=
    (WFc.mapGet_some_iff h _ _).mpr ⟨e0, he0, rfl, rfl⟩
  have hd : sf.l.deref e0.id = some e0 := WFc.deref_of_mem h he0
  have hf : (sf.l.elems.filter (fun e => e.id ≠ e0.id) ++ [e0]).find?
      (fun x => decide (x.id = e0.id)) = some e0 := by
    rw [List.find?_append]
    have : (sf.l.elems.filter (fun e => e.id ≠ e0.id)).find?
        (fun x => decide (x.id = e0.id)) = none := by
      rw [List.find?_eq_none]
      intro x hx
      simp only [List.mem_filter, decide_eq_true_eq] at hx
      simpa using hx.2
    simp [this]
  have hd2 : sf.l.elems.find? (fun e => decide (e.id = e0.id)) = some e0 := hd
  unfold Get
  simp only [hg]
  simp only [GoList.MoveToBack, GoList.deref, hd2, hf]

/-- The call `Remove` on the key of a list element. -/
theorem Remove_present {sf : LinkedMap K V} (h : WF sf) {e0 : Element K V}
    (he0 : e0 ∈ sf.l.elems) :
    sf.Remove e0.Value.key = .ok ((e0.Value.value, true),
      { sf with data := mapDelete sf.data e0.Value.key,
                l := ⟨sf.l.elems.filter (fun e => e.id ≠ e0.id), sf.l.next⟩ }) := by
  have hg : mapGet sf.data e0.Value.key = some e0.id :=
    (WFc.mapGet_some_iff h _ _).mpr ⟨e0, he0, rfl, rfl⟩
  have hd : sf.l.deref e0.id = some e0 := WFc.deref_of_mem h he0
  unfold Remove
  simp only [hg, hd]
  rfl


/-- The call `PushBack` on a new key when the eviction guard is false. -/
theorem PushBack_absent_room {sf : LinkedMap K V} {k : Option K} (v : Option V)
    (hk : mapGet sf.data k = none) (hroom : ¬ (sf.cap ≠ 0 ∧ sf.l.Len ≥ sf.cap)) :
    sf.PushBack k v = .ok (none,
      { sf with data := mapSet sf.data k sf.l.next,
                l := ⟨sf.l.elems ++ [⟨sf.l.next, ⟨k, v⟩⟩], sf.l.next + 1⟩ }) := by
  unfold PushBack
  simp only [hk, if_neg hroom, GoList.PushBack]

/-- The call `PushFront` on a new key when the eviction guard is false. -/
theorem PushFront_absent_room {sf : LinkedMap K V} {k : Option K} (v : Option V)
    (hk : mapGet sf.data k = none) (hroom : ¬ (sf.cap ≠ 0 ∧ sf.l.Len ≥ sf.cap)) :
    sf.PushFront k v = .ok (none,
      { sf with data := mapSet sf.data k sf.l.next,
                l := ⟨⟨sf.l.next, ⟨k, v⟩⟩ :: sf.l.elems, sf.l.next + 1⟩ }) := by
  unfold PushFront
  simp only [hk, if_neg hroom, GoList.PushFront]

/-- The call `PushBack` on a new key when the eviction guard is true and the list is not
empty: the front element goes. -/
theorem PushBack_absent_full {sf : LinkedMap K V} (h : WF sf) {k : Option K} (v : Option V)
    (hk : mapGet sf.data k = none) (hfull : sf.cap ≠ 0 ∧ sf.l.Len ≥ sf.cap)
    {e : Element K V} {rest : List (Element K V)} (hl : sf.l.elems = e :: rest) :
    sf.PushBack k v = .ok (none,
      { sf with data := mapSet (mapDelete sf.data e.Value.key) k sf.l.next,
                l := ⟨rest ++ [⟨sf.l.next, ⟨k, v⟩⟩], sf.l.next + 1⟩ }) := by
  have hw : WFc sf.data (e :: rest) sf.l.next := hl ▸ h
  unfold PushBack
  simp only [hk, if_pos hfull, GoList.Front, hl, List.head?_cons, GoList.PushBack,
    GoList.Remove, hw.filter_head]

/-- The call `PushFront` on a new key when the eviction guard is true and the list is not
empty: the back element goes. -/
theorem PushFront_absent_full {sf : LinkedMap K V} (h : WF sf) {k : Option K} (v : Option V)
    (hk : mapGet sf.data k = none) (hfull : sf.cap ≠ 0 ∧ sf.l.Len ≥ sf.cap)
    {e : Element K V} {init : List (Element K V)} (hl : sf.l.elems = init ++ [e]) :
    sf.PushFront k v = .ok (none,
      { sf with data := mapSet (mapDelete sf.data e.Value.key) k sf.l.next,
                l := ⟨⟨sf.l.next, ⟨k, v⟩⟩ :: init, sf.l.next + 1⟩ }) := by
  have hw : WFc sf.data (init ++ [e]) sf.l.next := hl ▸ h
  unfold PushFront
  simp only [hk, if_pos hfull, GoList.Back, hl, List.getLast?_append, List.getLast?_singleton, Option.or_some,
    Option.or, GoList.PushFront, GoList.Remove, hw.filter_last]

/-- The call `PollFront` on a non-empty list. -/
theorem PollFront_cons {sf : LinkedMap K V} (h : WF sf)
    {e : Element K V} {rest : List (Element K V)} (hl : sf.l.elems = e :: rest) :
    sf.PollFront = ((e.Value.key, e.Value.value, true),
      { sf with data := mapDelete sf.data e.Value.key, l := ⟨rest, sf.l.next⟩ }) := by
  have hw : WFc sf.data (e :: rest) sf.l.next := hl ▸ h
  unfold PollFront
  simp only [GoList.Front, hl, List.head?_cons, GoList.Remove, hw.filter_head]

/-- The call `PollBack` on a non-empty list. -/
theorem PollBack_concat {sf : LinkedMap K V} (h : WF sf)
    {e : Element K V} {init : List (Element K V)} (hl : sf.l.elems = init ++ [e]) :
    sf.PollBack = ((e.Value.key, e.Value.value, true),
      { sf with data := mapDelete sf.data e.Value.key, l := ⟨init, sf.l.next⟩ }) := by
  have hw : WFc sf.data (init ++ [e]) sf.l.next := hl ▸ h
  unfold PollBack
  simp only [GoList.Back, hl, List.getLast?_append, List.getLast?_singleton, Option.or_some,
    Option.or, GoList.Remove, hw.filter_last]

end LinkedMap

theorem length_filter_id {es : List (Element K V)} (hnd : (es.map Element.id).Nodup)
    {e0 : Element K V} (he0 : e0 ∈ es) :
    (es.filter (fun e => e.id ≠ e0.id)).length + 1 = es.length := by
  induction es with
  | nil => simp at he0
  | cons e es ih =>
    simp only [List.map_cons, List.nodup_cons, List.mem_map, not_exists, not_and] at hnd
    by_cases hid : e.id = e0.id
    · have hself : es.filter (fun x => x.id ≠ e0.id) = es := by
        rw [List.filter_eq_self]
        intro x hx
        have := hnd.1 x hx
        rw [hid] at this
        simpa using this
      have hself2 : es.filter (fun x => !decide (x.id = e0.id)) = es := by
        simpa using hself
      simp [hid, hself2]
    · rcases List.mem_cons.mp he0 with rfl | hm
      · exact absurd rfl hid
      · have := ih hnd.2 hm
        simp only [ne_eq, decide_not] at this
        simp [hid, this]

theorem WFc.length_filter {data : List (Option K × Nat)} {es : List (Element K V)} {n : Nat}
    (h : WFc data es n) {e0 : Element K V} (he0 : e0 ∈ es) :
    (es.filter (fun e => e.id ≠ e0.id)).length + 1 = es.length :=
  length_filter_id h.ids he0

/-- A new key pushed at the back of a well-formed state. -/
theorem WFc.snoc_new {data : List (Option K × Nat)} {es : List (Element K V)} {n : Nat}
    (h : WFc data es n) {k : Option K} (v : Option V) (hk : ∀ e ∈ es, e.Value.key ≠ k) :
    WFc (mapSet data k n) (es ++ [⟨n, ⟨k, v⟩⟩]) (n + 1) :=
  (h.cons_new v hk).perm (List.perm_append_singleton _ _).symm

/-- The front element evicted from a well-formed state. -/
theorem WFc.drop_head {data : List (Option K × Nat)} {e : Element K V}
    {rest : List (Element K V)} {n : Nat} (h : WFc data (e :: rest) n) :
    WFc (mapDelete data e.Value.key) rest n := by
  have := h.remove (List.mem_cons_self e rest)
  rwa [h.filter_head] at this

/-- The back element evicted from a well-formed state. -/
theorem WFc.drop_last {data : List (Option K × Nat)} {e : Element K V}
    {init : List (Element K V)} {n : Nat} (h : WFc data (init ++ [e]) n) :
    WFc (mapDelete data e.Value.key) init n := by
  have := h.remove (List.mem_append_right init (List.mem_singleton_self e))
  rwa [h.filter_last] at this

/-- A non-empty list ends in some element. -/
theorem exists_concat_of_ne_nil {α : Type} {l : List α} (h : l ≠ []) :
    ∃ init e, l = init ++ [e] :=
  ⟨l.dropLast, l.getLast h, (List.dropLast_append_getLast h).symm⟩

namespace LinkedMap

/-- On a well-formed state with a non-negative capacity `PushBack` returns, and the state it
leaves is well-formed, has the same configuration, and respects a positive capacity that the
state before respected. -/
theorem PushBack_total {sf : LinkedMap K V} (h : WF sf) (hcap : 0 ≤ sf.cap)
    (k : Option K) (v : Option V) :
    ∃ r sf', sf.PushBack k v = .ok (r, sf') ∧ WF sf' ∧ sf'.cap = sf.cap ∧ sf'.cmp = sf.cmp ∧
      (0 < sf.cap → sf.Len ≤ sf.cap → sf'.Len ≤ sf.cap) := by
  rcases hg : mapGet sf.data k with _ | a
  · have hk : ∀ e ∈ sf.l.elems, e.Value.key ≠ k := (WFc.mapGet_none_iff h k).mp hg
    by_cases hfull : sf.cap ≠ 0 ∧ sf.l.Len ≥ sf.cap
    · rcases hl : sf.l.elems with _ | ⟨e, rest⟩
      · exfalso
        have := hfull.2
        simp only [GoList.Len, hl, List.length_nil, Nat.cast_zero] at this
        exact hfull.1 (le_antisymm this hcap)
      · have hw : WFc sf.data (e :: rest) sf.l.next := hl ▸ h
        refine ⟨_, _, PushBack_absent_full h v hg hfull hl, ?_, rfl, rfl, ?_⟩
        · exact hw.drop_head.snoc_new v
            (fun x hx => hk x (hl ▸ List.mem_cons_of_mem _ hx))
        · intro _ hle
          simp only [Len, GoList.Len, hl, List.length_cons, List.length_append,
            List.length_singleton] at hle ⊢
          exact hle
    · refine ⟨_, _, PushBack_absent_room v hg hfull, WFc.snoc_new h v hk, rfl, rfl, ?_⟩
      intro hpos _
      simp only [Len, GoList.Len, List.length_append, List.length_singleton, Nat.cast_add,
        Nat.cast_one]
      simp only [GoList.Len, not_and, not_le, ge_iff_le] at hfull
      have := hfull (ne_of_gt hpos)
      omega
  · obtain ⟨e0, he0, rfl, rfl⟩ := (WFc.mapGet_some_iff h k a).mp hg
    refine ⟨_, _, PushBack_present h he0 v, ?_, rfl, rfl, ?_⟩
    · exact (WFc.replace h he0 v).perm (List.perm_append_singleton _ _).symm
    · intro _ hle
      simp only [Len, GoList.Len, List.length_append, List.length_singleton] at hle ⊢
      rw [WFc.length_filter h he0]
      exact hle


/-- The counterpart of `PushBack_total` for `PushFront`. -/
theorem PushFront_total {sf : LinkedMap K V} (h : WF sf) (hcap : 0 ≤ sf.cap)
    (k : Option K) (v : Option V) :
    ∃ r sf', sf.PushFront k v = .ok (r, sf') ∧ WF sf' ∧ sf'.cap = sf.cap ∧ sf'.cmp = sf.cmp ∧
      (0 < sf.cap → sf.Len ≤ sf.cap → sf'.Len ≤ sf.cap) := by
  rcases hg : mapGet sf.data k with _ | a
  · have hk : ∀ e ∈ sf.l.elems, e.Value.key ≠ k := (WFc.mapGet_none_iff h k).mp hg
    by_cases hfull : sf.cap ≠ 0 ∧ sf.l.Len ≥ sf.cap
    · by_cases hnil : sf.l.elems = []
      · exfalso
        have := hfull.2
        simp only [GoList.Len, hnil, List.length_nil, Nat.cast_zero] at this
        exact hfull.1 (le_antisymm this hcap)
      · obtain ⟨init, e, hl⟩ := exists_concat_of_ne_nil hnil
        have hw : WFc sf.data (init ++ [e]) sf.l.next := hl ▸ h
        refine ⟨_, _, PushFront_absent_full h v hg hfull hl, ?_, rfl, rfl, ?_⟩
        · exact hw.drop_last.cons_new v
            (fun x hx => hk x (hl ▸ List.mem_append_left _ hx))
        · intro _ hle
          simp only [Len, GoList.Len, hl, List.length_cons, List.length_append,
            List.length_singleton] at hle ⊢
          exact hle
    · refine ⟨_, _, PushFront_absent_room v hg hfull, WFc.cons_new h v hk, rfl, rfl, ?_⟩
      intro hpos _
      simp only [Len, GoList.Len, List.length_cons, Nat.cast_add, Nat.cast_one]
      simp only [GoList.Len, not_and, not_le, ge_iff_le] at hfull
      have := hfull (ne_of_gt hpos)
      omega
  · obtain ⟨e0, he0, rfl, rfl⟩ := (WFc.mapGet_some_iff h k a).mp hg
    refine ⟨_, _, PushFront_present h he0 v, WFc.replace h he0 v, rfl, rfl, ?_⟩
    intro _ hle
    simp only [Len, GoList.Len, List.length_cons] at hle ⊢
    rw [WFc.length_filter h he0]
    exact hle

/-- On a well-formed state `Get` returns and leaves a well-formed state of the same length and
configuration. -/
theorem Get_total {sf : LinkedMap K V} (h : WF sf) (k : Option K) (d : List (Option V)) :
    ∃ r sf', sf.Get k d = .ok (r, sf') ∧ WF sf' ∧ sf'.cap = sf.cap ∧ sf'.cmp = sf.cmp ∧
      sf'.Len = sf.Len := by
  rcases hg : mapGet sf.data k with _ | a
  · unfold Get
    rw [hg]
    cases d with
    | nil => exact ⟨_, _, rfl, h, rfl, rfl, rfl⟩
    | cons x xs => exact ⟨_, _, rfl, h, rfl, rfl, rfl⟩
  · obtain ⟨e0, he0, rfl, rfl⟩ := (WFc.mapGet_some_iff h k a).mp hg
    refine ⟨_, _, Get_present h he0 d, ?_, rfl, rfl, ?_⟩
    · have := (WFc.replace h he0 e0.Value.value).perm (List.perm_append_singleton _ _).symm
      exact this
    · simp only [Len, GoList.Len, List.length_append, List.length_singleton]
      rw [WFc.length_filter h he0]

/-- On a well-formed state `Remove` returns and leaves a well-formed state that is not
longer. -/
theorem Remove_total {sf : LinkedMap K V} (h : WF sf) (k : Option K) :
    ∃ r sf', sf.Remove k = .ok (r, sf') ∧ WF sf' ∧ sf'.cap = sf.cap ∧ sf'.cmp = sf.cmp ∧
      sf'.Len ≤ sf.Len := by
  rcases hg : mapGet sf.data k with _ | a
  · unfold Remove
    rw [hg]
    exact ⟨_, _, rfl, h, rfl, rfl, le_refl _⟩
  · obtain ⟨e0, he0, rfl, rfl⟩ := (WFc.mapGet_some_iff h k a).mp hg
    refine ⟨_, _, Remove_present h he0, WFc.remove h he0, rfl, rfl, ?_⟩
    simp only [Len, GoList.Len]
    have := WFc.length_filter h he0
    omega

/-- The call `PollFront` keeps a state well-formed and does not lengthen it. -/
theorem PollFront_wf {sf : LinkedMap K V} (h : WF sf) :
    WF sf.PollFront.2 ∧ sf.PollFront.2.cap = sf.cap ∧ sf.PollFront.2.cmp = sf.cmp ∧
      sf.PollFront.2.Len ≤ sf.Len := by
  rcases hl : sf.l.elems with _ | ⟨e, rest⟩
  · have : sf.PollFront = ((none, none, false), sf) := by
      unfold PollFront; simp only [GoList.Front, hl, List.head?_nil]
    rw [this]
    exact ⟨h, rfl, rfl, le_refl _⟩
  · have hw : WFc sf.data (e :: rest) sf.l.next := hl ▸ h
    rw [PollFront_cons h hl]
    refine ⟨hw.drop_head, rfl, rfl, ?_⟩
    simp only [Len, GoList.Len, hl, List.length_cons]
    omega

/-- The call `PollBack` keeps a state well-formed and does not lengthen it. -/
theorem PollBack_wf {sf : LinkedMap K V} (h : WF sf) :
    WF sf.PollBack.2 ∧ sf.PollBack.2.cap = sf.cap ∧ sf.PollBack.2.cmp = sf.cmp ∧
      sf.PollBack.2.Len ≤ sf.Len := by
  by_cases hnil : sf.l.elems = []
  · have : sf.PollBack = ((none, none, false), sf) := by
      unfold PollBack; simp only [GoList.Back, hnil, List.getLast?_nil]
    rw [this]
    exact ⟨h, rfl, rfl, le_refl _⟩
  · obtain ⟨init, e, hl⟩ := exists_concat_of_ne_nil hnil
    have hw : WFc sf.data (init ++ [e]) sf.l.next := hl ▸ h
    rw [PollBack_concat h hl]
    refine ⟨hw.drop_last, rfl, rfl, ?_⟩
    simp only [Len, GoList.Len, hl, List.length_append, List.length_singleton]
    omega

/-- The call `Clear` leaves a well-formed empty state. -/
theorem Clear_wf (sf : LinkedMap K V) : WF sf.Clear where
  ids := List.nodup_nil
  fresh := fun e he => by simp [Clear, GoList.Init] at he
  keys := List.nodup_nil
  idx := List.nodup_nil
  sound := fun p hp => by simp [Clear] at hp
  complete := fun e he => by simp [Clear, GoList.Init] at he

end LinkedMap

theorem foldl_options_empty (opts : List (MapOption K V)) (hopts : ∀ o ∈ opts, IsOption o)
    (s : LinkedMap K V) (hd : s.data = []) (hl : s.l = GoList.New) :
    (opts.foldl (fun lm opt => opt lm) s).data = [] ∧
      (opts.foldl (fun lm opt => opt lm) s).l = GoList.New := by
  induction opts generalizing s with
  | nil => exact ⟨hd, hl⟩
  | cons o opts ih =>
    simp only [List.foldl_cons]
    apply ih (fun o ho => hopts o (List.mem_cons_of_mem _ ho))
    · cases hopts o (List.mem_cons_self _ _) <;> exact hd
    · cases hopts o (List.mem_cons_self _ _) <;> exact hl

/-- A map returned by `New` is empty: no index entry, no list element. -/
theorem New_empty (opts : List (MapOption K V)) (hopts : ∀ o ∈ opts, IsOption o) :
    (New opts).data = [] ∧ (New opts).l = GoList.New :=
  foldl_options_empty opts hopts _ rfl rfl

/-- A map returned by `New` is well-formed. -/
theorem New_wf (opts : List (MapOption K V)) (hopts : ∀ o ∈ opts, IsOption o) :
    WF (New opts) := by
  obtain ⟨hd, hl⟩ := New_empty opts hopts
  unfold WF
  rw [hd, hl]
  exact ⟨List.nodup_nil, fun e he => by simp [GoList.New] at he, List.nodup_nil,
    List.nodup_nil, fun p hp => by simp at hp, fun e he => by simp [GoList.New] at he⟩

theorem New_withCap_cap (c : Int) : (New [WithCap c] : LinkedMap K V).cap = c := rfl

/-- Every call on a well-formed state with a non-negative capacity returns, and the state it
leaves is well-formed, has the same configuration, and respects a positive capacity that the
state before respected. -/
theorem exec_total [DecidableEq V] {sf : LinkedMap K V} (h : WF sf) (hcap : 0 ≤ sf.cap)
    (op : Op K V) :
    ∃ r sf', exec sf op = .ok (r, sf') ∧ WF sf' ∧ sf'.cap = sf.cap ∧ sf'.cmp = sf.cmp ∧
      (0 < sf.cap → sf.Len ≤ sf.cap → sf'.Len ≤ sf.cap) := by
  cases op with
  | Cap => exact ⟨_, _, rfl, h, rfl, rfl, fun _ hl => hl⟩
  | Len => exact ⟨_, _, rfl, h, rfl, rfl, fun _ hl => hl⟩
  | IsEmpty => exact ⟨_, _, rfl, h, rfl, rfl, fun _ hl => hl⟩
  | Clear =>
    refine ⟨_, _, rfl, LinkedMap.Clear_wf sf, rfl, rfl, fun hpos _ => ?_⟩
    simp only [LinkedMap.Len, LinkedMap.Clear, GoList.Init, GoList.Len, List.length_nil,
      Nat.cast_zero]
    exact le_of_lt hpos
  | Push k v =>
    obtain ⟨r, sf', he, hw, h1, h2, h3⟩ := LinkedMap.PushBack_total h hcap k v
    exact ⟨_, sf', by simp only [exec, LinkedMap.Push, he]; rfl, hw, h1, h2, h3⟩
  | PushFront k v =>
    obtain ⟨r, sf', he, hw, h1, h2, h3⟩ := LinkedMap.PushFront_total h hcap k v
    exact ⟨_, sf', by simp only [exec, he]; rfl, hw, h1, h2, h3⟩
  | PushBack k v =>
    obtain ⟨r, sf', he, hw, h1, h2, h3⟩ := LinkedMap.PushBack_total h hcap k v
    exact ⟨_, sf', by simp only [exec, he]; rfl, hw, h1, h2, h3⟩
  | Poll =>
    obtain ⟨hw, h1, h2, h3⟩ := LinkedMap.PollFront_wf h
    exact ⟨_, _, rfl, hw, h1, h2, fun _ hl => le_trans h3 hl⟩
  | PollFront =>
    obtain ⟨hw, h1, h2, h3⟩ := LinkedMap.PollFront_wf h
    exact ⟨_, _, rfl, hw, h1, h2, fun _ hl => le_trans h3 hl⟩
  | PollBack =>
    obtain ⟨hw, h1, h2, h3⟩ := LinkedMap.PollBack_wf h
    exact ⟨_, _, rfl, hw, h1, h2, fun _ hl => le_trans h3 hl⟩
  | Remove k =>
    obtain ⟨r, sf', he, hw, h1, h2, h3⟩ := LinkedMap.Remove_total h k
    exact ⟨_, sf', by simp only [exec, he]; rfl, hw, h1, h2, fun _ hl => le_trans h3 hl⟩
  | Get k d =>
    obtain ⟨r, sf', he, hw, h1, h2, h3⟩ := LinkedMap.Get_total h k d
    exact ⟨_, sf', by simp only [exec, he]; rfl, hw, h1, h2, fun _ hl => h3 ▸ hl⟩
  | ContainsKey k => exact ⟨_, _, rfl, h, rfl, rfl, fun _ hl => hl⟩
  | ContainsValue v => exact ⟨_, _, rfl, h, rfl, rfl, fun _ hl => hl⟩
  | Peek => exact ⟨_, _, rfl, h, rfl, rfl, fun _ hl => hl⟩
  | PeekFront => exact ⟨_, _, rfl, h, rfl, rfl, fun _ hl => hl⟩
  | PeekBack => exact ⟨_, _, rfl, h, rfl, rfl, fun _ hl => hl⟩
  | Iterator cb => exact ⟨_, _, rfl, h, rfl, rfl, fun _ hl => hl⟩
  | ReverseIterator cb => exact ⟨_, _, rfl, h, rfl, rfl, fun _ hl => hl⟩

/-- Every finite sequence of calls from a well-formed state with a non-negative capacity runs
to the end without a fault and ends in a well-formed state with the same configuration; a
positive capacity that bounded the length at the start bounds it at the end. -/
theorem run_total [DecidableEq V] (ops : List (Op K V)) {sf : LinkedMap K V} (h : WF sf)
    (hcap : 0 ≤ sf.cap) :
    ∃ sf', run sf ops = .ok sf' ∧ WF sf' ∧ sf'.cap = sf.cap ∧ sf'.cmp = sf.cmp ∧
      (0 < sf.cap → sf.Len ≤ sf.cap → sf'.Len ≤ sf.cap) := by
  induction ops generalizing sf with
  | nil => exact ⟨sf, rfl, h, rfl, rfl, fun _ hl => hl⟩
  | cons op ops ih =>
    obtain ⟨r, s1, he, hw, h1, h2, h3⟩ := exec_total h hcap op
    obtain ⟨s2, hr, hw2, g1, g2, g3⟩ := ih hw (h1 ▸ hcap)
    refine ⟨s2, ?_, hw2, g1.trans h1, g2.trans h2, ?_⟩
    · simp only [run, he]
      exact hr
    · intro hpos hl
      have := g3 (h1 ▸ hpos) (h1 ▸ h3 hpos hl)
      rw [h1] at this
      exact this

theorem sampleFull_wf : WF sampleFull :=
  ⟨by decide, by decide, by decide, by decide, by decide, by decide⟩

namespace LinkedMap

/-- A map at a positive capacity has a front element. -/
theorem exists_cons_of_full {sf : LinkedMap K V} (hpos : 0 < sf.Cap) (hfull : sf.Len = sf.Cap) :
    ∃ e rest, sf.l.elems = e :: rest := by
  rcases hl : sf.l.elems with _ | ⟨e, rest⟩
  · exfalso
    simp only [Len, GoList.Len, hl, List.length_nil, Nat.cast_zero] at hfull
    omega
  · exact ⟨e, rest, rfl⟩

/-- C1: on a map with capacity c > 0 that holds exactly c entries e1..ec, `PushBack k v` for a
key that is not present returns nil and leaves the entries e2..ec followed by (k, v): the
front entry e1 is gone from the list and from the key index, the index holds exactly the keys
of the new sequence, and `Len` is still c. -/
theorem C1_pushBack_evicts_front (sf : LinkedMap K V) (k : Option K) (v : Option V)
    (hwf : WF sf) (hpos : 0 < sf.Cap) (hfull : sf.Len = sf.Cap)
    (hk : sf.ContainsKey k = false) :
    ∃ (e1 : store K V) (rest : List (store K V)) (sf' : LinkedMap K V),
      sf.entries = e1 :: rest ∧
      sf.PushBack k v = .ok (none, sf') ∧
      sf'.entries = rest ++ [⟨k, v⟩] ∧
      e1 ∉ sf'.entries ∧
      sf'.ContainsKey e1.key = false ∧
      (∀ k', sf'.ContainsKey k' = true ↔ k' ∈ (rest ++ [store.mk k v]).map store.key) ∧
      sf'.Len = sf.Cap ∧ sf'.Cap = sf.Cap ∧ WF sf' := by
  obtain ⟨e, rest, hl⟩ := exists_cons_of_full hpos hfull
  have hw : WFc sf.data (e :: rest) sf.l.next := hl ▸ hwf
  have hknew : ∀ x ∈ sf.l.elems, x.Value.key ≠ k := (containsKey_false_iff hwf k).mp hk
  have hg : mapGet sf.data k = none := (WFc.mapGet_none_iff hwf k).mpr hknew
  have hguard : sf.cap ≠ 0 ∧ sf.l.Len ≥ sf.cap := ⟨ne_of_gt hpos, le_of_eq hfull.symm⟩
  have hw' : WFc (mapSet (mapDelete sf.data e.Value.key) k sf.l.next)
      (rest ++ [⟨sf.l.next, ⟨k, v⟩⟩]) (sf.l.next + 1) :=
    hw.drop_head.snoc_new v (fun x hx => hknew x (hl ▸ List.mem_cons_of_mem _ hx))
  have hkeys := hw.keys
  simp only [List.map_cons, List.nodup_cons, List.mem_map, not_exists, not_and] at hkeys
  have hgone : ∀ x ∈ rest ++ [(⟨sf.l.next, ⟨k, v⟩⟩ : Element K V)],
      x.Value.key ≠ e.Value.key := by
    intro x hx
    rcases List.mem_append.mp hx with hx | hx
    · exact hkeys.1 x hx
    · rw [List.mem_singleton] at hx
      subst hx
      exact fun heq => hknew e (hl ▸ List.mem_cons_self _ _) heq.symm
  have hwf' : WF ({ sf with
      data := mapSet (mapDelete sf.data e.Value.key) k sf.l.next,
      l := ⟨rest ++ [⟨sf.l.next, ⟨k, v⟩⟩], sf.l.next + 1⟩ } : LinkedMap K V) := hw'
  refine ⟨e.Value, rest.map Element.Value, _, ?_, PushBack_absent_full hwf v hg hguard hl,
    ?_, ?_, ?_, ?_, ?_, rfl, hwf'⟩
  · simp only [entries, hl, List.map_cons]
  · simp only [entries, List.map_append, List.map_cons, List.map_nil]
  · simp only [entries, List.mem_map, not_exists, not_and]
    intro x hx heq
    exact hgone x hx (congrArg store.key heq)
  · exact (containsKey_false_iff hwf' _).mpr hgone
  · intro k'
    rw [containsKey_iff hwf' k']
    simp only [entries, List.map_append, List.map_cons, List.map_nil]
  · simp only [Len, GoList.Len, List.length_append, List.length_singleton]
    simp only [Len, GoList.Len, hl, List.length_cons] at hfull
    exact hfull

/-- C1 at the full capacity-2 map with entries (1, 10), (2, 20) and the new key 3. -/
theorem C1_pushBack_evicts_front_witness :
    WF sampleFull ∧ 0 < sampleFull.Cap ∧ sampleFull.Len = sampleFull.Cap ∧
      sampleFull.ContainsKey (some 3) = false ∧
      ∃ (e1 : store Nat Nat) (rest : List (store Nat Nat)) (sf' : LinkedMap Nat Nat),
        sampleFull.entries = e1 :: rest ∧
        sampleFull.PushBack (some 3) (some 30) = .ok (none, sf') ∧
        sf'.entries = rest ++ [⟨some 3, some 30⟩] ∧
        e1 ∉ sf'.entries ∧
        sf'.ContainsKey e1.key = false ∧
        (∀ k', sf'.ContainsKey k' = true ↔
          k' ∈ (rest ++ [store.mk (some 3) (some 30)]).map store.key) ∧
        sf'.Len = sampleFull.Cap ∧ sf'.Cap = sampleFull.Cap ∧ WF sf' :=
  ⟨sampleFull_wf, by decide, by decide, by decide,
    C1_pushBack_evicts_front sampleFull (some 3) (some 30) sampleFull_wf (by decide)
      (by decide) (by decide)⟩


/-- A map at a positive capacity has a back element. -/
theorem exists_concat_of_full {sf : LinkedMap K V} (hpos : 0 < sf.Cap)
    (hfull : sf.Len = sf.Cap) : ∃ init e, sf.l.elems = init ++ [e] := by
  apply exists_concat_of_ne_nil
  intro hl
  simp only [Len, GoList.Len, hl, List.length_nil, Nat.cast_zero] at hfull
  omega

/-- C2: on a map with capacity c > 0 that holds exactly c entries e1..ec, `PushFront k v` for a
key that is not present returns nil and leaves (k, v) followed by e1..e(c-1): the back entry
ec is gone from the list and from the key index, the index holds exactly the keys of the new
sequence, and `Len` is still c. -/
theorem C2_pushFront_evicts_back (sf : LinkedMap K V) (k : Option K) (v : Option V)
    (hwf : WF sf) (hpos : 0 < sf.Cap) (hfull : sf.Len = sf.Cap)
    (hk : sf.ContainsKey k = false) :
    ∃ (init : List (store K V)) (ec : store K V) (sf' : LinkedMap K V),
      sf.entries = init ++ [ec] ∧
      sf.PushFront k v = .ok (none, sf') ∧
      sf'.entries = store.mk k v :: init ∧
      ec ∉ sf'.entries ∧
      sf'.ContainsKey ec.key = false ∧
      (∀ k', sf'.ContainsKey k' = true ↔ k' ∈ (store.mk k v :: init).map store.key) ∧
      sf'.Len = sf.Cap ∧ sf'.Cap = sf.Cap ∧ WF sf' := by
  obtain ⟨init, e, hl⟩ := exists_concat_of_full hpos hfull
  have hw : WFc sf.data (init ++ [e]) sf.l.next := hl ▸ hwf
  have hknew : ∀ x ∈ sf.l.elems, x.Value.key ≠ k := (containsKey_false_iff hwf k).mp hk
  have hg : mapGet sf.data k = none := (WFc.mapGet_none_iff hwf k).mpr hknew
  have hguard : sf.cap ≠ 0 ∧ sf.l.Len ≥ sf.cap := ⟨ne_of_gt hpos, le_of_eq hfull.symm⟩
  have hw' : WFc (mapSet (mapDelete sf.data e.Value.key) k sf.l.next)
      (⟨sf.l.next, ⟨k, v⟩⟩ :: init) (sf.l.next + 1) :=
    hw.drop_last.cons_new v (fun x hx => hknew x (hl ▸ List.mem_append_left _ hx))
  have hkeys := hw.keys
  rw [List.map_append, List.nodup_append] at hkeys
  have hgone : ∀ x ∈ (⟨sf.l.next, ⟨k, v⟩⟩ : Element K V) :: init,
      x.Value.key ≠ e.Value.key := by
    intro x hx
    rcases List.mem_cons.mp hx with hx | hx
    · subst hx
      exact fun heq =>
        hknew e (hl ▸ List.mem_append_right _ (List.mem_singleton_self e)) heq.symm
    · intro heq
      exact hkeys.2.2 (List.mem_map_of_mem (fun e => e.Value.key) hx)
        (by simp only [List.map_cons, List.map_nil, List.mem_singleton]; exact heq)
  have hwf' : WF ({ sf with
      data := mapSet (mapDelete sf.data e.Value.key) k sf.l.next,
      l := ⟨⟨sf.l.next, ⟨k, v⟩⟩ :: init, sf.l.next + 1⟩ } : LinkedMap K V) := hw'
  refine ⟨init.map Element.Value, e.Value, _, ?_, PushFront_absent_full hwf v hg hguard hl,
    ?_, ?_, ?_, ?_, ?_, rfl, hwf'⟩
  · simp only [entries, hl, List.map_append, List.map_cons, List.map_nil]
  · simp only [entries, List.map_cons]
  · simp only [entries, List.mem_map, not_exists, not_and]
    intro x hx heq
    exact hgone x hx (congrArg store.key heq)
  · exact (containsKey_false_iff hwf' _).mpr hgone
  · intro k'
    rw [containsKey_iff hwf' k']
    simp only [entries, List.map_cons]
  · simp only [Len, GoList.Len, List.length_cons]
    simp only [Len, GoList.Len, hl, List.length_append, List.length_singleton] at hfull
    exact hfull

/-- C2 at the full capacity-2 map with entries (1, 10), (2, 20) and the new key 3. -/
theorem C2_pushFront_evicts_back_witness :
    WF sampleFull ∧ 0 < sampleFull.Cap ∧ sampleFull.Len = sampleFull.Cap ∧
      sampleFull.ContainsKey (some 3) = false ∧
      ∃ (init : List (store Nat Nat)) (ec : store Nat Nat) (sf' : LinkedMap Nat Nat),
        sampleFull.entries = init ++ [ec] ∧
        sampleFull.PushFront (some 3) (some 30) = .ok (none, sf') ∧
        sf'.entries = store.mk (some 3) (some 30) :: init ∧
        ec ∉ sf'.entries ∧
        sf'.ContainsKey ec.key = false ∧
        (∀ k', sf'.ContainsKey k' = true ↔
          k' ∈ (store.mk (some 3) (some 30) :: init).map store.key) ∧
        sf'.Len = sampleFull.Cap ∧ sf'.Cap = sampleFull.Cap ∧ WF sf' :=
  ⟨sampleFull_wf, by decide, by decide, by decide,
    C2_pushFront_evicts_back sampleFull (some 3) (some 30) sampleFull_wf (by decide)
      (by decide) (by decide)⟩

end LinkedMap

/-- C3: the code at `New(WithCap(2))` after `PushBack(1, 10)`, `PushBack(2, 20)`: the call
`PushBack(3, 30)` on the full map returns nil and leaves the entries (2, 20), (3, 30).  The
entry that was at the back, (2, 20), is still in the map and the entry that was at the front,
(1, 10), is gone, where the doc comments of `Push` and `PushBack` announce the removal of the
back item. -/
theorem C3_pushBack_full_keeps_back_drops_front :
    ∃ sf sf' : LinkedMap Nat Nat,
      run (New [WithCap 2]) [.PushBack (some 1) (some 10), .PushBack (some 2) (some 20)]
        = .ok sf ∧
      sf.entries = [⟨some 1, some 10⟩, ⟨some 2, some 20⟩] ∧
      sf.Len = sf.Cap ∧
      sf.PushBack (some 3) (some 30) = .ok (none, sf') ∧
      sf.Push (some 3) (some 30) = .ok (none, sf') ∧
      sf'.entries = [⟨some 2, some 20⟩, ⟨some 3, some 30⟩] ∧
      sf'.ContainsKey (some 2) = true ∧
      sf'.ContainsKey (some 1) = false :=
  ⟨_, _, rfl, by decide, by decide, rfl, rfl, by decide, by decide, by decide⟩

/-- C4: for every capacity c > 0 and every finite sequence of calls on `New(WithCap(c))`, after
each call of the sequence (after the first n calls, for every n) the run has not faulted and
`Len() <= c`. -/
theorem C4_len_le_cap [DecidableEq V] (c : Int) (hc : 0 < c) (ops : List (Op K V)) (n : Nat) :
    ∃ sf' : LinkedMap K V, run (New [WithCap c]) (ops.take n) = .ok sf' ∧
      sf'.Cap = c ∧ sf'.Len ≤ c := by
  have hwf : WF (New [WithCap c] : LinkedMap K V) :=
    New_wf _ (fun o ho => by
      rw [List.mem_singleton] at ho
      subst ho
      exact IsOption.withCap c)
  have hcap : (New [WithCap c] : LinkedMap K V).cap = c := rfl
  obtain ⟨sf', hr, _, h1, _, h3⟩ := run_total (ops.take n) hwf (by rw [hcap]; exact le_of_lt hc)
  refine ⟨sf', hr, h1.trans hcap, ?_⟩
  have := h3 (by rw [hcap]; exact hc) (by
    rw [hcap]
    exact le_of_lt hc)
  rw [hcap] at this
  exact this

/-- C4 at capacity 2 with three pushes of distinct keys, a read and a poll. -/
theorem C4_len_le_cap_witness :
    (0 : Int) < 2 ∧ ∃ sf' : LinkedMap Nat Nat,
      run (New [WithCap 2])
        ([Op.PushBack (some 1) (some 10), .PushFront (some 2) (some 20),
          .Push (some 3) (some 30), .Get (some 2) [], .PollBack].take 3) = .ok sf' ∧
      sf'.Cap = 2 ∧ sf'.Len ≤ 2 :=
  ⟨by decide, C4_len_le_cap 2 (by decide) _ 3⟩

/-- With a callback that always answers true the loop visits every entry. -/
theorem visit_true (es : List (Element K V)) :
    LinkedMap.visit (some (fun _ _ => true)) es = es.map Element.Value := by
  induction es with
  | nil => rfl
  | cons e es ih => simp only [LinkedMap.visit, if_true, ih, List.map_cons]

/-- In a well-formed state the index has as many entries as the list has elements. -/
theorem WFc.length_data {data : List (Option K × Nat)} {es : List (Element K V)} {n : Nat}
    (h : WFc data es n) : data.length = es.length := by
  have hp : (data.map Prod.fst).Perm (es.map (fun e => e.Value.key)) := by
    rw [List.perm_ext_iff_of_nodup h.idx h.keys]
    intro k
    simp only [List.mem_map]
    constructor
    · rintro ⟨p, hp, rfl⟩
      obtain ⟨e, he, _, hk⟩ := h.sound p hp
      exact ⟨e, he, hk⟩
    · rintro ⟨e, he, rfl⟩
      exact ⟨_, h.complete e he, rfl⟩
  simpa using hp.length_eq

/-- C5: after every finite sequence of calls on a map built by `New` with capacity >= 0 the run
has not faulted and (1) the keys of the list entries are pairwise distinct, (2) the index maps
a key to an address exactly when the list element at that address carries that key (element
addresses being pairwise distinct), (3) `Len()` is the number of keys in the index; and
`ContainsKey(k)` is true exactly when `Iterator` with an always-true callback visits an entry
with key k. -/
theorem C5_index_list_consistent [DecidableEq V] (opts : List (MapOption K V))
    (hopts : ∀ o ∈ opts, IsOption o) (hcap : 0 ≤ (New opts).Cap) (ops : List (Op K V)) :
    ∃ sf' : LinkedMap K V, run (New opts) ops = .ok sf' ∧
      (sf'.entries.map store.key).Nodup ∧
      (sf'.l.elems.map Element.id).Nodup ∧
      (∀ k a, mapGet sf'.data k = some a ↔ ∃ e ∈ sf'.l.elems, e.id = a ∧ e.Value.key = k) ∧
      (sf'.data.map Prod.fst).Nodup ∧
      sf'.Len = (sf'.data.map Prod.fst).length ∧
      (∀ k, sf'.ContainsKey k = true ↔
        ∃ st ∈ sf'.Iterator (some (fun _ _ => true)), st.key = k) := by
  obtain ⟨sf', hr, hwf, _, _, _⟩ := run_total ops (New_wf opts hopts) hcap
  refine ⟨sf', hr, ?_, hwf.ids, fun k a => WFc.mapGet_some_iff hwf k a, hwf.idx, ?_, ?_⟩
  · have := hwf.keys
    simpa only [LinkedMap.entries, List.map_map] using this
  · simp only [LinkedMap.Len, GoList.Len, List.length_map, WFc.length_data hwf]
  · intro k
    rw [LinkedMap.containsKey_iff hwf k, LinkedMap.Iterator, visit_true]
    simp only [LinkedMap.entries, List.mem_map]

/-- C5 at `New(WithCap(2))` after three pushes, a read and a removal. -/
theorem C5_index_list_consistent_witness :
    (∀ o ∈ [(WithCap 2 : MapOption Nat Nat)], IsOption o) ∧
      0 ≤ (New [(WithCap 2 : MapOption Nat Nat)]).Cap ∧
      ∃ sf' : LinkedMap Nat Nat,
        run (New [WithCap 2])
          [.PushBack (some 1) (some 10), .PushFront (some 2) (some 20),
            .Push (some 3) (some 30), .Get (some 2) [], .Remove (some 3)] = .ok sf' ∧
        (sf'.entries.map store.key).Nodup ∧
        (sf'.l.elems.map Element.id).Nodup ∧
        (∀ k a, mapGet sf'.data k = some a ↔
          ∃ e ∈ sf'.l.elems, e.id = a ∧ e.Value.key = k) ∧
        (sf'.data.map Prod.fst).Nodup ∧
        sf'.Len = (sf'.data.map Prod.fst).length ∧
        (∀ k, sf'.ContainsKey k = true ↔
          ∃ st ∈ sf'.Iterator (some (fun _ _ => true)), st.key = k) :=
  ⟨fun o ho => by
      rw [List.mem_singleton] at ho
      subst ho
      exact IsOption.withCap 2,
    by decide,
    C5_index_list_consistent [WithCap 2]
      (fun o ho => by
        rw [List.mem_singleton] at ho
        subst ho
        exact IsOption.withCap 2)
      (by decide) _⟩

namespace LinkedMap

/-- C6: on every well-formed map (any capacity, full or not) that holds key k with value v1,
`PushBack k v2` returns v1, leaves `Len()` and the set of indexed keys unchanged, and leaves
the old sequence without k's entry followed by (k, v2); `PushFront k v2` returns v1, leaves
`Len()` and the set of indexed keys unchanged, and leaves (k, v2) followed by the old sequence
without k's entry. -/
theorem C6_replace_in_place (sf : LinkedMap K V) (k : Option K) (v1 v2 : Option V)
    (hwf : WF sf) (hin : store.mk k v1 ∈ sf.entries) :
    (∃ sf' : LinkedMap K V, sf.PushBack k v2 = .ok (v1, sf') ∧
      sf'.Len = sf.Len ∧
      sf'.entries = sf.entries.filter (fun st => st.key ≠ k) ++ [store.mk k v2] ∧
      (∀ k', sf'.ContainsKey k' = sf.ContainsKey k') ∧
      sf'.Cap = sf.Cap ∧ WF sf') ∧
    (∃ sf' : LinkedMap K V, sf.PushFront k v2 = .ok (v1, sf') ∧
      sf'.Len = sf.Len ∧
      sf'.entries = store.mk k v2 :: sf.entries.filter (fun st => st.key ≠ k) ∧
      (∀ k', sf'.ContainsKey k' = sf.ContainsKey k') ∧
      sf'.Cap = sf.Cap ∧ WF sf') := by
  obtain ⟨e0, he0, hval⟩ := List.mem_map.mp hin
  have hkey : e0.Value.key = k := by rw [hval]
  have hv : e0.Value.value = v1 := by rw [hval]
  subst hkey hv
  constructor
  · refine ⟨_, PushBack_present hwf he0 v2, ?_, ?_, fun _ => rfl, rfl, ?_⟩
    · simp only [Len, GoList.Len, List.length_append, List.length_singleton,
        WFc.length_filter hwf he0]
    · simp only [entries, List.map_append, List.map_cons, List.map_nil,
        WFc.map_filter_id hwf he0]
    · exact (WFc.replace hwf he0 v2).perm (List.perm_append_singleton _ _).symm
  · refine ⟨_, PushFront_present hwf he0 v2, ?_, ?_, fun _ => rfl, rfl,
      WFc.replace hwf he0 v2⟩
    · simp only [Len, GoList.Len, List.length_cons, WFc.length_filter hwf he0]
    · simp only [entries, List.map_cons, WFc.map_filter_id hwf he0]

/-- C6 at the full capacity-2 map with entries (1, 10), (2, 20), re-pushing key 1. -/
theorem C6_replace_in_place_witness :
    WF sampleFull ∧ store.mk (some 1) (some 10) ∈ sampleFull.entries ∧
    (∃ sf' : LinkedMap Nat Nat, sampleFull.PushBack (some 1) (some 11) = .ok (some 10, sf') ∧
      sf'.Len = sampleFull.Len ∧
      sf'.entries = sampleFull.entries.filter (fun st => st.key ≠ some 1)
        ++ [store.mk (some 1) (some 11)] ∧
      (∀ k', sf'.ContainsKey k' = sampleFull.ContainsKey k') ∧
      sf'.Cap = sampleFull.Cap ∧ WF sf') ∧
    (∃ sf' : LinkedMap Nat Nat, sampleFull.PushFront (some 1) (some 11) = .ok (some 10, sf') ∧
      sf'.Len = sampleFull.Len ∧
      sf'.entries = store.mk (some 1) (some 11)
        :: sampleFull.entries.filter (fun st => st.key ≠ some 1) ∧
      (∀ k', sf'.ContainsKey k' = sampleFull.ContainsKey k') ∧
      sf'.Cap = sampleFull.Cap ∧ WF sf') :=
  ⟨sampleFull_wf, by decide,
    C6_replace_in_place sampleFull (some 1) (some 10) (some 11) sampleFull_wf (by decide)⟩

/-- C7: on every well-formed map that holds key k with value v, `Get k` with any list of
defaults (none, one or more) returns v, leaves `Len()` and the index unchanged, and leaves the
old sequence without k's entry followed by (k, v). -/
theorem C7_get_moves_to_back (sf : LinkedMap K V) (k : Option K) (v : Option V)
    (d : List (Option V)) (hwf : WF sf) (hin : store.mk k v ∈ sf.entries) :
    ∃ sf' : LinkedMap K V, sf.Get k d = .ok (v, sf') ∧
      sf'.Len = sf.Len ∧
      sf'.entries = sf.entries.filter (fun st => st.key ≠ k) ++ [store.mk k v] ∧
      sf'.entries.getLast? = some (store.mk k v) ∧
      (∀ k', sf'.ContainsKey k' = sf.ContainsKey k') ∧
      sf'.Cap = sf.Cap ∧ WF sf' := by
  obtain ⟨e0, he0, hval⟩ := List.mem_map.mp hin
  have hkey : e0.Value.key = k := by rw [hval]
  have hv : e0.Value.value = v := by rw [hval]
  subst hkey hv
  have hent : (sf.l.elems.filter (fun e => e.id ≠ e0.id) ++ [e0]).map Element.Value
      = sf.entries.filter (fun st => st.key ≠ e0.Value.key)
        ++ [store.mk e0.Value.key e0.Value.value] := by
    simp only [entries, List.map_append, List.map_cons, List.map_nil,
      WFc.map_filter_id hwf he0]
  refine ⟨_, Get_present hwf he0 d, ?_, hent, ?_, fun _ => rfl, rfl, ?_⟩
  · simp only [Len, GoList.Len, List.length_append, List.length_singleton,
      WFc.length_filter hwf he0]
  · show ((sf.l.elems.filter (fun e => e.id ≠ e0.id) ++ [e0]).map Element.Value).getLast? = _
    rw [hent]
    simp only [List.getLast?_append, List.getLast?_singleton, Option.or_some]
  · exact (WFc.replace hwf he0 e0.Value.value).perm (List.perm_append_singleton _ _).symm

/-- C7 at the full capacity-2 map with entries (1, 10), (2, 20), reading key 1 with a
default. -/
theorem C7_get_moves_to_back_witness :
    WF sampleFull ∧ store.mk (some 1) (some 10) ∈ sampleFull.entries ∧
    ∃ sf' : LinkedMap Nat Nat, sampleFull.Get (some 1) [some 99] = .ok (some 10, sf') ∧
      sf'.Len = sampleFull.Len ∧
      sf'.entries = sampleFull.entries.filter (fun st => st.key ≠ some 1)
        ++ [store.mk (some 1) (some 10)] ∧
      sf'.entries.getLast? = some (store.mk (some 1) (some 10)) ∧
      (∀ k', sf'.ContainsKey k' = sampleFull.ContainsKey k') ∧
      sf'.Cap = sampleFull.Cap ∧ WF sf' :=
  ⟨sampleFull_wf, by decide,
    C7_get_moves_to_back sampleFull (some 1) (some 10) [some 99] sampleFull_wf (by decide)⟩

/-- C8: on every map and for every key k that is not present, `Get k` returns nil and `Get k`
with defaults returns the first default, and the state after the call is the state before
it. -/
theorem C8_get_missing (sf : LinkedMap K V) (k : Option K) (hk : sf.ContainsKey k = false) :
    sf.Get k [] = .ok (none, sf) ∧
      ∀ (d : Option V) (ds : List (Option V)), sf.Get k (d :: ds) = .ok (d, sf) := by
  have hg : mapGet sf.data k = none := by
    unfold ContainsKey at hk
    cases h : mapGet sf.data k with
    | none => rfl
    | some a => rw [h] at hk; simp at hk
  constructor
  · unfold Get; rw [hg]
  · intro d ds
    unfold Get; rw [hg]

/-- C8 at the full capacity-2 map with entries (1, 10), (2, 20), reading the missing key 3. -/
theorem C8_get_missing_witness :
    sampleFull.ContainsKey (some 3) = false ∧
      sampleFull.Get (some 3) [] = .ok (none, sampleFull) ∧
      ∀ (d : Option Nat) (ds : List (Option Nat)),
        sampleFull.Get (some 3) (d :: ds) = .ok (d, sampleFull) :=
  ⟨by decide, C8_get_missing sampleFull (some 3) (by decide)⟩


theorem not_mem_keys_iff {sf : LinkedMap K V} (k : Option K) :
    k ∉ sf.entries.map store.key ↔ ∀ e ∈ sf.l.elems, e.Value.key ≠ k := by
  simp only [entries, List.map_map, List.mem_map, Function.comp_apply, not_exists, not_and]

/-- The call `PushBack` on a key that is not present, for a non-negative capacity: it returns
nil, and the front entry goes exactly when the eviction guard holds. -/
theorem PushBack_absent_entries {sf : LinkedMap K V} (h : WF sf) (hcap : 0 ≤ sf.cap)
    {k : Option K} (v : Option V) (hk : k ∉ sf.entries.map store.key) :
    ∃ sf' : LinkedMap K V, sf.PushBack k v = .ok (none, sf') ∧ WF sf' ∧ sf'.cap = sf.cap ∧
      sf'.cmp = sf.cmp ∧
      sf'.entries = if sf.cap ≠ 0 ∧ sf.Len ≥ sf.cap then sf.entries.tail ++ [store.mk k v]
        else sf.entries ++ [store.mk k v] := by
  have hknew : ∀ x ∈ sf.l.elems, x.Value.key ≠ k := (not_mem_keys_iff k).mp hk
  have hg : mapGet sf.data k = none := (WFc.mapGet_none_iff h k).mpr hknew
  by_cases hfull : sf.cap ≠ 0 ∧ sf.l.Len ≥ sf.cap
  · rcases hl : sf.l.elems with _ | ⟨e, rest⟩
    · exfalso
      have := hfull.2
      simp only [GoList.Len, hl, List.length_nil, Nat.cast_zero] at this
      exact hfull.1 (le_antisymm this hcap)
    · have hw : WFc sf.data (e :: rest) sf.l.next := hl ▸ h
      refine ⟨_, PushBack_absent_full h v hg hfull hl, ?_, rfl, rfl, ?_⟩
      · exact hw.drop_head.snoc_new v (fun x hx => hknew x (hl ▸ List.mem_cons_of_mem _ hx))
      · rw [if_pos (show sf.cap ≠ 0 ∧ sf.Len ≥ sf.cap from hfull)]
        simp only [entries, hl, List.map_append, List.map_cons, List.map_nil, List.tail_cons]
  · refine ⟨_, PushBack_absent_room v hg hfull, WFc.snoc_new h v hknew, rfl, rfl, ?_⟩
    rw [if_neg (show ¬ (sf.cap ≠ 0 ∧ sf.Len ≥ sf.cap) from hfull)]
    simp only [entries, List.map_append, List.map_cons, List.map_nil]

end LinkedMap


/-- Distinct new keys pushed at the back of a map with capacity N > 0: the map ends with the
last N entries of the old sequence followed by the pushed ones. -/
theorem run_pushBackAll_bounded [DecidableEq V] (N : Nat) (hN : 0 < N)
    (kvs : List (Option K × Option V)) :
    ∀ (sf : LinkedMap K V), WF sf → sf.cap = (N : Int) → sf.entries.length ≤ N →
      (kvs.map Prod.fst).Nodup → (∀ p ∈ kvs, p.1 ∉ sf.entries.map store.key) →
      ∃ sf' : LinkedMap K V, run sf (pushBackAll kvs) = .ok sf' ∧ WF sf' ∧
        sf'.cap = (N : Int) ∧
        sf'.entries = (sf.entries ++ asEntries kvs).drop
          (sf.entries.length + kvs.length - N) := by
  induction kvs with
  | nil =>
    intro sf hwf hcap hlen _ _
    refine ⟨sf, rfl, hwf, hcap, ?_⟩
    simp only [asEntries, List.map_nil, List.append_nil, List.length_nil, Nat.add_zero]
    rw [Nat.sub_eq_zero_of_le hlen, List.drop_zero]
  | cons p kvs ih =>
    intro sf hwf hcap hlen hnd hdisj
    simp only [List.map_cons, List.nodup_cons] at hnd
    have hp : p.1 ∉ sf.entries.map store.key := hdisj p (List.mem_cons_self _ _)
    obtain ⟨s1, hpush, hwf1, hcap1, _, hent1⟩ :=
      LinkedMap.PushBack_absent_entries hwf (by rw [hcap]; exact Int.natCast_nonneg N) p.2 hp
    have hlenInt : sf.Len = (sf.entries.length : Int) := by
      simp only [LinkedMap.Len, GoList.Len, LinkedMap.entries, List.length_map]
    have hent1' : s1.entries = (sf.entries ++ [store.mk p.1 p.2]).drop
        (sf.entries.length + 1 - N) := by
      rw [hent1]
      by_cases hfull : sf.entries.length = N
      · have hg : sf.cap ≠ 0 ∧ sf.Len ≥ sf.cap := by
          rw [hcap, hlenInt, hfull]
          exact ⟨by exact_mod_cast (Nat.pos_iff_ne_zero.mp hN), le_refl _⟩
        rw [if_pos hg, hfull]
        have h1 : N + 1 - N = 1 := by omega
        rw [h1]
        cases hse : sf.entries with
        | nil => rw [hse] at hfull; simp at hfull; omega
        | cons a as => simp
      · have hlt : sf.entries.length < N := lt_of_le_of_ne hlen hfull
        have hg : ¬ (sf.cap ≠ 0 ∧ sf.Len ≥ sf.cap) := by
          rw [hcap, hlenInt]
          intro hc
          have := hc.2
          have h2 : (N : Int) ≤ (sf.entries.length : Int) := this
          omega
        rw [if_neg hg]
        have h0 : sf.entries.length + 1 - N = 0 := by omega
        rw [h0, List.drop_zero]
    have hlen1 : s1.entries.length ≤ N := by
      rw [hent1']
      simp only [List.length_drop, List.length_append, List.length_singleton]
      omega
    have hdisj1 : ∀ q ∈ kvs, q.1 ∉ s1.entries.map store.key := by
      intro q hq hmem
      rw [hent1'] at hmem
      have hmem2 : q.1 ∈ (sf.entries ++ [store.mk p.1 p.2]).map store.key :=
        ((List.drop_sublist _ _).map store.key).subset hmem
      simp only [List.map_append, List.map_cons, List.map_nil, List.mem_append,
        List.mem_singleton] at hmem2
      rcases hmem2 with hm | hm
      · exact hdisj q (List.mem_cons_of_mem _ hq) hm
      · exact hnd.1 (hm ▸ List.mem_map_of_mem Prod.fst hq)
    obtain ⟨s2, hrun, hwf2, hcap2, hent2⟩ :=
      ih s1 hwf1 (hcap1.trans hcap) hlen1 hnd.2 hdisj1
    refine ⟨s2, ?_, hwf2, hcap2, ?_⟩
    · simp only [pushBackAll, List.map_cons, run, exec, hpush, Except.map]
      exact hrun
    · have hl1 : s1.entries.length = sf.entries.length + 1 - (sf.entries.length + 1 - N) := by
        rw [hent1']
        simp only [List.length_drop, List.length_append, List.length_singleton]
      have hle : sf.entries.length + 1 - N ≤ (sf.entries ++ [store.mk p.1 p.2]).length := by
        simp only [List.length_append, List.length_singleton]
        omega
      have happ : (sf.entries ++ [store.mk p.1 p.2]) ++ asEntries kvs
          = sf.entries ++ asEntries (p :: kvs) := by
        simp only [asEntries, List.map_cons, List.append_assoc, List.singleton_append]
      rw [hent2, hl1, hent1', ← List.drop_append_of_le_length hle, List.drop_drop, happ,
        List.length_cons]
      congr 1
      omega

/-- Distinct new keys pushed at the back of an unbounded map: the map ends with the old
sequence followed by the pushed entries. -/
theorem run_pushBackAll_unbounded [DecidableEq V] (kvs : List (Option K × Option V)) :
    ∀ (sf : LinkedMap K V), WF sf → sf.cap = 0 →
      (kvs.map Prod.fst).Nodup → (∀ p ∈ kvs, p.1 ∉ sf.entries.map store.key) →
      ∃ sf' : LinkedMap K V, run sf (pushBackAll kvs) = .ok sf' ∧ WF sf' ∧ sf'.cap = 0 ∧
        sf'.entries = sf.entries ++ asEntries kvs := by
  induction kvs with
  | nil =>
    intro sf hwf hcap _ _
    exact ⟨sf, rfl, hwf, hcap, by simp only [asEntries, List.map_nil, List.append_nil]⟩
  | cons p kvs ih =>
    intro sf hwf hcap hnd hdisj
    simp only [List.map_cons, List.nodup_cons] at hnd
    have hp : p.1 ∉ sf.entries.map store.key := hdisj p (List.mem_cons_self _ _)
    obtain ⟨s1, hpush, hwf1, hcap1, _, hent1⟩ :=
      LinkedMap.PushBack_absent_entries hwf (le_of_eq hcap.symm) p.2 hp
    rw [if_neg (fun hc => hc.1 hcap)] at hent1
    have hdisj1 : ∀ q ∈ kvs, q.1 ∉ s1.entries.map store.key := by
      intro q hq hmem
      rw [hent1] at hmem
      simp only [List.map_append, List.map_cons, List.map_nil, List.mem_append,
        List.mem_singleton] at hmem
      rcases hmem with hm | hm
      · exact hdisj q (List.mem_cons_of_mem _ hq) hm
      · exact hnd.1 (hm ▸ List.mem_map_of_mem Prod.fst hq)
    obtain ⟨s2, hrun, hwf2, hcap2, hent2⟩ := ih s1 hwf1 (hcap1.trans hcap) hnd.2 hdisj1
    refine ⟨s2, ?_, hwf2, hcap2, ?_⟩
    · simp only [pushBackAll, List.map_cons, run, exec, hpush, Except.map]
      exact hrun
    · rw [hent2, hent1]
      simp only [asEntries, List.map_cons, List.append_assoc, List.singleton_append]

/-- C9: for every N > 0 and every list of N+1 pairs with pairwise distinct keys k0..kN, pushing
them in order with `PushBack` into `New(WithCap(N))` runs without fault and leaves
`ContainsKey(k0)` false, `Len() = N`, and a front-to-back iteration that yields exactly the
entries k1..kN with their values, in insertion order. -/
theorem C9_eviction_correctness [DecidableEq V] (N : Nat) (hN : 0 < N)
    (kvs : List (Option K × Option V)) (hlen : kvs.length = N + 1)
    (hnd : (kvs.map Prod.fst).Nodup) :
    ∃ sf' : LinkedMap K V, run (New [WithCap (N : Int)]) (pushBackAll kvs) = .ok sf' ∧
      (∀ p0, kvs.head? = some p0 → sf'.ContainsKey p0.1 = false) ∧
      sf'.Len = (N : Int) ∧
      sf'.Iterator (some (fun _ _ => true)) = asEntries kvs.tail := by
  have hwf : WF (New [WithCap (N : Int)] : LinkedMap K V) :=
    New_wf _ (fun o ho => by
      rw [List.mem_singleton] at ho
      subst ho
      exact IsOption.withCap _)
  obtain ⟨sf', hrun, hwf', _, hent⟩ :=
    run_pushBackAll_bounded N hN kvs (New [WithCap (N : Int)]) hwf rfl (Nat.zero_le N) hnd
      (fun p _ hmem => by simp [New, WithCap, GoList.New, LinkedMap.entries] at hmem)
  have hent' : sf'.entries = asEntries kvs.tail := by
    rw [hent]
    have h0 : (New [WithCap (N : Int)] : LinkedMap K V).entries = [] := rfl
    rw [h0, hlen]
    simp only [List.nil_append, List.length_nil, Nat.zero_add]
    have h1 : N + 1 - N = 1 := by omega
    rw [h1]
    simp only [asEntries, List.drop_one, List.map_tail]
  refine ⟨sf', hrun, ?_, ?_, ?_⟩
  · intro p0 hp0
    cases kvs with
    | nil => simp at hp0
    | cons p rest =>
      simp only [List.head?_cons, Option.some.injEq] at hp0
      subst hp0
      simp only [List.map_cons, List.nodup_cons] at hnd
      cases hc : sf'.ContainsKey p.1 with
      | false => rfl
      | true =>
        exfalso
        have := (LinkedMap.containsKey_iff hwf' p.1).mp hc
        rw [hent'] at this
        simp only [asEntries, List.tail_cons, List.map_map, List.mem_map,
          Function.comp_apply] at this
        obtain ⟨q, hq, hqk⟩ := this
        exact hnd.1 (hqk ▸ List.mem_map_of_mem Prod.fst hq)
  · have : sf'.Len = (sf'.entries.length : Int) := by
      simp only [LinkedMap.Len, GoList.Len, LinkedMap.entries, List.length_map]
    rw [this, hent']
    simp only [asEntries, List.length_map, List.length_tail, hlen, Nat.add_sub_cancel]
  · rw [LinkedMap.Iterator, visit_true]
    exact hent'

/-- C9 at N = 2 with the keys 1, 2, 3. -/
theorem C9_eviction_correctness_witness :
    0 < 2 ∧ [(some 1, some 10), (some 2, some 20), (some 3, some 30)].length = 2 + 1 ∧
      ([(some 1, some 10), (some 2, some 20), (some 3, some 30)].map Prod.fst).Nodup ∧
      ∃ sf' : LinkedMap Nat Nat,
        run (New [WithCap ((2 : Nat) : Int)])
          (pushBackAll [(some 1, some 10), (some 2, some 20), (some 3, some 30)]) = .ok sf' ∧
        (∀ p0, [(some 1, some 10), (some 2, some 20), (some 3, some 30)].head? = some p0 →
          sf'.ContainsKey p0.1 = false) ∧
        sf'.Len = ((2 : Nat) : Int) ∧
        sf'.Iterator (some (fun _ _ => true))
          = asEntries [(some 1, some 10), (some 2, some 20), (some 3, some 30)].tail :=
  ⟨by decide, by decide, by decide,
    C9_eviction_correctness 2 (by decide) _ (by decide) (by decide)⟩

/-- C10: for every list of pairs with pairwise distinct keys pushed with `PushBack` into an
empty unbounded map, `Iterator` with an always-true callback visits the entries in exactly the
insertion order and `ReverseIterator` with an always-true callback visits them in exactly the
reverse of that order; and in every state of a map (so in every reachable one) the
`ReverseIterator` sequence is the reverse of the `Iterator` sequence. -/
theorem C10_round_trip_ordering [DecidableEq V] (opts : List (MapOption K V))
    (hopts : ∀ o ∈ opts, IsOption o) (hcap : (New opts).Cap = 0)
    (kvs : List (Option K × Option V)) (hnd : (kvs.map Prod.fst).Nodup) :
    (∃ sf' : LinkedMap K V, run (New opts) (pushBackAll kvs) = .ok sf' ∧
      sf'.Iterator (some (fun _ _ => true)) = asEntries kvs ∧
      sf'.ReverseIterator (some (fun _ _ => true)) = (asEntries kvs).reverse) ∧
    (∀ sf : LinkedMap K V, sf.ReverseIterator (some (fun _ _ => true))
      = (sf.Iterator (some (fun _ _ => true))).reverse) := by
  have hrev : ∀ sf : LinkedMap K V, sf.ReverseIterator (some (fun _ _ => true))
      = (sf.Iterator (some (fun _ _ => true))).reverse := by
    intro sf
    rw [LinkedMap.ReverseIterator, LinkedMap.Iterator, visit_true, visit_true, List.map_reverse]
  refine ⟨?_, hrev⟩
  have hempty : (New opts).entries = [] := by
    simp only [LinkedMap.entries, (New_empty opts hopts).2, GoList.New, List.map_nil]
  obtain ⟨sf', hrun, _, _, hent⟩ :=
    run_pushBackAll_unbounded kvs (New opts) (New_wf opts hopts) hcap hnd
      (fun p _ hmem => by rw [hempty] at hmem; simp at hmem)
  rw [hempty, List.nil_append] at hent
  have hit : sf'.Iterator (some (fun _ _ => true)) = asEntries kvs := by
    rw [LinkedMap.Iterator, visit_true]
    exact hent
  exact ⟨sf', hrun, hit, by rw [hrev, hit]⟩

/-- C10 at `New()` with the keys 1, 2, 3. -/
theorem C10_round_trip_ordering_witness :
    (∀ o ∈ ([] : List (MapOption Nat Nat)), IsOption o) ∧
      (New ([] : List (MapOption Nat Nat))).Cap = 0 ∧
      ([(some 1, some 10), (some 2, some 20), (some 3, some 30)].map Prod.fst).Nodup ∧
      (∃ sf' : LinkedMap Nat Nat,
        run (New []) (pushBackAll [(some 1, some 10), (some 2, some 20), (some 3, some 30)])
          = .ok sf' ∧
        sf'.Iterator (some (fun _ _ => true))
          = asEntries [(some 1, some 10), (some 2, some 20), (some 3, some 30)] ∧
        sf'.ReverseIterator (some (fun _ _ => true))
          = (asEntries [(some 1, some 10), (some 2, some 20), (some 3, some 30)]).reverse) ∧
      (∀ sf : LinkedMap Nat Nat, sf.ReverseIterator (some (fun _ _ => true))
        = (sf.Iterator (some (fun _ _ => true))).reverse) :=
  ⟨fun o ho => by simp at ho, by decide, by decide,
    C10_round_trip_ordering [] (fun o ho => by simp at ho) (by decide) _ (by decide)⟩

/-- C11: on `New(WithCap(2))`, after `PushBack(1, "a")`, `PushBack(2, "b")`, `PushBack(3, "c")`
key 1 is absent; then `Get(2)` returns "b" and the front-to-back key order is [3, 2]; then
`PushBack(4, "d")` evicts key 3 and the final front-to-back key order is [2, 4]. -/
theorem C11_lru_scenario :
    ∃ s3 s4 s5 : LinkedMap Nat String,
      run (New [WithCap 2])
        [.PushBack (some 1) (some "a"), .PushBack (some 2) (some "b"),
          .PushBack (some 3) (some "c")] = .ok s3 ∧
      s3.ContainsKey (some 1) = false ∧
      s3.Get (some 2) [] = .ok (some "b", s4) ∧
      s4.entries.map store.key = [some 3, some 2] ∧
      s4.PushBack (some 4) (some "d") = .ok (none, s5) ∧
      s5.ContainsKey (some 3) = false ∧
      s5.entries.map store.key = [some 2, some 4] ∧
      s5.entries = [⟨some 2, some "b"⟩, ⟨some 4, some "d"⟩] :=
  ⟨_, _, _, rfl, rfl, rfl, rfl, rfl, rfl, rfl, rfl⟩

namespace LinkedMap

/-- C12: on every well-formed map with entries e1..en, n >= 1: `PollFront()` returns
(key e1, value e1, true) and leaves e2..en, `PollBack()` returns (key en, value en, true) and
leaves e1..e(n-1); in both cases `ContainsKey` of the polled key is false afterwards, the
index holds exactly the keys of the remaining sequence, and `Len()` has gone down by 1. -/
theorem C12_poll_nonempty (sf : LinkedMap K V) (hwf : WF sf) (hne : sf.entries ≠ []) :
    (∃ (e1 : store K V) (rest : List (store K V)), sf.entries = e1 :: rest ∧
      sf.PollFront.1 = (e1.key, e1.value, true) ∧
      sf.PollFront.2.entries = rest ∧
      sf.PollFront.2.ContainsKey e1.key = false ∧
      (∀ k, sf.PollFront.2.ContainsKey k = true ↔ k ∈ rest.map store.key) ∧
      sf.PollFront.2.Len = sf.Len - 1 ∧ WF sf.PollFront.2) ∧
    (∃ (init : List (store K V)) (en : store K V), sf.entries = init ++ [en] ∧
      sf.PollBack.1 = (en.key, en.value, true) ∧
      sf.PollBack.2.entries = init ∧
      sf.PollBack.2.ContainsKey en.key = false ∧
      (∀ k, sf.PollBack.2.ContainsKey k = true ↔ k ∈ init.map store.key) ∧
      sf.PollBack.2.Len = sf.Len - 1 ∧ WF sf.PollBack.2) := by
  have hnil : sf.l.elems ≠ [] := by
    intro h
    exact hne (by simp only [entries, h, List.map_nil])
  constructor
  · rcases hl : sf.l.elems with _ | ⟨e, rest⟩
    · exact absurd hl hnil
    · have hw : WFc sf.data (e :: rest) sf.l.next := hl ▸ hwf
      have hwf' : WF ({ sf with data := mapDelete sf.data e.Value.key,
                                l := ⟨rest, sf.l.next⟩ } : LinkedMap K V) := hw.drop_head
      have hkeys := hw.keys
      simp only [List.map_cons, List.nodup_cons, List.mem_map, not_exists, not_and] at hkeys
      rw [PollFront_cons hwf hl]
      refine ⟨e.Value, rest.map Element.Value, ?_, rfl, rfl, ?_, ?_, ?_, hwf'⟩
      · simp only [entries, hl, List.map_cons]
      · exact (containsKey_false_iff hwf' _).mpr (fun x hx => hkeys.1 x hx)
      · intro k
        rw [containsKey_iff hwf' k]
        simp only [entries]
      · simp only [Len, GoList.Len, hl, List.length_cons, Nat.cast_add, Nat.cast_one]
        omega
  · obtain ⟨init, e, hl⟩ := exists_concat_of_ne_nil hnil
    have hw : WFc sf.data (init ++ [e]) sf.l.next := hl ▸ hwf
    have hwf' : WF ({ sf with data := mapDelete sf.data e.Value.key,
                              l := ⟨init, sf.l.next⟩ } : LinkedMap K V) := hw.drop_last
    have hkeys := hw.keys
    rw [List.map_append, List.nodup_append] at hkeys
    rw [PollBack_concat hwf hl]
    refine ⟨init.map Element.Value, e.Value, ?_, rfl, rfl, ?_, ?_, ?_, hwf'⟩
    · simp only [entries, hl, List.map_append, List.map_cons, List.map_nil]
    · refine (containsKey_false_iff hwf' _).mpr (fun x hx heq => ?_)
      exact hkeys.2.2 (List.mem_map_of_mem (fun e => e.Value.key) hx)
        (by simp only [List.map_cons, List.map_nil, List.mem_singleton]; exact heq)
    · intro k
      rw [containsKey_iff hwf' k]
      simp only [entries]
    · simp only [Len, GoList.Len, hl, List.length_append, List.length_singleton,
        Nat.cast_add, Nat.cast_one]
      omega

/-- C12 at the map with entries (1, 10), (2, 20). -/
theorem C12_poll_nonempty_witness :
    WF sampleFull ∧ sampleFull.entries ≠ [] ∧
    (∃ (e1 : store Nat Nat) (rest : List (store Nat Nat)), sampleFull.entries = e1 :: rest ∧
      sampleFull.PollFront.1 = (e1.key, e1.value, true) ∧
      sampleFull.PollFront.2.entries = rest ∧
      sampleFull.PollFront.2.ContainsKey e1.key = false ∧
      (∀ k, sampleFull.PollFront.2.ContainsKey k = true ↔ k ∈ rest.map store.key) ∧
      sampleFull.PollFront.2.Len = sampleFull.Len - 1 ∧ WF sampleFull.PollFront.2) ∧
    (∃ (init : List (store Nat Nat)) (en : store Nat Nat), sampleFull.entries = init ++ [en] ∧
      sampleFull.PollBack.1 = (en.key, en.value, true) ∧
      sampleFull.PollBack.2.entries = init ∧
      sampleFull.PollBack.2.ContainsKey en.key = false ∧
      (∀ k, sampleFull.PollBack.2.ContainsKey k = true ↔ k ∈ init.map store.key) ∧
      sampleFull.PollBack.2.Len = sampleFull.Len - 1 ∧ WF sampleFull.PollBack.2) :=
  ⟨sampleFull_wf, by decide, C12_poll_nonempty sampleFull sampleFull_wf (by decide)⟩

/-- C13: on a map with no element `Poll()`, `PollFront()`, `PollBack()`, `Peek()`,
`PeekFront()` and `PeekBack()` all return (nil, nil, false) and the polls return the state
they were given; on any map `Remove(k)` for a key that is not present returns (nil, false) and
the state it was given. -/
theorem C13_absence_is_normal (sf : LinkedMap K V) :
    (sf.Len = 0 →
      sf.Poll = ((none, none, false), sf) ∧ sf.PollFront = ((none, none, false), sf) ∧
      sf.PollBack = ((none, none, false), sf) ∧ sf.Peek = (none, none, false) ∧
      sf.PeekFront = (none, none, false) ∧ sf.PeekBack = (none, none, false)) ∧
    (∀ k, sf.ContainsKey k = false → sf.Remove k = .ok ((none, false), sf)) := by
  constructor
  · intro hlen
    have hl : sf.l.elems = [] := by
      simp only [Len, GoList.Len, Nat.cast_eq_zero] at hlen
      exact List.length_eq_zero.mp hlen
    simp only [Poll, PollFront, PollBack, Peek, PeekFront, PeekBack, GoList.Front, GoList.Back,
      hl, List.head?_nil, List.getLast?_nil, and_self]
  · intro k hk
    have hg : mapGet sf.data k = none := by
      unfold ContainsKey at hk
      cases h : mapGet sf.data k with
      | none => rfl
      | some a => rw [h] at hk; simp at hk
    unfold Remove
    rw [hg]


/-- C13 at the empty map of capacity 2 and at the map with entries (1, 10), (2, 20) for the
missing key 3. -/
theorem C13_absence_is_normal_witness :
    sampleEmpty.Len = 0 ∧ sampleFull.ContainsKey (some 3) = false ∧
      (sampleEmpty.Poll = ((none, none, false), sampleEmpty) ∧
        sampleEmpty.PollFront = ((none, none, false), sampleEmpty) ∧
        sampleEmpty.PollBack = ((none, none, false), sampleEmpty) ∧
        sampleEmpty.Peek = (none, none, false) ∧
        sampleEmpty.PeekFront = (none, none, false) ∧
        sampleEmpty.PeekBack = (none, none, false)) ∧
      sampleFull.Remove (some 3) = .ok ((none, false), sampleFull) :=
  ⟨by decide, by decide, (C13_absence_is_normal sampleEmpty).1 (by decide),
    (C13_absence_is_normal sampleFull).2 (some 3) (by decide)⟩


/-- C14: on every well-formed map that holds key k with value v, `Remove(k)` returns
(v, true); afterwards `ContainsKey(k)` is false, the index holds exactly the keys of the
remaining sequence, `Len()` has gone down by 1, and the sequence is the old one without k's
entry. -/
theorem C14_remove_present (sf : LinkedMap K V) (k : Option K) (v : Option V)
    (hwf : WF sf) (hin : store.mk k v ∈ sf.entries) :
    ∃ sf' : LinkedMap K V, sf.Remove k = .ok ((v, true), sf') ∧
      sf'.ContainsKey k = false ∧
      (∀ k', sf'.ContainsKey k' = true ↔ (k' ≠ k ∧ sf.ContainsKey k' = true)) ∧
      sf'.Len = sf.Len - 1 ∧
      sf'.entries = sf.entries.filter (fun st => st.key ≠ k) ∧
      sf'.Cap = sf.Cap ∧ WF sf' := by
  obtain ⟨e0, he0, hval⟩ := List.mem_map.mp hin
  have hkey : e0.Value.key = k := by rw [hval]
  have hv : e0.Value.value = v := by rw [hval]
  subst hkey hv
  obtain ⟨s', hs'⟩ : ∃ s' : LinkedMap K V, s' = ⟨mapDelete sf.data e0.Value.key,
      ⟨sf.l.elems.filter (fun e => e.id ≠ e0.id), sf.l.next⟩, sf.cmp, sf.cap⟩ := ⟨_, rfl⟩
  have hrem : sf.Remove e0.Value.key = .ok ((e0.Value.value, true), s') := by
    rw [hs']; exact Remove_present hwf he0
  have hwf' : WF s' := by rw [hs']; exact WFc.remove hwf he0
  have hent : s'.entries = sf.entries.filter (fun st => st.key ≠ e0.Value.key) := by
    rw [hs']; exact WFc.map_filter_id hwf he0
  have hck : ∀ k', s'.ContainsKey k' = true
      ↔ (k' ≠ e0.Value.key ∧ sf.ContainsKey k' = true) := by
    intro k'
    rw [containsKey_iff hwf' k', containsKey_iff hwf k', hent]
    simp only [List.mem_map, List.mem_filter, decide_eq_true_eq]
    constructor
    · rintro ⟨st, ⟨hst, hne⟩, rfl⟩
      exact ⟨hne, st, hst, rfl⟩
    · rintro ⟨hne, st, hst, rfl⟩
      exact ⟨st, ⟨hst, hne⟩, rfl⟩
  refine ⟨s', hrem, ?_, hck, ?_, hent, by rw [hs']; rfl, hwf'⟩
  · cases hc : s'.ContainsKey e0.Value.key with
    | false => rfl
    | true => exact absurd rfl ((hck _).mp hc).1
  · have := WFc.length_filter hwf he0
    rw [hs']
    simp only [Len, GoList.Len]
    omega

/-- C14 at the map with entries (1, 10), (2, 20), removing key 1. -/
theorem C14_remove_present_witness :
    WF sampleFull ∧ store.mk (some 1) (some 10) ∈ sampleFull.entries ∧
    ∃ sf' : LinkedMap Nat Nat, sampleFull.Remove (some 1) = .ok ((some 10, true), sf') ∧
      sf'.ContainsKey (some 1) = false ∧
      (∀ k', sf'.ContainsKey k' = true ↔ (k' ≠ some 1 ∧ sampleFull.ContainsKey k' = true)) ∧
      sf'.Len = sampleFull.Len - 1 ∧
      sf'.entries = sampleFull.entries.filter (fun st => st.key ≠ some 1) ∧
      sf'.Cap = sampleFull.Cap ∧ WF sf' :=
  ⟨sampleFull_wf, by decide,
    C14_remove_present sampleFull (some 1) (some 10) sampleFull_wf (by decide)⟩

end LinkedMap

/-- C15: in every map state `PeekFront()` returns the triple that `PollFront()` returns and
`PeekBack()` returns the triple that `PollBack()` returns, and a peek call leaves the state
(entries, order, index, length) as it was. -/
theorem C15_peek_is_readonly_poll [DecidableEq V] (sf : LinkedMap K V) :
    sf.PeekFront = sf.PollFront.1 ∧ sf.PeekBack = sf.PollBack.1 ∧
      exec sf .PeekFront = .ok (.triple sf.PollFront.1, sf) ∧
      exec sf .PeekBack = .ok (.triple sf.PollBack.1, sf) ∧
      exec sf .Peek = .ok (.triple sf.PollFront.1, sf) := by
  have h1 : sf.PeekFront = sf.PollFront.1 := by
    unfold LinkedMap.PeekFront LinkedMap.PollFront
    cases sf.l.Front <;> rfl
  have h2 : sf.PeekBack = sf.PollBack.1 := by
    unfold LinkedMap.PeekBack LinkedMap.PollBack
    cases sf.l.Back <;> rfl
  refine ⟨h1, h2, ?_, ?_, ?_⟩
  · simp only [exec, h1]
  · simp only [exec, h2]
  · simp only [exec, LinkedMap.Peek, h1]

/-- In every map state `ContainsValue(v)` is true exactly when some entry's value x satisfies
the rule of the field `cmp`, `cmp.Compare(x, v) == 0` for a comparator and `x == v` for nil;
the call leaves the state as it was. -/
theorem containsValue_iff [DecidableEq V] (sf : LinkedMap K V) (v : Option V) :
    (sf.ContainsValue v = true ↔
      ∃ st ∈ sf.entries, match sf.cmp with
        | some c => c st.value v = 0
        | none => st.value = v) ∧
    exec sf (.ContainsValue v) = .ok (.bool (sf.ContainsValue v), sf) := by
  refine ⟨?_, rfl⟩
  unfold LinkedMap.ContainsValue LinkedMap.compare LinkedMap.entries
  rw [List.any_eq_true]
  constructor
  · rintro ⟨e, he, hc⟩
    refine ⟨e.Value, List.mem_map_of_mem _ he, ?_⟩
    cases hcmp : sf.cmp with
    | none => rw [hcmp] at hc; simpa using hc
    | some c => rw [hcmp] at hc; simpa using hc
  · rintro ⟨st, hst, hc⟩
    obtain ⟨e, he, rfl⟩ := List.mem_map.mp hst
    refine ⟨e, he, ?_⟩
    cases hcmp : sf.cmp with
    | none => rw [hcmp] at hc; simpa using hc
    | some c => rw [hcmp] at hc; simpa using hc

/-- C19: in every map state `Push(k, v)` returns the value and the state that `PushBack(k, v)`
returns, `Poll()` returns the triple and the state that `PollFront()` returns, and `Peek()`
returns the triple that `PeekFront()` returns. -/
theorem C19_aliases (sf : LinkedMap K V) (k : Option K) (v : Option V) :
    sf.Push k v = sf.PushBack k v ∧ sf.Poll = sf.PollFront ∧ sf.Peek = sf.PeekFront :=
  ⟨rfl, rfl, rfl⟩

/-- With a non-nil callback the loop visits the entries up to and including the first one the
callback answers false on. -/
theorem visit_some (f : Option K → Option V → Bool) (es : List (Element K V)) :
    LinkedMap.visit (some f) es
      = (es.map Element.Value).takeWhile (fun st => f st.key st.value)
        ++ (((es.map Element.Value).dropWhile (fun st => f st.key st.value)).head?).toList := by
  induction es with
  | nil => rfl
  | cons e es ih =>
    by_cases h : f e.Value.key e.Value.value = true
    · simp only [LinkedMap.visit, h, if_true, ih, List.map_cons, List.takeWhile_cons,
        List.dropWhile_cons, List.cons_append]
    · simp only [Bool.not_eq_true] at h
      simp [LinkedMap.visit, h, List.takeWhile_cons, List.dropWhile_cons]

/-- With a nil callback the loop visits nothing. -/
theorem visit_none (es : List (Element K V)) : LinkedMap.visit none es = [] := by
  cases es <;> rfl

/-- C17: for every map with entries e1..en and every non-nil callback, `Iterator` calls it on
e1, e2, ... in order up to and including the first entry it answers false on (on all n when it
never answers false), `ReverseIterator` does the same over en, ..., e1; with a nil callback
neither calls anything; and neither changes the state. -/
theorem C17_iterator_early_stop [DecidableEq V] (sf : LinkedMap K V)
    (f : Option K → Option V → Bool) :
    sf.Iterator (some f)
        = sf.entries.takeWhile (fun st => f st.key st.value)
          ++ ((sf.entries.dropWhile (fun st => f st.key st.value)).head?).toList ∧
      sf.ReverseIterator (some f)
        = sf.entries.reverse.takeWhile (fun st => f st.key st.value)
          ++ ((sf.entries.reverse.dropWhile (fun st => f st.key st.value)).head?).toList ∧
      ((∀ st ∈ sf.entries, f st.key st.value = true) →
        sf.Iterator (some f) = sf.entries ∧ sf.ReverseIterator (some f) = sf.entries.reverse) ∧
      sf.Iterator none = [] ∧ sf.ReverseIterator none = [] ∧
      (∀ cb, exec sf (.Iterator cb) = .ok (.visited (sf.Iterator cb), sf)) ∧
      (∀ cb, exec sf (.ReverseIterator cb) = .ok (.visited (sf.ReverseIterator cb), sf)) := by
  have h1 : sf.Iterator (some f)
      = sf.entries.takeWhile (fun st => f st.key st.value)
        ++ ((sf.entries.dropWhile (fun st => f st.key st.value)).head?).toList :=
    visit_some f sf.l.elems
  have h2 : sf.ReverseIterator (some f)
      = sf.entries.reverse.takeWhile (fun st => f st.key st.value)
        ++ ((sf.entries.reverse.dropWhile (fun st => f st.key st.value)).head?).toList := by
    rw [LinkedMap.ReverseIterator, visit_some, List.map_reverse]
    rfl
  have hall : ∀ xs : List (store K V), (∀ st ∈ xs, f st.key st.value = true) →
      xs.takeWhile (fun st => f st.key st.value)
        ++ ((xs.dropWhile (fun st => f st.key st.value)).head?).toList = xs := by
    intro xs hxs
    have ht : xs.takeWhile (fun st => f st.key st.value) = xs :=
      List.takeWhile_eq_self_iff.mpr hxs
    have hd : xs.dropWhile (fun st => f st.key st.value) = [] :=
      List.dropWhile_eq_nil_iff.mpr hxs
    rw [ht, hd]
    simp
  refine ⟨h1, h2, ?_, visit_none _, visit_none _, fun _ => rfl, fun _ => rfl⟩
  intro hf
  refine ⟨h1.trans (hall _ hf), h2.trans (hall _ ?_)⟩
  intro st hst
  exact hf st (List.mem_reverse.mp hst)

theorem Refines.map {α β : Type} {sf : LinkedMap K V} {x : Except Fault (α × LinkedMap K V)}
    {y : Except Fault (α × List (store K V))} (g : α → β) (h : Refines sf x y) :
    Refines sf (x.map (fun r => (g r.1, r.2))) (y.map (fun r => (g r.1, r.2))) := by
  rcases h with ⟨f, rfl, rfl⟩ | ⟨r, sf', rfl, rfl, hw, h1, h2⟩
  · exact Or.inl ⟨f, rfl, rfl⟩
  · exact Or.inr ⟨g r, sf', rfl, rfl, hw, h1, h2⟩

namespace LinkedMap

theorem find_entries_of_mem {sf : LinkedMap K V} (h : WF sf) {e0 : Element K V}
    (he0 : e0 ∈ sf.l.elems) :
    sf.entries.find? (fun st => decide (st.key = e0.Value.key)) = some e0.Value := by
  rcases hf : sf.entries.find? (fun st => decide (st.key = e0.Value.key)) with _ | x
  · rw [List.find?_eq_none] at hf
    exact absurd (by simp) (hf e0.Value (List.mem_map_of_mem _ he0))
  · have h1 := List.find?_some hf
    have h2 := List.mem_of_find?_eq_some hf
    simp only [decide_eq_true_eq] at h1
    obtain ⟨e, he, rfl⟩ := List.mem_map.mp h2
    rw [hf, WFc.eq_of_key h he he0 h1]

theorem find_entries_of_absent {sf : LinkedMap K V} {k : Option K}
    (hk : ∀ e ∈ sf.l.elems, e.Value.key ≠ k) :
    sf.entries.find? (fun st => decide (st.key = k)) = none := by
  rw [List.find?_eq_none]
  intro st hst
  obtain ⟨e, he, rfl⟩ := List.mem_map.mp hst
  simpa using hk e he

theorem length_entries (sf : LinkedMap K V) : sf.entries.length = sf.l.elems.length := by
  simp only [entries, List.length_map]

/-- The call `PushBack` refines its list model. -/
theorem PushBack_refines {sf : LinkedMap K V} (h : WF sf) (k : Option K) (v : Option V) :
    Refines sf (sf.PushBack k v) (absPushBack sf.cap sf.entries k v) := by
  rcases hg : mapGet sf.data k with _ | a
  · have hk : ∀ e ∈ sf.l.elems, e.Value.key ≠ k := (WFc.mapGet_none_iff h k).mp hg
    have hfind := find_entries_of_absent hk
    by_cases hfull : sf.cap ≠ 0 ∧ sf.l.Len ≥ sf.cap
    · have hfull' : sf.cap ≠ 0 ∧ (sf.entries.length : Int) ≥ sf.cap := by
        rw [length_entries]; exact hfull
      rcases hl : sf.l.elems with _ | ⟨e, rest⟩
      · left
        refine ⟨.nilDeref, ?_, ?_⟩
        · unfold PushBack
          simp only [hg, if_pos hfull, GoList.Front, hl, List.head?_nil]
        · have he : sf.entries = [] := by simp only [entries, hl, List.map_nil]
          unfold absPushBack
          simp only [hfind, if_pos hfull']
          rw [he]
      · right
        have hw : WFc sf.data (e :: rest) sf.l.next := hl ▸ h
        refine ⟨_, _, PushBack_absent_full h v hg hfull hl, ?_, ?_, rfl, rfl⟩
        · have he : sf.entries = e.Value :: rest.map Element.Value := by
            simp only [entries, hl, List.map_cons]
          unfold absPushBack
          simp only [hfind, if_pos hfull']
          rw [he]
          simp only [entries, List.map_append, List.map_cons, List.map_nil]
        · exact hw.drop_head.snoc_new v (fun x hx => hk x (hl ▸ List.mem_cons_of_mem _ hx))
    · right
      have hfull' : ¬ (sf.cap ≠ 0 ∧ (sf.entries.length : Int) ≥ sf.cap) := by
        rw [length_entries]; exact hfull
      refine ⟨_, _, PushBack_absent_room v hg hfull, ?_, WFc.snoc_new h v hk, rfl, rfl⟩
      unfold absPushBack
      simp only [hfind, if_neg hfull']
      simp only [entries, List.map_append, List.map_cons, List.map_nil]
  · obtain ⟨e0, he0, rfl, rfl⟩ := (WFc.mapGet_some_iff h k a).mp hg
    right
    refine ⟨_, _, PushBack_present h he0 v, ?_, ?_, rfl, rfl⟩
    · unfold absPushBack
      simp only [find_entries_of_mem h he0]
      simp only [entries, List.map_append, List.map_cons, List.map_nil,
        WFc.map_filter_id h he0]
    · exact (WFc.replace h he0 v).perm (List.perm_append_singleton _ _).symm


/-- The call `PushFront` refines its list model. -/
theorem PushFront_refines {sf : LinkedMap K V} (h : WF sf) (k : Option K) (v : Option V) :
    Refines sf (sf.PushFront k v) (absPushFront sf.cap sf.entries k v) := by
  rcases hg : mapGet sf.data k with _ | a
  · have hk : ∀ e ∈ sf.l.elems, e.Value.key ≠ k := (WFc.mapGet_none_iff h k).mp hg
    have hfind := find_entries_of_absent hk
    by_cases hfull : sf.cap ≠ 0 ∧ sf.l.Len ≥ sf.cap
    · have hfull' : sf.cap ≠ 0 ∧ (sf.entries.length : Int) ≥ sf.cap := by
        rw [length_entries]; exact hfull
      by_cases hnil : sf.l.elems = []
      · left
        refine ⟨.nilDeref, ?_, ?_⟩
        · unfold PushFront
          simp only [hg, if_pos hfull, GoList.Back, hnil, List.getLast?_nil]
        · have he : sf.entries = [] := by simp only [entries, hnil, List.map_nil]
          unfold absPushFront
          simp only [hfind, if_pos hfull']
          rw [he]
          rfl
      · right
        obtain ⟨init, e, hl⟩ := exists_concat_of_ne_nil hnil
        have hw : WFc sf.data (init ++ [e]) sf.l.next := hl ▸ h
        refine ⟨_, _, PushFront_absent_full h v hg hfull hl, ?_, ?_, rfl, rfl⟩
        · have he : sf.entries = init.map Element.Value ++ [e.Value] := by
            simp only [entries, hl, List.map_append, List.map_cons, List.map_nil]
          unfold absPushFront
          simp only [hfind, if_pos hfull']
          rw [he]
          simp only [List.getLast?_append, List.getLast?_singleton, Option.or_some,
            List.dropLast_concat, entries, List.map_cons]
        · exact hw.drop_last.cons_new v (fun x hx => hk x (hl ▸ List.mem_append_left _ hx))
    · right
      have hfull' : ¬ (sf.cap ≠ 0 ∧ (sf.entries.length : Int) ≥ sf.cap) := by
        rw [length_entries]; exact hfull
      refine ⟨_, _, PushFront_absent_room v hg hfull, ?_, WFc.cons_new h v hk, rfl, rfl⟩
      unfold absPushFront
      simp only [hfind, if_neg hfull']
      simp only [entries, List.map_cons]
  · obtain ⟨e0, he0, rfl, rfl⟩ := (WFc.mapGet_some_iff h k a).mp hg
    right
    refine ⟨_, _, PushFront_present h he0 v, ?_, WFc.replace h he0 v, rfl, rfl⟩
    unfold absPushFront
    simp only [find_entries_of_mem h he0]
    simp only [entries, List.map_cons, WFc.map_filter_id h he0]

/-- The call `Remove` refines its list model. -/
theorem Remove_refines {sf : LinkedMap K V} (h : WF sf) (k : Option K) :
    Refines sf (sf.Remove k) (absRemove sf.entries k) := by
  right
  rcases hg : mapGet sf.data k with _ | a
  · have hk : ∀ e ∈ sf.l.elems, e.Value.key ≠ k := (WFc.mapGet_none_iff h k).mp hg
    refine ⟨(none, false), sf, ?_, ?_, h, rfl, rfl⟩
    · unfold Remove; rw [hg]
    · unfold absRemove; rw [find_entries_of_absent hk]
  · obtain ⟨e0, he0, rfl, rfl⟩ := (WFc.mapGet_some_iff h k a).mp hg
    refine ⟨_, _, Remove_present h he0, ?_, WFc.remove h he0, rfl, rfl⟩
    unfold absRemove
    simp only [find_entries_of_mem h he0]
    simp only [entries, WFc.map_filter_id h he0]

/-- The call `Get` refines its list model. -/
theorem Get_refines {sf : LinkedMap K V} (h : WF sf) (k : Option K) (d : List (Option V)) :
    Refines sf (sf.Get k d) (absGet sf.entries k d) := by
  right
  rcases hg : mapGet sf.data k with _ | a
  · have hk : ∀ e ∈ sf.l.elems, e.Value.key ≠ k := (WFc.mapGet_none_iff h k).mp hg
    cases d with
    | nil =>
      refine ⟨none, sf, ?_, ?_, h, rfl, rfl⟩
      · unfold Get; rw [hg]
      · unfold absGet; rw [find_entries_of_absent hk]
    | cons x xs =>
      refine ⟨x, sf, ?_, ?_, h, rfl, rfl⟩
      · unfold Get; rw [hg]
      · unfold absGet; rw [find_entries_of_absent hk]
  · obtain ⟨e0, he0, rfl, rfl⟩ := (WFc.mapGet_some_iff h k a).mp hg
    refine ⟨_, _, Get_present h he0 d, ?_, ?_, rfl, rfl⟩
    · unfold absGet
      simp only [find_entries_of_mem h he0]
      simp only [entries, List.map_append, List.map_cons, List.map_nil,
        WFc.map_filter_id h he0]
    · exact (WFc.replace h he0 e0.Value.value).perm (List.perm_append_singleton _ _).symm

/-- The call `PollFront` agrees with its list model. -/
theorem PollFront_refines {sf : LinkedMap K V} (h : WF sf) :
    sf.PollFront.1 = absTriple sf.entries.head? ∧ sf.PollFront.2.entries = sf.entries.tail := by
  rcases hl : sf.l.elems with _ | ⟨e, rest⟩
  · have : sf.PollFront = ((none, none, false), sf) := by
      unfold PollFront; simp only [GoList.Front, hl, List.head?_nil]
    rw [this]
    simp only [entries, hl, List.map_nil, List.head?_nil, List.tail_nil, absTriple, and_self]
  · rw [PollFront_cons h hl]
    simp only [entries, hl, List.map_cons, List.head?_cons, List.tail_cons, absTriple,
      and_self]

/-- The call `PollBack` agrees with its list model. -/
theorem PollBack_refines {sf : LinkedMap K V} (h : WF sf) :
    sf.PollBack.1 = absTriple sf.entries.getLast? ∧
      sf.PollBack.2.entries = sf.entries.dropLast := by
  by_cases hnil : sf.l.elems = []
  · have : sf.PollBack = ((none, none, false), sf) := by
      unfold PollBack; simp only [GoList.Back, hnil, List.getLast?_nil]
    rw [this]
    simp only [entries, hnil, List.map_nil, List.getLast?_nil, List.dropLast_nil, absTriple,
      and_self]
  · obtain ⟨init, e, hl⟩ := exists_concat_of_ne_nil hnil
    rw [PollBack_concat h hl]
    simp only [entries, hl, List.map_append, List.map_cons, List.map_nil,
      List.getLast?_append, List.getLast?_singleton, Option.or_some, List.dropLast_concat,
      absTriple, and_self]

theorem PeekFront_eq (sf : LinkedMap K V) : sf.PeekFront = absTriple sf.entries.head? := by
  unfold PeekFront GoList.Front entries
  cases sf.l.elems <;> rfl

theorem PeekBack_eq (sf : LinkedMap K V) : sf.PeekBack = absTriple sf.entries.getLast? := by
  unfold PeekBack GoList.Back entries
  rw [List.getLast?_map]
  cases sf.l.elems.getLast? <;> rfl

theorem ContainsKey_eq {sf : LinkedMap K V} (h : WF sf) (k : Option K) :
    sf.ContainsKey k = (sf.entries.find? (fun st => decide (st.key = k))).isSome := by
  rcases hg : mapGet sf.data k with _ | a
  · have hk : ∀ e ∈ sf.l.elems, e.Value.key ≠ k := (WFc.mapGet_none_iff h k).mp hg
    rw [find_entries_of_absent hk]
    unfold ContainsKey; rw [hg]; rfl
  · obtain ⟨e0, he0, rfl, rfl⟩ := (WFc.mapGet_some_iff h k a).mp hg
    rw [find_entries_of_mem h he0]
    unfold ContainsKey; rw [hg]; rfl

theorem visit_eq (cb : Option (Option K → Option V → Bool)) (es : List (Element K V)) :
    visit cb es = absVisit cb (es.map Element.Value) := by
  cases cb with
  | none => exact visit_none es
  | some f => exact visit_some f es

end LinkedMap

/-- Every call on a well-formed map refines the same call on its list model. -/
theorem exec_refines [DecidableEq V] {sf : LinkedMap K V} (h : WF sf) (op : Op K V) :
    Refines sf (exec sf op) (absExec sf.cap sf.cmp sf.entries op) := by
  cases op with
  | Cap => exact Or.inr ⟨_, sf, rfl, rfl, h, rfl, rfl⟩
  | Len =>
    refine Or.inr ⟨_, sf, rfl, ?_, h, rfl, rfl⟩
    simp only [absExec, LinkedMap.Len, GoList.Len, LinkedMap.length_entries]
  | IsEmpty =>
    refine Or.inr ⟨_, sf, rfl, ?_, h, rfl, rfl⟩
    simp only [absExec, LinkedMap.IsEmpty, LinkedMap.Len, GoList.Len,
      LinkedMap.length_entries]
  | Clear => exact Or.inr ⟨_, sf.Clear, rfl, rfl, LinkedMap.Clear_wf sf, rfl, rfl⟩
  | Push k v => exact (LinkedMap.PushBack_refines h k v).map Ret.val
  | PushFront k v => exact (LinkedMap.PushFront_refines h k v).map Ret.val
  | PushBack k v => exact (LinkedMap.PushBack_refines h k v).map Ret.val
  | Poll =>
    obtain ⟨h1, h2⟩ := LinkedMap.PollFront_refines h
    obtain ⟨hw, g1, g2, _⟩ := LinkedMap.PollFront_wf h
    refine Or.inr ⟨_, sf.PollFront.2, rfl, ?_, hw, g1, g2⟩
    simp only [absExec, LinkedMap.Poll, h1, h2]
  | PollFront =>
    obtain ⟨h1, h2⟩ := LinkedMap.PollFront_refines h
    obtain ⟨hw, g1, g2, _⟩ := LinkedMap.PollFront_wf h
    refine Or.inr ⟨_, sf.PollFront.2, rfl, ?_, hw, g1, g2⟩
    simp only [absExec, h1, h2]
  | PollBack =>
    obtain ⟨h1, h2⟩ := LinkedMap.PollBack_refines h
    obtain ⟨hw, g1, g2, _⟩ := LinkedMap.PollBack_wf h
    refine Or.inr ⟨_, sf.PollBack.2, rfl, ?_, hw, g1, g2⟩
    simp only [absExec, h1, h2]
  | Remove k => exact (LinkedMap.Remove_refines h k).map Ret.pair
  | Get k d => exact (LinkedMap.Get_refines h k d).map Ret.val
  | ContainsKey k =>
    refine Or.inr ⟨_, sf, rfl, ?_, h, rfl, rfl⟩
    simp only [absExec, LinkedMap.ContainsKey_eq h k]
  | ContainsValue v =>
    refine Or.inr ⟨_, sf, rfl, ?_, h, rfl, rfl⟩
    have hany : sf.entries.any (fun st =>
        match sf.cmp with
        | some c => decide (c st.value v = 0)
        | none => decide (st.value = v)) = sf.ContainsValue v := by
      unfold LinkedMap.ContainsValue LinkedMap.compare LinkedMap.entries
      induction sf.l.elems with
      | nil => rfl
      | cons e es ih => simp only [List.map_cons, List.any_cons, ih]
    simp only [absExec, hany]
  | Peek =>
    refine Or.inr ⟨_, sf, rfl, ?_, h, rfl, rfl⟩
    simp only [absExec, LinkedMap.Peek, LinkedMap.PeekFront_eq]
  | PeekFront =>
    refine Or.inr ⟨_, sf, rfl, ?_, h, rfl, rfl⟩
    simp only [absExec, LinkedMap.PeekFront_eq]
  | PeekBack =>
    refine Or.inr ⟨_, sf, rfl, ?_, h, rfl, rfl⟩
    simp only [absExec, LinkedMap.PeekBack_eq]
  | Iterator cb =>
    refine Or.inr ⟨_, sf, rfl, ?_, h, rfl, rfl⟩
    simp only [absExec, LinkedMap.Iterator, LinkedMap.visit_eq, LinkedMap.entries]
  | ReverseIterator cb =>
    refine Or.inr ⟨_, sf, rfl, ?_, h, rfl, rfl⟩
    simp only [absExec, LinkedMap.ReverseIterator, LinkedMap.visit_eq, LinkedMap.entries,
      List.map_reverse]

/-- Two well-formed maps with the same entry sequence, capacity and comparator answer every
sequence of calls alike. -/
theorem trace_eq_of_entries [DecidableEq V] (ops : List (Op K V)) :
    ∀ s t : LinkedMap K V, WF s → WF t → s.entries = t.entries → s.cap = t.cap →
      s.cmp = t.cmp → trace s ops = trace t ops := by
  induction ops with
  | nil => intro s t _ _ _ _ _; rfl
  | cons op ops ih =>
    intro s t hs ht he hc hm
    have rs := exec_refines hs op
    have rt := exec_refines ht op
    rw [← he, ← hc, ← hm] at rt
    rcases rs with ⟨f, hxs, hys⟩ | ⟨r, s', hxs, hys, hws, hcs, hms⟩
    · rcases rt with ⟨f', hxt, hyt⟩ | ⟨r', t', hxt, hyt, _, _, _⟩
      · rw [hys] at hyt
        cases hyt
        simp only [trace, hxs, hxt]
      · rw [hys] at hyt
        cases hyt
    · rcases rt with ⟨f', hxt, hyt⟩ | ⟨r', t', hxt, hyt, hwt, hct, hmt⟩
      · rw [hys] at hyt
        cases hyt
      · rw [hys] at hyt
        have hinj := Except.ok.inj hyt
        have hr : r = r' := congrArg Prod.fst hinj
        have hent : s'.entries = t'.entries := congrArg Prod.snd hinj
        subst hr
        simp only [trace, hxs, hxt]
        rw [ih s' t' hws hwt hent (by rw [hcs, hct, hc]) (by rw [hms, hmt, hm])]

/-- A run that ends without a fault from a well-formed state ends in a well-formed state with
the same configuration. -/
theorem run_ok_config [DecidableEq V] (ops : List (Op K V)) :
    ∀ s m : LinkedMap K V, WF s → run s ops = .ok m →
      WF m ∧ m.cap = s.cap ∧ m.cmp = s.cmp := by
  induction ops with
  | nil =>
    intro s m hs hr
    cases hr
    exact ⟨hs, rfl, rfl⟩
  | cons op ops ih =>
    intro s m hs hr
    rcases exec_refines hs op with ⟨f, hx, _⟩ | ⟨r, s', hx, _, hw, hc, hm⟩
    · simp only [run, hx] at hr
      cases hr
    · simp only [run, hx] at hr
      obtain ⟨h1, h2, h3⟩ := ih s' m hw hr
      exact ⟨h1, h2.trans hc, h3.trans hm⟩

/-- C18: for every map state m, after `m.Clear()` `Len()` is 0, `IsEmpty()` is true,
`ContainsKey` is false for every key, `Cap()` and the comparator are those of m, and every
sequence of calls (so also a single `Get`, `Peek` or `Poll`) returns on the cleared map what it
returns on the newly constructed map with that configuration; a second `Clear` changes
nothing; and when m was reached from `New(opts...)` the newly constructed map is
`New(opts...)`. -/
theorem C18_clear_is_fresh [DecidableEq V] (m : LinkedMap K V) :
    m.Clear.Len = 0 ∧ m.Clear.IsEmpty = true ∧ (∀ k, m.Clear.ContainsKey k = false) ∧
      m.Clear.entries = [] ∧ m.Clear.Cap = m.Cap ∧ m.Clear.cmp = m.cmp ∧
      (∀ ops, trace m.Clear ops = trace (⟨[], GoList.New, m.cmp, m.cap⟩ : LinkedMap K V) ops) ∧
      m.Clear.Clear = m.Clear ∧
      (∀ opts : List (MapOption K V), (∀ o ∈ opts, IsOption o) →
        ∀ ops, run (New opts) ops = .ok m →
          ∀ ops', trace m.Clear ops' = trace (New opts) ops') := by
  have hfresh : WF (⟨[], GoList.New, m.cmp, m.cap⟩ : LinkedMap K V) :=
    ⟨List.nodup_nil, fun e he => by simp [GoList.New] at he, List.nodup_nil, List.nodup_nil,
      fun p hp => by simp at hp, fun e he => by simp [GoList.New] at he⟩
  have htrace : ∀ ops, trace m.Clear ops
      = trace (⟨[], GoList.New, m.cmp, m.cap⟩ : LinkedMap K V) ops :=
    fun ops => trace_eq_of_entries ops _ _ (LinkedMap.Clear_wf m) hfresh rfl rfl rfl
  refine ⟨rfl, rfl, fun k => rfl, rfl, rfl, rfl, htrace, rfl, ?_⟩
  intro opts hopts ops hrun ops'
  obtain ⟨_, hc, hm⟩ := run_ok_config ops _ _ (New_wf opts hopts) hrun
  obtain ⟨hd, hl⟩ := New_empty opts hopts
  have hnew : New opts = (⟨[], GoList.New, m.cmp, m.cap⟩ : LinkedMap K V) := by
    rw [hc, hm, ← hd, ← hl]
  rw [hnew]
  exact htrace ops'

/-- C24: after every finite sequence of calls on a map built by `New` with capacity >= 0 the
run has not faulted and, in the state reached, whenever the eviction guard of `PushFront` and
`PushBack` holds the list has a front and a back element, and every call (`PushFront`,
`PushBack`, `Push`, `Remove`, `Get` and, through `exec`, every other method) returns. -/
theorem C24_total_on_nonneg_cap [DecidableEq V] (opts : List (MapOption K V))
    (hopts : ∀ o ∈ opts, IsOption o) (hcap : 0 ≤ (New opts).Cap) (ops : List (Op K V)) :
    ∃ sf : LinkedMap K V, run (New opts) ops = .ok sf ∧
      ((sf.cap ≠ 0 ∧ sf.l.Len ≥ sf.cap) →
        ∃ f b, sf.l.Front = some f ∧ sf.l.Back = some b) ∧
      (∀ k v, ∃ r sf', sf.PushFront k v = .ok (r, sf')) ∧
      (∀ k v, ∃ r sf', sf.PushBack k v = .ok (r, sf')) ∧
      (∀ k v, ∃ r sf', sf.Push k v = .ok (r, sf')) ∧
      (∀ k, ∃ r sf', sf.Remove k = .ok (r, sf')) ∧
      (∀ k d, ∃ r sf', sf.Get k d = .ok (r, sf')) ∧
      (∀ op, ∃ r sf', exec sf op = .ok (r, sf')) := by
  obtain ⟨sf, hr, hwf, hc, _, _⟩ := run_total ops (New_wf opts hopts) hcap
  have hcap' : 0 ≤ sf.cap := by rw [hc]; exact hcap
  refine ⟨sf, hr, ?_, ?_, ?_, ?_, ?_, ?_, ?_⟩
  · rintro ⟨hne, hge⟩
    have hpos : 0 < sf.cap := lt_of_le_of_ne hcap' (Ne.symm hne)
    rcases hl : sf.l.elems with _ | ⟨e, rest⟩
    · exfalso
      simp only [GoList.Len, hl, List.length_nil, Nat.cast_zero] at hge
      omega
    · have hnil : e :: rest ≠ [] := List.cons_ne_nil _ _
      exact ⟨e, (e :: rest).getLast hnil, by simp only [GoList.Front, hl, List.head?_cons],
        by simp only [GoList.Back, hl, List.getLast?_eq_getLast _ hnil]⟩
  · intro k v
    obtain ⟨r, sf', h, _⟩ := LinkedMap.PushFront_total hwf hcap' k v
    exact ⟨r, sf', h⟩
  · intro k v
    obtain ⟨r, sf', h, _⟩ := LinkedMap.PushBack_total hwf hcap' k v
    exact ⟨r, sf', h⟩
  · intro k v
    obtain ⟨r, sf', h, _⟩ := LinkedMap.PushBack_total hwf hcap' k v
    exact ⟨r, sf', h⟩
  · intro k
    obtain ⟨r, sf', h, _⟩ := LinkedMap.Remove_total hwf k
    exact ⟨r, sf', h⟩
  · intro k d
    obtain ⟨r, sf', h, _⟩ := LinkedMap.Get_total hwf k d
    exact ⟨r, sf', h⟩
  · intro op
    obtain ⟨r, sf', h, _⟩ := exec_total hwf hcap' op
    exact ⟨r, sf', h⟩

/-- C24 at `New(WithCap(1))` after two pushes of distinct keys. -/
theorem C24_total_on_nonneg_cap_witness :
    (∀ o ∈ [(WithCap 1 : MapOption Nat Nat)], IsOption o) ∧
      0 ≤ (New [(WithCap 1 : MapOption Nat Nat)]).Cap ∧
      ∃ sf : LinkedMap Nat Nat,
        run (New [WithCap 1]) [.PushBack (some 1) (some 10), .PushFront (some 2) (some 20)]
          = .ok sf ∧
        ((sf.cap ≠ 0 ∧ sf.l.Len ≥ sf.cap) →
          ∃ f b, sf.l.Front = some f ∧ sf.l.Back = some b) ∧
        (∀ k v, ∃ r sf', sf.PushFront k v = .ok (r, sf')) ∧
        (∀ k v, ∃ r sf', sf.PushBack k v = .ok (r, sf')) ∧
        (∀ k v, ∃ r sf', sf.Push k v = .ok (r, sf')) ∧
        (∀ k, ∃ r sf', sf.Remove k = .ok (r, sf')) ∧
        (∀ k d, ∃ r sf', sf.Get k d = .ok (r, sf')) ∧
        (∀ op, ∃ r sf', exec sf op = .ok (r, sf')) :=
  ⟨fun o ho => by
      rw [List.mem_singleton] at ho
      subst ho
      exact IsOption.withCap 1,
    by decide,
    C24_total_on_nonneg_cap [WithCap 1]
      (fun o ho => by
        rw [List.mem_singleton] at ho
        subst ho
        exact IsOption.withCap 1)
      (by decide) _⟩

/-- The index after `m[k] = h`. -/
theorem mapGet_mapSet (m : List (Option K × Nat)) (k k' : Option K) (h : Nat) :
    mapGet (mapSet m k h) k' = if k' = k then some h else mapGet m k' := by
  have hcons : ∀ (p : Option K × Nat) (l : List (Option K × Nat)),
      mapGet (p :: l) k' = if p.1 = k' then some p.2 else mapGet l k' := by
    intro p l
    unfold mapGet
    by_cases hp : p.1 = k'
    · simp [List.find?_cons, hp]
    · simp [List.find?_cons, hp]
  have hdel : ∀ l : List (Option K × Nat), mapSet (l) k h = mapDelete l k ++ [(k, h)] :=
    fun _ => rfl
  induction m with
  | nil =>
    rw [hdel]
    show mapGet [(k, h)] k' = _
    rw [hcons]
    by_cases hk : k' = k
    · simp [hk]
    · have hk2 : ¬ k = k' := fun h2 => hk h2.symm
      simp [hk, hk2, mapGet]
  | cons p m ih =>
    rw [hdel] at ih ⊢
    by_cases hp : p.1 = k
    · have hfil : mapDelete (p :: m) k = mapDelete m k := by
        simp [mapDelete, hp]
      rw [hfil, ih, hcons]
      by_cases hk : k' = k
      · simp [hk]
      · have hpk : ¬ p.1 = k' := fun h2 => hk (h2 ▸ hp)
        simp [hk, hpk]
    · have hfil : mapDelete (p :: m) k = p :: mapDelete m k := by
        simp [mapDelete, hp]
      rw [hfil, List.cons_append, hcons, ih, hcons]
      by_cases hpk : p.1 = k'
      · have hk : ¬ k' = k := fun h2 => hp (hpk ▸ h2)
        simp [hpk, hk]
      · simp [hpk]

namespace LinkedMap

/-- C25: on every map whose capacity is 0 or whose `Len()` is below its capacity, for every
key k that is not present, `PushBack k v` returns nil and leaves the old sequence followed by
(k, v), `PushFront k v` returns nil and leaves (k, v) followed by the old sequence; in both
cases `Len()` goes up by 1 and the index holds the old keys and k. -/
theorem C25_push_below_capacity (sf : LinkedMap K V) (k : Option K) (v : Option V)
    (hroom : sf.Cap = 0 ∨ sf.Len < sf.Cap) (hk : sf.ContainsKey k = false) :
    (∃ sf' : LinkedMap K V, sf.PushBack k v = .ok (none, sf') ∧
      sf'.entries = sf.entries ++ [store.mk k v] ∧
      sf'.Len = sf.Len + 1 ∧
      (∀ k', sf'.ContainsKey k' = if k' = k then true else sf.ContainsKey k') ∧
      sf'.Cap = sf.Cap) ∧
    (∃ sf' : LinkedMap K V, sf.PushFront k v = .ok (none, sf') ∧
      sf'.entries = store.mk k v :: sf.entries ∧
      sf'.Len = sf.Len + 1 ∧
      (∀ k', sf'.ContainsKey k' = if k' = k then true else sf.ContainsKey k') ∧
      sf'.Cap = sf.Cap) := by
  have hg : mapGet sf.data k = none := by
    unfold ContainsKey at hk
    cases h : mapGet sf.data k with
    | none => rfl
    | some a => rw [h] at hk; simp at hk
  have hguard : ¬ (sf.cap ≠ 0 ∧ sf.l.Len ≥ sf.cap) := by
    rintro ⟨hne, hge⟩
    rcases hroom with h0 | hlt
    · exact hne h0
    · have h1 : sf.l.Len < sf.cap := hlt
      omega
  have hck : ∀ k', (mapGet (mapSet sf.data k sf.l.next) k').isSome
      = if k' = k then true else sf.ContainsKey k' := by
    intro k'
    rw [mapGet_mapSet]
    by_cases h : k' = k
    · simp only [h, if_true, Option.isSome_some]
    · simp only [h, if_false, ContainsKey]
  constructor
  · refine ⟨_, PushBack_absent_room v hg hguard, ?_, ?_, hck, rfl⟩
    · simp only [entries, List.map_append, List.map_cons, List.map_nil]
    · simp only [Len, GoList.Len, List.length_append, List.length_singleton, Nat.cast_add,
        Nat.cast_one]
  · refine ⟨_, PushFront_absent_room v hg hguard, ?_, ?_, hck, rfl⟩
    · simp only [entries, List.map_cons]
    · simp only [Len, GoList.Len, List.length_cons, Nat.cast_add, Nat.cast_one]


/-- C25 at the unbounded map with the entry (1, 10) and the new key 2. -/
theorem C25_push_below_capacity_witness :
    (sampleOpen.Cap = 0 ∨ sampleOpen.Len < sampleOpen.Cap) ∧
    sampleOpen.ContainsKey (some 2) = false ∧
    (∃ sf' : LinkedMap Nat Nat, sampleOpen.PushBack (some 2) (some 20) = .ok (none, sf') ∧
      sf'.entries = sampleOpen.entries ++ [store.mk (some 2) (some 20)] ∧
      sf'.Len = sampleOpen.Len + 1 ∧
      (∀ k', sf'.ContainsKey k' = if k' = some 2 then true else sampleOpen.ContainsKey k') ∧
      sf'.Cap = sampleOpen.Cap) ∧
    (∃ sf' : LinkedMap Nat Nat, sampleOpen.PushFront (some 2) (some 20) = .ok (none, sf') ∧
      sf'.entries = store.mk (some 2) (some 20) :: sampleOpen.entries ∧
      sf'.Len = sampleOpen.Len + 1 ∧
      (∀ k', sf'.ContainsKey k' = if k' = some 2 then true else sampleOpen.ContainsKey k') ∧
      sf'.Cap = sampleOpen.Cap) :=
  ⟨Or.inl (by decide), by decide,
    C25_push_below_capacity sampleOpen (some 2) (some 20) (Or.inl (by decide)) (by decide)⟩

end LinkedMap

/-- On a map with a negative capacity, an empty index and an empty list every push faults on
the nil element returned by `Front()` / `Back()`. -/
theorem push_faults_of_negative_cap {sf : LinkedMap K V} (hc : sf.cap < 0)
    (hd : sf.data = []) (hl : sf.l.elems = []) (k : Option K) (v : Option V) :
    sf.PushBack k v = .error .nilDeref ∧ sf.PushFront k v = .error .nilDeref ∧
      sf.Push k v = .error .nilDeref := by
  have hg : mapGet sf.data k = none := by rw [hd]; rfl
  have hguard : sf.cap ≠ 0 ∧ sf.l.Len ≥ sf.cap := by
    refine ⟨ne_of_lt hc, ?_⟩
    simp only [GoList.Len, hl, List.length_nil, Nat.cast_zero]
    exact le_of_lt hc
  have hb : sf.PushBack k v = .error .nilDeref := by
    unfold LinkedMap.PushBack
    simp only [hg, if_pos hguard, GoList.Front, hl, List.head?_nil]
  have hf : sf.PushFront k v = .error .nilDeref := by
    unfold LinkedMap.PushFront
    simp only [hg, if_pos hguard, GoList.Back, hl, List.getLast?_nil]
  exact ⟨hb, hf, hb⟩

/-- One call that returns on an empty map with a negative capacity leaves an empty map with
that capacity. -/
theorem exec_empty_of_negative_cap [DecidableEq V] {sf sf' : LinkedMap K V} {r : Ret K V}
    (hc : sf.cap < 0) (hd : sf.data = []) (hl : sf.l.elems = []) (op : Op K V)
    (he : exec sf op = .ok (r, sf')) :
    sf'.cap = sf.cap ∧ sf'.data = [] ∧ sf'.l.elems = [] := by
  have hb := fun k v => (push_faults_of_negative_cap hc hd hl k v).1
  have hf := fun k v => (push_faults_of_negative_cap hc hd hl k v).2.1
  have hp := fun k v => (push_faults_of_negative_cap hc hd hl k v).2.2
  have hg : ∀ k, mapGet sf.data k = none := fun k => by rw [hd]; rfl
  have hpf : sf.PollFront = ((none, none, false), sf) := by
    unfold LinkedMap.PollFront
    simp only [GoList.Front, hl, List.head?_nil]
  have hpb : sf.PollBack = ((none, none, false), sf) := by
    unfold LinkedMap.PollBack
    simp only [GoList.Back, hl, List.getLast?_nil]
  cases op with
  | Cap => cases he; exact ⟨rfl, hd, hl⟩
  | Len => cases he; exact ⟨rfl, hd, hl⟩
  | IsEmpty => cases he; exact ⟨rfl, hd, hl⟩
  | Clear => cases he; exact ⟨rfl, rfl, rfl⟩
  | Push k v =>
    simp only [exec, (hp k v), Except.map] at he
    cases he
  | PushFront k v =>
    simp only [exec, (hf k v), Except.map] at he
    cases he
  | PushBack k v =>
    simp only [exec, (hb k v), Except.map] at he
    cases he
  | Poll =>
    simp only [exec, LinkedMap.Poll, hpf] at he
    cases he; exact ⟨rfl, hd, hl⟩
  | PollFront =>
    simp only [exec, hpf] at he
    cases he; exact ⟨rfl, hd, hl⟩
  | PollBack =>
    simp only [exec, hpb] at he
    cases he; exact ⟨rfl, hd, hl⟩
  | Remove k =>
    simp only [exec, LinkedMap.Remove, hg k, Except.map] at he
    cases he; exact ⟨rfl, hd, hl⟩
  | Get k d =>
    cases d with
    | nil =>
      simp only [exec, LinkedMap.Get, hg k, Except.map] at he
      cases he; exact ⟨rfl, hd, hl⟩
    | cons x xs =>
      simp only [exec, LinkedMap.Get, hg k, Except.map] at he
      cases he; exact ⟨rfl, hd, hl⟩
  | ContainsKey k => cases he; exact ⟨rfl, hd, hl⟩
  | ContainsValue v => cases he; exact ⟨rfl, hd, hl⟩
  | Peek => cases he; exact ⟨rfl, hd, hl⟩
  | PeekFront => cases he; exact ⟨rfl, hd, hl⟩
  | PeekBack => cases he; exact ⟨rfl, hd, hl⟩
  | Iterator cb => cases he; exact ⟨rfl, hd, hl⟩
  | ReverseIterator cb => cases he; exact ⟨rfl, hd, hl⟩

/-- Every state a run reaches from an empty map with a negative capacity is an empty map with
that capacity. -/
theorem run_empty_of_negative_cap [DecidableEq V] (ops : List (Op K V)) :
    ∀ sf sf' : LinkedMap K V, sf.cap < 0 → sf.data = [] → sf.l.elems = [] →
      run sf ops = .ok sf' → sf'.cap = sf.cap ∧ sf'.data = [] ∧ sf'.l.elems = [] := by
  induction ops with
  | nil =>
    intro sf sf' _ hd hl hr
    cases hr
    exact ⟨rfl, hd, hl⟩
  | cons op ops ih =>
    intro sf sf' hc hd hl hr
    cases hx : exec sf op with
    | error f => simp only [run, hx] at hr; cases hr
    | ok p =>
      simp only [run, hx] at hr
      obtain ⟨h1, h2, h3⟩ := exec_empty_of_negative_cap hc hd hl op hx
      obtain ⟨g1, g2, g3⟩ := ih p.2 sf' (by rw [h1]; exact hc) h2 h3 hr
      exact ⟨g1.trans h1, g2, g3⟩

/-- C26: `WithCap` stores a negative capacity c as it is; on `New(WithCap(c))` and on every
state a sequence of calls reaches from it, the map holds no entry, the eviction guard holds
while `Front()` and `Back()` are nil, and `PushBack`, `PushFront` and `Push` of any key fault
on the nil element instead of inserting. -/
theorem C26_negative_cap_push_faults [DecidableEq V] (c : Int) (hc : c < 0) :
    (New [WithCap c] : LinkedMap K V).Cap = c ∧
      (∀ (k : Option K) (v : Option V),
        (New [WithCap c] : LinkedMap K V).PushBack k v = .error .nilDeref ∧
        (New [WithCap c] : LinkedMap K V).PushFront k v = .error .nilDeref ∧
        (New [WithCap c] : LinkedMap K V).Push k v = .error .nilDeref) ∧
      (∀ (ops : List (Op K V)) (sf : LinkedMap K V), run (New [WithCap c]) ops = .ok sf →
        sf.Cap = c ∧ sf.entries = [] ∧ sf.Len = 0 ∧ (∀ k, sf.ContainsKey k = false) ∧
        (sf.cap ≠ 0 ∧ sf.l.Len ≥ sf.cap) ∧ sf.l.Front = none ∧ sf.l.Back = none ∧
        (∀ (k : Option K) (v : Option V), sf.PushBack k v = .error .nilDeref ∧
          sf.PushFront k v = .error .nilDeref ∧ sf.Push k v = .error .nilDeref)) := by
  have hnew : (New [WithCap c] : LinkedMap K V).cap = c := rfl
  refine ⟨rfl, fun k v => push_faults_of_negative_cap (by rw [hnew]; exact hc) rfl rfl k v, ?_⟩
  intro ops sf hr
  obtain ⟨h1, h2, h3⟩ := run_empty_of_negative_cap ops _ sf (by rw [hnew]; exact hc) rfl rfl hr
  have hc' : sf.cap < 0 := by rw [h1, hnew]; exact hc
  refine ⟨h1.trans hnew, ?_, ?_, ?_, ⟨ne_of_lt hc', ?_⟩, ?_, ?_,
    fun k v => push_faults_of_negative_cap hc' h2 h3 k v⟩
  · simp only [LinkedMap.entries, h3, List.map_nil]
  · simp only [LinkedMap.Len, GoList.Len, h3, List.length_nil, Nat.cast_zero]
  · intro k
    simp only [LinkedMap.ContainsKey, h2]
    rfl
  · simp only [GoList.Len, h3, List.length_nil, Nat.cast_zero]
    exact le_of_lt hc'
  · simp only [GoList.Front, h3, List.head?_nil]
  · simp only [GoList.Back, h3, List.getLast?_nil]

/-- C26 at capacity -1. -/
theorem C26_negative_cap_push_faults_witness :
    (-1 : Int) < 0 ∧
      (New [WithCap (-1)] : LinkedMap Nat Nat).PushBack (some 1) (some 10) = .error .nilDeref ∧
      (New [WithCap (-1)] : LinkedMap Nat Nat).PushFront (some 1) (some 10)
        = .error .nilDeref ∧
      (New [WithCap (-1)] : LinkedMap Nat Nat).Push (some 1) (some 10) = .error .nilDeref :=
  ⟨by decide, (C26_negative_cap_push_faults (-1) (by decide)).2.1 (some 1) (some 10)⟩

/-- Capacity options leave the comparator as it is. -/
theorem foldl_withCap_cmp (caps : List Int) :
    ∀ s : LinkedMap K V,
      ((caps.map WithCap).foldl (fun lm opt => opt lm) s).cmp = s.cmp := by
  induction caps with
  | nil => intro s; rfl
  | cons c caps ih =>
    intro s
    simp only [List.map_cons, List.foldl_cons]
    rw [ih]
    rfl

/-- A map built by `New` with the option `WithComparator(f)`, followed by capacity options
only, has `f` as its comparator. -/
theorem New_cmp_withComparator (opts : List (MapOption K V))
    (f : Option V → Option V → Int) (caps : List Int) :
    (New (opts ++ WithComparator f :: caps.map WithCap)).cmp = some f := by
  unfold New
  rw [List.foldl_append, List.foldl_cons, foldl_withCap_cmp]
  rfl

/-- A map built by `New` with capacity options only has a nil comparator. -/
theorem New_cmp_caps (caps : List Int) :
    (New (caps.map WithCap) : LinkedMap K V).cmp = none := by
  unfold New
  rw [foldl_withCap_cmp]

theorem isOption_caps (caps : List Int) :
    ∀ o ∈ (caps.map WithCap : List (MapOption K V)), IsOption o := by
  intro o ho
  obtain ⟨c, _, rfl⟩ := List.mem_map.mp ho
  exact IsOption.withCap c

/-- C16: for every map and value v, `ContainsValue(v)` is true exactly when some entry's value
x satisfies the configured rule, `cmp.Compare(x, v) == 0` with a comparator and `x == v`
without one, and the call leaves the state as it was; in every state reached from a map built
by `New` with `WithComparator(f)` the configured rule is `f(x, v) == 0`, and in every state
reached from a map built by `New` without `WithComparator` it is `x == v`. -/
theorem C16_containsValue [DecidableEq V] (v : Option V) :
    (∀ sf : LinkedMap K V,
      (sf.ContainsValue v = true ↔
        ∃ st ∈ sf.entries, match sf.cmp with
          | some c => c st.value v = 0
          | none => st.value = v) ∧
      exec sf (.ContainsValue v) = .ok (.bool (sf.ContainsValue v), sf)) ∧
    (∀ (opts : List (MapOption K V)) (f : Option V → Option V → Int) (caps : List Int)
        (ops : List (Op K V)) (sf : LinkedMap K V),
      (∀ o ∈ opts, IsOption o) →
      run (New (opts ++ WithComparator f :: caps.map WithCap)) ops = .ok sf →
        sf.cmp = some f ∧
        (sf.ContainsValue v = true ↔ ∃ st ∈ sf.entries, f st.value v = 0) ∧
        exec sf (.ContainsValue v) = .ok (.bool (sf.ContainsValue v), sf)) ∧
    (∀ (caps : List Int) (ops : List (Op K V)) (sf : LinkedMap K V),
      run (New (caps.map WithCap)) ops = .ok sf →
        sf.cmp = none ∧
        (sf.ContainsValue v = true ↔ ∃ st ∈ sf.entries, st.value = v) ∧
        exec sf (.ContainsValue v) = .ok (.bool (sf.ContainsValue v), sf)) := by
  refine ⟨fun sf => containsValue_iff sf v, ?_, ?_⟩
  · intro opts f caps ops sf hopts hr
    have hvalid : ∀ o ∈ opts ++ WithComparator f :: caps.map WithCap, IsOption o := by
      intro o ho
      rcases List.mem_append.mp ho with h | h
      · exact hopts o h
      · rcases List.mem_cons.mp h with h | h
        · subst h
          exact IsOption.withComparator f
        · exact isOption_caps caps o h
    obtain ⟨_, _, hm⟩ := run_ok_config ops _ sf (New_wf _ hvalid) hr
    have hcmp : sf.cmp = some f := hm.trans (New_cmp_withComparator opts f caps)
    have h := (containsValue_iff sf v).1
    rw [hcmp] at h
    exact ⟨hcmp, h, rfl⟩
  · intro caps ops sf hr
    obtain ⟨_, _, hm⟩ := run_ok_config ops _ sf (New_wf _ (isOption_caps caps)) hr
    have hcmp : sf.cmp = none := hm.trans (New_cmp_caps caps)
    have h := (containsValue_iff sf v).1
    rw [hcmp] at h
    exact ⟨hcmp, h, rfl⟩

/-- C16 at `New(WithComparator(f), WithCap(2))` with the comparator f that answers 0 on every
pair, after `PushBack(1, 10)`: `ContainsValue(99)` is true, where the same calls on
`New(WithCap(2))` leave `ContainsValue(99)` false. -/
theorem C16_containsValue_witness :
    ∃ sf : LinkedMap Nat Nat,
      run (New ([] ++ WithComparator (fun _ _ => 0) :: [(2 : Int)].map WithCap))
        [.PushBack (some 1) (some 10)] = .ok sf ∧
      sf.cmp = some (fun _ _ => 0) ∧
      (sf.ContainsValue (some 99) = true ↔
        ∃ st ∈ sf.entries, (fun (_ _ : Option Nat) => (0 : Int)) st.value (some 99) = 0) ∧
      sf.ContainsValue (some 99) = true ∧
      sf.ContainsValue (some 10) = true ∧
      ∃ sg : LinkedMap Nat Nat,
        run (New ([(2 : Int)].map WithCap)) [.PushBack (some 1) (some 10)] = .ok sg ∧
        sg.cmp = none ∧
        sg.ContainsValue (some 99) = false ∧
        sg.ContainsValue (some 10) = true :=
  ⟨_, rfl,
    ((C16_containsValue (some 99)).2.1 [] (fun _ _ => 0) [2]
      [.PushBack (some 1) (some 10)] _ (fun o ho => by simp at ho) rfl).1,
    ((C16_containsValue (some 99)).2.1 [] (fun _ _ => 0) [2]
      [.PushBack (some 1) (some 10)] _ (fun o ho => by simp at ho) rfl).2.1,
    rfl, rfl, _, rfl,
    ((C16_containsValue (some 99)).2.2 [2] [.PushBack (some 1) (some 10)] _ rfl).1,
    rfl, rfl⟩

end lemmas

end linkedmap

namespace queue

variable {V : Type}

theorem chain_none {mem : Nat → element V} {as : List Nat} (h : Chain mem none as) :
    as = [] := by
  cases as with
  | nil => rfl
  | cons a as => exact absurd h.1 (by simp)

theorem chain_some {mem : Nat → element V} {a : Nat} {as : List Nat}
    (h : Chain mem (some a) as) : ∃ rest, as = a :: rest ∧ Chain mem (mem a).next rest := by
  cases as with
  | nil => exact absurd h (by simp [Chain])
  | cons b rest =>
    have hb : a = b := Option.some.inj h.1
    subst hb
    exact ⟨rest, rfl, h.2⟩

/-- Linking a new element behind the last one: the memory may change at the last element,
whose `next` becomes the new address, and at the new address, whose `next` is nil. -/
theorem chain_snoc {mem mem1 : Nat → element V} {t e : Nat} :
    ∀ (init : List Nat) (p : Option Nat), Chain mem p (init ++ [t]) →
      (∀ a ∈ init, mem1 a = mem a) → (mem1 t).next = some e → (mem1 e).next = none →
      Chain mem1 p (init ++ [t, e]) := by
  intro init
  induction init with
  | nil =>
    intro p h _ ht he
    exact ⟨h.1, by rw [ht]; exact ⟨rfl, he⟩⟩
  | cons a init ih =>
    intro p h hsame ht he
    refine ⟨h.1, ?_⟩
    rw [hsame a (List.mem_cons_self _ _)]
    exact ih _ h.2 (fun b hb => hsame b (List.mem_cons_of_mem _ hb)) ht he

/-- The queue returned by `New` holds no value. -/
theorem New_rep : Rep (New : Queue V) [] :=
  ⟨[], rfl, rfl, List.nodup_nil, fun a ha => by simp at ha, rfl, rfl⟩

namespace Queue

/-- The call `Clear` leaves a queue that holds no value. -/
theorem Clear_rep (sf : Queue V) : Rep sf.Clear [] :=
  ⟨[], rfl, rfl, List.nodup_nil, fun a ha => by simp at ha, rfl, rfl⟩

/-- The call `Add` appends its argument to the values the queue holds. -/
theorem Add_rep {sf : Queue V} {xs : List (Option V)} (h : Rep sf xs) (v : Option V) :
    Rep (sf.Add v) (xs ++ [v]) := by
  obtain ⟨as, hch, hval, hnd, hlt, htail, hlen⟩ := h
  by_cases hnil : as = []
  · subst hnil
    have ht : sf.tail = none := htail
    have hxs : xs = [] := by rw [← hval]; rfl
    subst hxs
    refine ⟨[sf.alloc], ?_, ?_, List.nodup_singleton _, ?_, ?_, ?_⟩
    · simp only [Add, ht, Chain, Function.update_same, and_self]
    · simp only [Add, ht, List.map_cons, List.map_nil, Function.update_same, List.nil_append]
    · intro a ha
      rw [List.mem_singleton] at ha
      subst ha
      simp only [Add, ht]
      exact Nat.lt_succ_self _
    · simp only [Add, ht, List.getLast?_singleton]
    · simp only [Add, ht, hlen, List.length_nil, List.length_singleton, Nat.cast_zero,
        Nat.cast_one, zero_add]
  · obtain ⟨init, t, rfl⟩ : ∃ init t, as = init ++ [t] :=
      ⟨as.dropLast, as.getLast hnil, (List.dropLast_append_getLast hnil).symm⟩
    have ht : sf.tail = some t := by
      rw [htail]
      simp only [List.getLast?_append, List.getLast?_singleton, Option.or_some]
    rw [List.nodup_append] at hnd
    have hte : t ≠ sf.alloc :=
      Nat.ne_of_lt (hlt t (List.mem_append_right _ (List.mem_singleton_self t)))
    have hinit : ∀ a ∈ init, a ≠ t ∧ a ≠ sf.alloc := fun a ha =>
      ⟨fun hat => hnd.2.2 ha (by rw [hat]; exact List.mem_singleton_self t),
        Nat.ne_of_lt (hlt a (List.mem_append_left _ ha))⟩
    have hsame : ∀ a ∈ init,
        Function.update (Function.update sf.mem sf.alloc ⟨none, v⟩) t
          { Function.update sf.mem sf.alloc ⟨none, v⟩ t with next := some sf.alloc } a
          = sf.mem a := by
      intro a ha
      rw [Function.update_noteq (hinit a ha).1, Function.update_noteq (hinit a ha).2]
    refine ⟨init ++ [t, sf.alloc], ?_, ?_, ?_, ?_, ?_, ?_⟩
    · simp only [Add, ht]
      refine chain_snoc init sf.head hch hsame ?_ ?_
      · simp only [Function.update_same]
      · rw [Function.update_noteq (Ne.symm hte), Function.update_same]
    · simp only [Add, ht]
      rw [← hval]
      simp only [List.map_append, List.map_cons, List.map_nil, Function.update_same,
        List.append_assoc, List.singleton_append]
      rw [Function.update_noteq hte, Function.update_noteq (Ne.symm hte), Function.update_same]
      congr 1
      apply List.map_congr_left
      intro a ha
      rw [Function.update_noteq (hinit a ha).1, Function.update_noteq (hinit a ha).2]
    · have : init ++ [t, sf.alloc] = (init ++ [t]) ++ [sf.alloc] := by simp
      rw [this, List.nodup_append]
      refine ⟨List.nodup_append.mpr hnd, List.nodup_singleton _, ?_⟩
      intro a ha hb
      rw [List.mem_singleton] at hb
      subst hb
      exact Nat.lt_irrefl _ (hlt _ ha)
    · intro a ha
      simp only [Add, ht]
      simp only [List.mem_append, List.mem_cons, List.mem_singleton, List.not_mem_nil,
        or_false] at ha
      rcases ha with ha | ha | ha
      · exact Nat.lt_succ_of_lt (hlt a (List.mem_append_left _ ha))
      · subst ha
        exact Nat.lt_succ_of_lt (hlt a (List.mem_append_right _ (List.mem_singleton_self a)))
      · subst ha
        exact Nat.lt_succ_self _
    · simp only [Add, ht]
      have : init ++ [t, sf.alloc] = (init ++ [t]) ++ [sf.alloc] := by simp
      rw [this, List.getLast?_append, List.getLast?_singleton, Option.or_some]
    · simp only [Add, ht, hlen, List.length_append, List.length_cons, List.length_nil,
        List.length_singleton]
      push_cast
      ring

/-- The call `Poll` returns the first value the queue holds, nil when it holds none, and leaves
the remaining values. -/
theorem Poll_rep {sf : Queue V} {xs : List (Option V)} (h : Rep sf xs) :
    sf.Poll.1 = xs.head?.getD none ∧ Rep sf.Poll.2 xs.tail := by
  obtain ⟨as, hch, hval, hnd, hlt, htail, hlen⟩ := h
  cases as with
  | nil =>
    have hh : sf.head = none := hch
    have hxs : xs = [] := by rw [← hval]; rfl
    subst hxs
    have hp : sf.Poll = (none, sf) := by simp only [Poll, hh]
    rw [hp]
    exact ⟨rfl, [], hch, rfl, hnd, hlt, htail, hlen⟩
  | cons a rest =>
    have hh : sf.head = some a := hch.1
    have hrest : Chain sf.mem (sf.mem a).next rest := hch.2
    have hxs : xs = (sf.mem a).value :: rest.map (fun b => (sf.mem b).value) := by
      rw [← hval]; rfl
    subst hxs
    simp only [List.nodup_cons] at hnd
    refine ⟨by simp only [Poll, hh, List.head?_cons, Option.getD_some], rest, ?_, ?_, hnd.2,
      fun b hb => ?_, ?_, ?_⟩
    · simp only [Poll, hh]
      exact hrest
    · simp only [Poll, hh, List.tail_cons]
    · simp only [Poll, hh]
      exact hlt b (List.mem_cons_of_mem _ hb)
    · simp only [Poll, hh]
      cases hn : (sf.mem a).next with
      | none =>
        rw [hn] at hrest
        rw [chain_none hrest]
        rfl
      | some b =>
        rw [hn] at hrest
        obtain ⟨r2, hr2, _⟩ := chain_some hrest
        rw [htail, hr2]
        simp only [List.getLast?_cons_cons]
    · simp only [Poll, hh, hlen, List.length_cons]
      push_cast
      ring

/-- The call `Peek` returns the first value the queue holds, nil when it holds none. -/
theorem Peek_rep {sf : Queue V} {xs : List (Option V)} (h : Rep sf xs) :
    sf.Peek = xs.head?.getD none := by
  obtain ⟨as, hch, hval, _, _, _, _⟩ := h
  cases as with
  | nil =>
    have hh : sf.head = none := hch
    rw [← hval]
    simp only [Peek, hh, List.map_nil, List.head?_nil, Option.getD_none]
  | cons a rest =>
    have hh : sf.head = some a := hch.1
    rw [← hval]
    simp only [Peek, hh, List.map_cons, List.head?_cons, Option.getD_some]

/-- The length field counts the values the queue holds. -/
theorem Len_rep {sf : Queue V} {xs : List (Option V)} (h : Rep sf xs) :
    sf.Len = (xs.length : Int) := by
  obtain ⟨as, _, hval, _, _, _, hlen⟩ := h
  rw [← hval, List.length_map]
  exact hlen

end Queue

/-- One call on a queue that holds `xs` returns what the list model returns on `xs`, and the
queue after it holds the list model's list. -/
theorem queue_exec_refines {sf : Queue V} {xs : List (Option V)} (h : Rep sf xs) (op : Op V) :
    (exec sf op).1 = (modelExec xs op).1 ∧ Rep (exec sf op).2 (modelExec xs op).2 := by
  cases op with
  | Len => exact ⟨by simp only [exec, modelExec, Queue.Len_rep h], h⟩
  | IsEmpty => exact ⟨by simp only [exec, modelExec, Queue.IsEmpty, Queue.Len_rep h], h⟩
  | Clear => exact ⟨rfl, Queue.Clear_rep sf⟩
  | Add v => exact ⟨rfl, Queue.Add_rep h v⟩
  | Peek => exact ⟨by simp only [exec, modelExec, Queue.Peek_rep h], h⟩
  | Poll =>
    obtain ⟨h1, h2⟩ := Queue.Poll_rep h
    exact ⟨by simp only [exec, modelExec, h1], h2⟩

/-- A finite sequence of calls on a queue that holds `xs` returns what the list model returns
on `xs`, and the queue after it holds the list model's list. -/
theorem queue_trace_refines (ops : List (Op V)) :
    ∀ (sf : Queue V) (xs : List (Option V)), Rep sf xs →
      trace sf ops = modelTrace xs ops ∧ Rep (run sf ops) (modelRun xs ops) := by
  induction ops with
  | nil => intro sf xs h; exact ⟨rfl, h⟩
  | cons op ops ih =>
    intro sf xs h
    obtain ⟨h1, h2⟩ := queue_exec_refines h op
    obtain ⟨g1, g2⟩ := ih _ _ h2
    exact ⟨by simp only [trace, modelTrace, h1, g1], g2⟩

/-- A queue that holds no value has nil `head` and `tail` and length 0. -/
theorem rep_nil {sf : Queue V} (h : Rep sf []) :
    sf.head = none ∧ sf.tail = none ∧ sf.Len = 0 ∧ sf.IsEmpty = true := by
  have hlen := Queue.Len_rep h
  obtain ⟨as, hch, hval, _, _, htail, _⟩ := h
  have has : as = [] := List.map_eq_nil_iff.mp hval
  subst has
  refine ⟨hch, htail, hlen, ?_⟩
  simp only [Queue.IsEmpty, hlen, List.length_nil, Nat.cast_zero, decide_True]

theorem modelTrace_append (o1 o2 : List (Op V)) :
    ∀ xs : List (Option V), modelTrace xs (o1 ++ o2)
      = modelTrace xs o1 ++ modelTrace (modelRun xs o1) o2 := by
  induction o1 with
  | nil => intro xs; rfl
  | cons op o1 ih =>
    intro xs
    show (modelExec xs op).1 :: modelTrace (modelExec xs op).2 (o1 ++ o2) = _
    rw [ih]
    rfl

theorem modelRun_append (o1 o2 : List (Op V)) :
    ∀ xs : List (Option V), modelRun xs (o1 ++ o2) = modelRun (modelRun xs o1) o2 := by
  induction o1 with
  | nil => intro xs; rfl
  | cons op o1 ih =>
    intro xs
    show modelRun (modelExec xs op).2 (o1 ++ o2) = _
    rw [ih]
    rfl

theorem model_adds (ys : List (Option V)) :
    ∀ xs : List (Option V), modelTrace xs (ys.map Op.Add) = List.replicate ys.length Ret.unit ∧
      modelRun xs (ys.map Op.Add) = xs ++ ys := by
  induction ys with
  | nil => intro xs; exact ⟨rfl, (List.append_nil xs).symm⟩
  | cons y ys ih =>
    intro xs
    obtain ⟨h1, h2⟩ := ih (xs ++ [y])
    refine ⟨?_, ?_⟩
    · simp only [List.map_cons, modelTrace, modelExec, h1, List.length_cons,
        List.replicate_succ]
    · simp only [List.map_cons, modelRun, modelExec, h2, List.append_assoc,
        List.singleton_append]

theorem model_polls (xs : List (Option V)) :
    modelTrace xs (List.replicate xs.length Op.Poll) = xs.map Ret.val ∧
      modelRun xs (List.replicate xs.length Op.Poll) = [] := by
  induction xs with
  | nil => exact ⟨rfl, rfl⟩
  | cons x xs ih =>
    refine ⟨?_, ?_⟩
    · simp only [List.length_cons, List.replicate_succ, modelTrace, modelExec,
        List.head?_cons, Option.getD_some, List.tail_cons, ih.1, List.map_cons]
    · simp only [List.length_cons, List.replicate_succ, modelRun, modelExec, List.tail_cons,
        ih.2]

/-- C20: for every finite sequence of `Add`, `Poll`, `Peek`, `Clear` (and `Len`, `IsEmpty`)
calls on `New()` the queue returns what the list model returns on the empty list and holds the
list model's list afterwards; for every list of values x1..xn, adding them in order and then
calling `Poll` n times returns x1, ..., xn in that order and leaves the queue empty; and
whenever a sequence of calls has left the queue empty, a value added next is the head. -/
theorem C20_queue_fifo (ops : List (Op V)) :
    trace (New : Queue V) ops = modelTrace [] ops ∧
      Rep (run (New : Queue V) ops) (modelRun [] ops) ∧
      (∀ xs : List (Option V),
        trace (New : Queue V) (xs.map Op.Add ++ List.replicate xs.length Op.Poll)
          = List.replicate xs.length Ret.unit ++ xs.map Ret.val ∧
        (run (New : Queue V) (xs.map Op.Add ++ List.replicate xs.length Op.Poll)).Len = 0 ∧
        (run (New : Queue V) (xs.map Op.Add ++ List.replicate xs.length Op.Poll)).IsEmpty
          = true ∧
        (run (New : Queue V) (xs.map Op.Add ++ List.replicate xs.length Op.Poll)).head
          = none ∧
        (run (New : Queue V) (xs.map Op.Add ++ List.replicate xs.length Op.Poll)).tail
          = none) ∧
      (modelRun [] ops = [] → ∀ v : Option V,
        ((run (New : Queue V) ops).Add v).Peek = v ∧
        ((run (New : Queue V) ops).Add v).Poll.1 = v) := by
  obtain ⟨h1, h2⟩ := queue_trace_refines ops (New : Queue V) [] New_rep
  refine ⟨h1, h2, ?_, ?_⟩
  · intro xs
    obtain ⟨g1, g2⟩ := queue_trace_refines (xs.map Op.Add ++ List.replicate xs.length Op.Poll)
      (New : Queue V) [] New_rep
    have ha := model_adds xs ([] : List (Option V))
    have hp := model_polls xs
    rw [List.nil_append] at ha
    have hrun : modelRun ([] : List (Option V))
        (xs.map Op.Add ++ List.replicate xs.length Op.Poll) = [] := by
      rw [modelRun_append, ha.2, hp.2]
    rw [hrun] at g2
    obtain ⟨e1, e2, e3, e4⟩ := rep_nil g2
    refine ⟨?_, e3, e4, e1, e2⟩
    rw [g1, modelTrace_append, ha.1, ha.2, hp.1]
  · intro hempty v
    rw [hempty] at h2
    have hadd := Queue.Add_rep h2 v
    rw [List.nil_append] at hadd
    exact ⟨Queue.Peek_rep hadd, (Queue.Poll_rep hadd).1⟩

/-- C21: in every queue state `Peek()` returns the value the next `Poll()` returns, nil when
`head` is nil, and leaves the queue (head, tail, length, memory) as it was, so two consecutive
`Peek()` calls return the same value. -/
theorem C21_peek_never_mutates (sf : Queue V) :
    sf.Peek = sf.Poll.1 ∧ (sf.head = none → sf.Peek = none) ∧
      exec sf .Peek = (.val sf.Peek, sf) ∧
      (exec sf .Peek).2.head = sf.head ∧ (exec sf .Peek).2.tail = sf.tail ∧
      (exec sf .Peek).2.Len = sf.Len ∧
      trace sf [.Peek, .Peek] = [.val sf.Peek, .val sf.Peek] ∧
      trace sf [.Peek, .Poll] = [.val sf.Peek, .val sf.Peek] := by
  have h1 : sf.Peek = sf.Poll.1 := by
    unfold Queue.Peek Queue.Poll
    cases sf.head <;> rfl
  refine ⟨h1, ?_, rfl, rfl, rfl, rfl, rfl, ?_⟩
  · intro hh
    simp only [Queue.Peek, hh]
  · simp only [trace, exec, h1]

/-- C22: whenever a sequence of calls on `New()` has left the queue with `Len() = 0`, `Poll()`
returns nil and the queue it was given: `Len()` is still 0, `IsEmpty()` is true, `head` and
`tail` are nil. -/
theorem C22_poll_on_empty (ops : List (Op V)) (hlen : (run (New : Queue V) ops).Len = 0) :
    (run (New : Queue V) ops).Poll = (none, run (New : Queue V) ops) ∧
      (run (New : Queue V) ops).Poll.2.Len = 0 ∧
      (run (New : Queue V) ops).Poll.2.IsEmpty = true ∧
      (run (New : Queue V) ops).Poll.2.head = none ∧
      (run (New : Queue V) ops).Poll.2.tail = none := by
  obtain ⟨_, hrep⟩ := queue_trace_refines ops (New : Queue V) [] New_rep
  have hl := Queue.Len_rep hrep
  rw [hlen] at hl
  have hnil : modelRun ([] : List (Option V)) ops = [] := by
    apply List.length_eq_zero.mp
    exact_mod_cast hl.symm
  rw [hnil] at hrep
  obtain ⟨e1, e2, e3, e4⟩ := rep_nil hrep
  have hp : (run (New : Queue V) ops).Poll = (none, run (New : Queue V) ops) := by
    simp only [Queue.Poll, e1]
  rw [hp]
  exact ⟨rfl, e3, e4, e1, e2⟩

/-- C22 at the queue after one `Add` and two `Poll` calls. -/
theorem C22_poll_on_empty_witness :
    (run (New : Queue Nat) [.Add (some 1), .Poll, .Poll]).Len = 0 ∧
      (run (New : Queue Nat) [.Add (some 1), .Poll, .Poll]).Poll
        = (none, run (New : Queue Nat) [.Add (some 1), .Poll, .Poll]) ∧
      (run (New : Queue Nat) [.Add (some 1), .Poll, .Poll]).Poll.2.Len = 0 ∧
      (run (New : Queue Nat) [.Add (some 1), .Poll, .Poll]).Poll.2.IsEmpty = true ∧
      (run (New : Queue Nat) [.Add (some 1), .Poll, .Poll]).Poll.2.head = none ∧
      (run (New : Queue Nat) [.Add (some 1), .Poll, .Poll]).Poll.2.tail = none :=
  ⟨by decide, C22_poll_on_empty _ (by decide)⟩

/-- C23: for every queue state, after `Clear()` `Len()` is 0, `IsEmpty()` is true, `Peek()` and
`Poll()` return nil, and every sequence of calls returns on the cleared queue what it returns
on a queue returned by `New()`. -/
theorem C23_clear_empties (sf : Queue V) :
    sf.Clear.Len = 0 ∧ sf.Clear.IsEmpty = true ∧ sf.Clear.Peek = none ∧
      sf.Clear.Poll.1 = none ∧ sf.Clear.head = none ∧ sf.Clear.tail = none ∧
      (∀ ops, trace sf.Clear ops = trace (New : Queue V) ops) := by
  refine ⟨rfl, rfl, rfl, rfl, rfl, rfl, ?_⟩
  intro ops
  rw [(queue_trace_refines ops sf.Clear [] (Queue.Clear_rep sf)).1,
    (queue_trace_refines ops (New : Queue V) [] New_rep).1]

theorem modelRun_length (ops : List (Op V)) :
    ∀ xs : List (Option V), (modelRun xs ops).length = netCount xs.length ops := by
  induction ops with
  | nil => intro xs; rfl
  | cons op ops ih =>
    intro xs
    cases op with
    | Len => exact ih xs
    | IsEmpty => exact ih xs
    | Clear => exact ih []
    | Add v =>
      have := ih (xs ++ [v])
      simpa only [List.length_append, List.length_singleton] using this
    | Peek => exact ih xs
    | Poll =>
      have := ih xs.tail
      simpa only [List.length_tail] using this

theorem netCount_adds (ys : List (Option V)) :
    ∀ n : Nat, netCount n (ys.map Op.Add) = n + ys.length := by
  induction ys with
  | nil => intro n; rfl
  | cons y ys ih =>
    intro n
    simp only [List.map_cons, netCount, ih, List.length_cons]
    omega

/-- The last element of a chain has a nil `next`. -/
theorem chain_last_next {mem : Nat → element V} {t : Nat} :
    ∀ (init : List Nat) (p : Option Nat), Chain mem p (init ++ [t]) → (mem t).next = none := by
  intro init
  induction init with
  | nil => intro p h; exact h.2
  | cons a init ih => intro p h; exact ih _ h.2

/-- A pointer starts at most one chain. -/
theorem chain_unique {mem : Nat → element V} :
    ∀ (as bs : List Nat) (p : Option Nat), Chain mem p as → Chain mem p bs → as = bs := by
  intro as
  induction as with
  | nil =>
    intro bs p ha hb
    have hp : p = none := ha
    subst hp
    exact (chain_none hb).symm
  | cons a as ih =>
    intro bs p ha hb
    have hp : p = some a := ha.1
    subst hp
    obtain ⟨rest, rfl, hrest⟩ := chain_some hb
    rw [ih rest _ ha.2 hrest]

/-- C27: after every finite sequence of calls on `New()` the elements linked from `head` are
at pairwise distinct addresses, every list of addresses linked from `head` is that one,
`Len()` is their number, which is the number of `Add` calls minus the number of `Poll` calls
that returned an element since the last `Clear`, and is not negative; `head` is nil exactly
when `tail` is nil, exactly when `Len()` is 0; `tail` is the last element linked from `head`
and its `next` is nil; and adding n elements to `New()` gives `Len() = n`. -/
theorem C27_queue_structure (ops : List (Op V)) :
    (∃ as : List Nat, Chain (run (New : Queue V) ops).mem (run (New : Queue V) ops).head as ∧
      (∀ bs, Chain (run (New : Queue V) ops).mem (run (New : Queue V) ops).head bs → bs = as) ∧
      as.Nodup ∧
      (run (New : Queue V) ops).Len = (as.length : Int) ∧
      as.length = netCount 0 ops ∧
      (run (New : Queue V) ops).tail = as.getLast? ∧
      (∀ t, (run (New : Queue V) ops).tail = some t →
        ((run (New : Queue V) ops).mem t).next = none)) ∧
    0 ≤ (run (New : Queue V) ops).Len ∧
    ((run (New : Queue V) ops).head = none ↔ (run (New : Queue V) ops).tail = none) ∧
    ((run (New : Queue V) ops).tail = none ↔ (run (New : Queue V) ops).Len = 0) ∧
    (∀ xs : List (Option V), (run (New : Queue V) (xs.map Op.Add)).Len = (xs.length : Int)) := by
  have key : ∀ ops : List (Op V), ∃ as : List Nat,
      Chain (run (New : Queue V) ops).mem (run (New : Queue V) ops).head as ∧ as.Nodup ∧
      (run (New : Queue V) ops).Len = (as.length : Int) ∧ as.length = netCount 0 ops ∧
      (run (New : Queue V) ops).tail = as.getLast? := by
    intro ops
    obtain ⟨_, hrep⟩ := queue_trace_refines ops (New : Queue V) [] New_rep
    have hcount : (modelRun ([] : List (Option V)) ops).length = netCount 0 ops :=
      modelRun_length ops []
    obtain ⟨as, hch, hval, hnd, _, htail, hlen⟩ := hrep
    refine ⟨as, hch, hnd, hlen, ?_, htail⟩
    rw [← hcount, ← hval, List.length_map]
  obtain ⟨as, hch, hnd, hlen, hcount, htail⟩ := key ops
  have hhead : (run (New : Queue V) ops).head = none ↔ as = [] := by
    constructor
    · intro hh
      rw [hh] at hch
      exact chain_none hch
    · intro has
      subst has
      exact hch
  have htl : (run (New : Queue V) ops).tail = none ↔ as = [] := by
    rw [htail]
    exact List.getLast?_eq_none_iff
  have hl0 : (run (New : Queue V) ops).Len = 0 ↔ as = [] := by
    rw [hlen]
    constructor
    · intro h0
      apply List.length_eq_zero.mp
      exact_mod_cast h0
    · intro has
      subst has
      rfl
  refine ⟨⟨as, hch, fun bs hbs => chain_unique bs as _ hbs hch, hnd, hlen, hcount, htail, ?_⟩,
    ?_, hhead.trans htl.symm, htl.trans hl0.symm, ?_⟩
  · intro t ht
    rw [htail] at ht
    have hne : as ≠ [] := by
      intro has
      subst has
      simp at ht
    have hsplit : as = as.dropLast ++ [t] := by
      have h1 := (List.dropLast_append_getLast hne).symm
      have h2 : as.getLast? = some (as.getLast hne) := List.getLast?_eq_getLast as hne
      rw [h2] at ht
      rw [Option.some.inj ht] at h1
      exact h1
    rw [hsplit] at hch
    exact chain_last_next _ _ hch
  · rw [hlen]
    exact Int.natCast_nonneg _
  · intro xs
    obtain ⟨bs, _, _, hl, hc, _⟩ := key (xs.map Op.Add)
    rw [hl, hc, netCount_adds, Nat.zero_add]

end queue
